import Mathlib

/-!
# secrets-manager: the Synchronizer

A shallow embedding of `src/secrets-manager/secrets_manager.go`
(`getDesiredState`, `getCurrentState`, `SyncState`, `upsertSecret`), of the
types of `src/pkg/apis/secretsmanager/v1alpha1/types.go` they work on, and of
`CreateCRD` of `src/pkg/apis/secretsmanager/v1alpha1/createcrd.go`.  Packages of
the repository that are not among the sources (`backend`, `errors`,
`controller`) are modelled from the specification where a statement needs them;
each such definition says so.

Modelling conventions.

* The backend client, the target-store (Kubernetes) client and the clock are
  external collaborators.  They are arbitrary transition functions over one
  world state `σ`; every theorem quantifies over them.
* Go values that can be `nil` keep that possibility: a `[]byte` is an
  `Option (List Byte)`, a `map[string][]byte` is an `Option` of its entries,
  an `error` result is an `Option Error`.  `reflect.DeepEqual` tells a nil map
  from an empty one, so the embedding does too.
* `SecretDefinitionSpec.Data` is a Go map.  It is represented by the list of
  its entries in the order in which the `range` loop of `getDesiredState`
  visits them.  Go leaves that order unspecified, so every ordering of the
  entries is a possible run; the keys of a Go map are pairwise distinct.
* The two Prometheus vectors are functions of their two labels, carried in the
  program state together with a log of the target-store calls made so far.
* Logging has no effect on any of the above and is left out.
-/

namespace SecretsManager

/-! ## Go values -/

/-- One byte of a Go `string` or `[]byte`. -/
abbrev Byte := Nat

/-- A Go `string` holding secret content, as its sequence of bytes. -/
abbrev Content := List Byte

/-- A Go `[]byte`; `none` is the nil slice. -/
abbrev Bytes := Option (List Byte)

/-- The entries of a non-nil Go `map[string][]byte`. -/
abbrev Entries := List (String × Bytes)

/-- A Go `map[string][]byte`; `none` is the nil map. -/
abbrev ByteMap := Option Entries

/-- The bytes of an ASCII string literal, as Go's `[]byte("...")` yields them. -/
def ascii (s : String) : Content := s.toList.map Char.toNat

/-- Map index expression `m[k]` with the comma-ok flag: `none` when `k` is absent. -/
def mapIndex : Entries → String → Option Bytes
  | [], _ => none
  | (k', v) :: rest, k => if k' = k then some v else mapIndex rest k

/-- Map assignment `m[k] = v`: overwrite the entry of `k`, or add one. -/
def mapAssign : Entries → String → Bytes → Entries
  | [], k, v => [(k, v)]
  | (k', v') :: rest, k, v =>
    if k' = k then (k, v) :: rest else (k', v') :: mapAssign rest k v

/-- The keys of a map, in the order of its entries. -/
def mapKeys (m : Entries) : List String := m.map Prod.fst

/-- Go's `reflect.DeepEqual` at type `map[string][]byte`: both nil, or both
non-nil with the same length and every key of the first mapped by the second to
a deeply equal slice (both nil, or both non-nil with the same bytes). -/
def DeepEqual (x y : ByteMap) : Bool :=
  match x, y with
  | none, none => true
  | some m1, some m2 =>
    decide (m1.length = m2.length) && m1.all (fun kv => decide (mapIndex m2 kv.1 = some kv.2))
  | _, _ => false

/-! ## Errors -/

/-- Modelled from the spec: the error values of §7; package `errors` of the
repository is not among the sources.  `Other` stands for every opaque error of
a collaborator (backend read, target read, target write). -/
inductive Error where
  | EncodingNotImplemented (encoding : String)
  | DecodeError (encoding : String)
  | K8sSecretNotFound (ns name : String)
  | Other (msg : String)
  deriving DecidableEq, Repr

/-- Modelled from the spec: `errors.IsK8sSecretNotFound`, the "distinguishable
not-found condition" of the target-store contract (§6); false on a nil error. -/
def IsK8sSecretNotFound : Option Error → Bool
  | some (Error.K8sSecretNotFound _ _) => true
  | _ => false

/-! ## Data model (`types.go`) -/

/-- Reference to a secret in the backend (`DatasourceSpec`). -/
structure DatasourceSpec where
  Path : String
  Key : String
  Encoding : String
  deriving DecidableEq, Repr

/-- The spec of a SecretDefinition (`SecretDefinitionSpec`).  A nil and an
empty `Namespaces` (or `Data`) behave alike under `range` and are both `[]`.
The Go field `Type` is `Typ` here, `Type` being reserved. -/
structure SecretDefinitionSpec where
  Name : String
  Namespaces : List String
  Typ : String
  Data : List (String × DatasourceSpec)
  deriving DecidableEq, Repr

/-- The record handed to the target store (`k8s.Secret`), with the fields
`upsertSecret` fills in. -/
structure Secret where
  Typ : String
  Name : String
  Labels : List (String × String)
  Namespace : String
  Data : ByteMap
  deriving DecidableEq, Repr

/-- A Go `time.Time`, as far as `upsertSecret` observes it: its `Format` under
a layout and its `Unix` seconds. -/
structure Time where
  Format : String → String
  Unix : Int

/-- The layout constant `timestampFormat`. -/
def timestampFormat : String := "2006-01-02T15.04.05Z"

/-! ## Collaborators -/

/-- A decoder of the codec registry (`backend.Decoder`). -/
structure Decoder where
  DecodeString : Content → Except Error Bytes

/-- The backend client (`backend.Client`). -/
structure BackendClient (σ : Type) where
  ReadSecret : String → String → σ → Except Error Content × σ

/-- The target-store client (`k8s.Client`).  `ReadSecret` returns its map and
its error side by side, as the Go method does. -/
structure K8sClient (σ : Type) where
  ReadSecret : String → String → σ → (ByteMap × Option Error) × σ
  UpsertSecret : Secret → σ → Option Error × σ

/-- The receiver of the methods (`secretManager`), together with the two
package-level functions they call: `backend.NewDecoder` and `time.Now`. -/
structure secretManager (σ : Type) where
  kubernetes : K8sClient σ
  backend : BackendClient σ
  NewDecoder : String → Except Error Decoder
  Now : σ → Time × σ

/-! ## Program state -/

/-- A call on the target-store client. -/
inductive Call where
  | ReadSecret (ns name : String)
  | UpsertSecret (secret : Secret)
  deriving DecidableEq, Repr

/-- The state a reconciliation runs in: the world of the collaborators, the
counter vector `secretSyncErrorsCount{name, namespace}`, the gauge vector
`secretLastUpdated{name, namespace}` (`none` while never set) and the log of
target-store calls, oldest first. -/
structure State (σ : Type) where
  world : σ
  secretSyncErrorsCount : String → String → Nat
  secretLastUpdated : String → String → Option Int
  calls : List Call

/-- The effect of `secretSyncErrorsCount.WithLabelValues(name, ns).Inc()`. -/
def incErrors {σ : Type} (name ns : String) (st : State σ) : State σ :=
  { st with secretSyncErrorsCount := fun n m =>
      if n = name ∧ m = ns then st.secretSyncErrorsCount n m + 1
      else st.secretSyncErrorsCount n m }

/-- The effect of `secretLastUpdated.WithLabelValues(name, ns).Set(v)`. -/
def setLastUpdated {σ : Type} (name ns : String) (v : Int) (st : State σ) : State σ :=
  { st with secretLastUpdated := fun n m =>
      if n = name ∧ m = ns then some v else st.secretLastUpdated n m }

/-! ## The methods of `secrets_manager.go` -/

/-- The `range secret.Data` loop of `getDesiredState`: `acc` is `desiredState`
so far.  An entry is read from the backend, its decoder is looked up, the value
is decoded and stored; the first failure returns `nil, err`. -/
def getDesiredStateLoop {σ : Type} (s : secretManager σ) :
    List (String × DatasourceSpec) → Entries → σ → (ByteMap × Option Error) × σ
  | [], acc, w => ((some acc, none), w)
  | (k, v) :: rest, acc, w =>
    match s.backend.ReadSecret v.Path v.Key w with
    | (Except.error err, w1) => ((none, some err), w1)
    | (Except.ok bSecret, w1) =>
      match s.NewDecoder v.Encoding with
      | Except.error err => ((none, some err), w1)
      | Except.ok decoder =>
        match decoder.DecodeString bSecret with
        | Except.error err => ((none, some err), w1)
        | Except.ok b => getDesiredStateLoop s rest (mapAssign acc k b) w1

/-- The method `getDesiredState`: start from `make(map[string][]byte)`. -/
def getDesiredState {σ : Type} (s : secretManager σ) (secret : SecretDefinitionSpec) (w : σ) :
    (ByteMap × Option Error) × σ :=
  getDesiredStateLoop s secret.Data [] w

/-- The method `getCurrentState`: one `ReadSecret` on the target store, whose
map and error are returned as they come. -/
def getCurrentState {σ : Type} (s : secretManager σ) (ns name : String) (st : State σ) :
    (ByteMap × Option Error) × State σ :=
  match s.kubernetes.ReadSecret ns name st.world with
  | (r, w1) => (r, { st with world := w1, calls := st.calls ++ [Call.ReadSecret ns name] })

/-- The record `upsertSecret` builds at the instant `lastUpdate`. -/
def mkSecret (secretType ns name : String) (data : ByteMap) (lastUpdate : Time) : Secret :=
  { Typ := secretType
    Name := name
    Labels := [("managedBy", "secrets-manager"), ("lastUpdate", lastUpdate.Format timestampFormat)]
    Namespace := ns
    Data := data }

/-- The method `upsertSecret`: take the time, build the record, upsert it; on
success set the gauge to the unix seconds of that time. -/
def upsertSecret {σ : Type} (s : secretManager σ) (secretType ns name : String) (data : ByteMap)
    (st : State σ) : Option Error × State σ :=
  match s.Now st.world with
  | (lastUpdate, w1) =>
    match s.kubernetes.UpsertSecret (mkSecret secretType ns name data lastUpdate) w1 with
    | (some err, w2) =>
      (some err, { st with world := w2, calls := st.calls ++
        [Call.UpsertSecret (mkSecret secretType ns name data lastUpdate)] })
    | (none, w2) =>
      (none, setLastUpdated name ns lastUpdate.Unix { st with world := w2, calls := st.calls ++
        [Call.UpsertSecret (mkSecret secretType ns name data lastUpdate)] })

/-- The body of the second `range secret.Namespaces` loop of `SyncState`. -/
def syncNamespace {σ : Type} (s : secretManager σ) (secret : SecretDefinitionSpec)
    (desiredState : ByteMap) (st : State σ) (ns : String) : State σ :=
  match getCurrentState s ns secret.Name st with
  | ((currentState, err), st1) =>
    if err.isSome && !IsK8sSecretNotFound err then
      incErrors secret.Name ns st1
    else if !DeepEqual desiredState currentState then
      match upsertSecret s secret.Typ ns secret.Name desiredState st1 with
      | (some _, st2) => incErrors secret.Name ns st2
      | (none, st2) => st2
    else st1

/-- The method `SyncState`. -/
def SyncState {σ : Type} (s : secretManager σ) (secret : SecretDefinitionSpec) (st : State σ) :
    Option Error × State σ :=
  match getDesiredState s secret st.world with
  | ((_, some err), w1) =>
    (some err, secret.Namespaces.foldl (fun acc ns => incErrors secret.Name ns acc)
      { st with world := w1 })
  | ((desiredState, none), w1) =>
    (none, secret.Namespaces.foldl (syncNamespace s secret desiredState) { st with world := w1 })

/-! ## Observations on the call log -/

/-- The records of the `UpsertSecret` calls of a log, in order. -/
def upserts : List Call → List Secret
  | [] => []
  | Call.UpsertSecret sec :: rest => sec :: upserts rest
  | Call.ReadSecret _ _ :: rest => upserts rest

/-- The (namespace, name) pairs of the `ReadSecret` calls of a log, in order. -/
def reads : List Call → List (String × String)
  | [] => []
  | Call.ReadSecret ns name :: rest => (ns, name) :: reads rest
  | Call.UpsertSecret _ :: rest => reads rest

/-! ## Codec registry -/

/-- The value of a character of the standard base64 alphabet (RFC 4648). -/
def base64Value (c : Byte) : Option Nat :=
  if 65 ≤ c ∧ c ≤ 90 then some (c - 65)
  else if 97 ≤ c ∧ c ≤ 122 then some (c - 71)
  else if 48 ≤ c ∧ c ≤ 57 then some (c + 4)
  else if c = 43 then some 62
  else if c = 47 then some 63
  else none

/-- Modelled from the spec: "standard base64 decoding" (§4.4), the decoder
package `backend` registers under `"base64"`; that package is not among the
sources.  Padded RFC 4648 input: groups of four alphabet characters, the last
group possibly ending in one or two `=`. -/
def base64Decode : Content → Option (List Byte)
  | [] => some []
  | a :: b :: c :: d :: rest =>
    match base64Value a, base64Value b with
    | some x, some y =>
      if c = 61 ∧ d = 61 ∧ rest = [] then some [(x * 4 + y / 16) % 256]
      else
        match base64Value c with
        | none => none
        | some z =>
          if d = 61 ∧ rest = [] then some [(x * 4 + y / 16) % 256, (y * 16 + z / 4) % 256]
          else
            match base64Value d, base64Decode rest with
            | some t, some tail =>
              some ((x * 4 + y / 16) % 256 :: (y * 16 + z / 4) % 256 :: (z * 64 + t) % 256 :: tail)
            | _, _ => none
    | _, _ => none
  | _ => none

/-- Modelled from the spec: the identity decoder of §4.4 (encoding `""`,
pass-through bytes); package `backend` is not among the sources. -/
def identityDecoder : Decoder :=
  { DecodeString := fun s => Except.ok (some s) }

/-- Modelled from the spec: the base64 decoder of §4.4; a malformed payload is
the `DecodeError` of §4.3. -/
def base64Decoder : Decoder :=
  { DecodeString := fun s =>
      match base64Decode s with
      | some b => Except.ok (some b)
      | none => Except.error (Error.DecodeError "base64") }

/-- Modelled from the spec: the Codec Registry `backend.NewDecoder` (§4.4),
absent from the sources.  `""` is the identity (pass-through bytes), `"base64"`
is standard base64, any other name is `EncodingNotImplemented`; a malformed
payload is a `DecodeError`. -/
def backend.NewDecoder (encoding : String) : Except Error Decoder :=
  if encoding = "" then Except.ok identityDecoder
  else if encoding = "base64" then Except.ok base64Decoder
  else Except.error (Error.EncodingNotImplemented encoding)

/-! ## Test doubles (`secrets_manager_test.go`) -/

/-- A row of the test backend (`fakeBackendSecret`). -/
structure fakeBackendSecret where
  Path : String
  Key : String
  Content : Content

/-- The method `fakeBackend.ReadSecret` of the tests: the content of the first
row with that path and key, else the error "Not found". -/
def fakeBackend.ReadSecret : List fakeBackendSecret → String → String → Except Error Content
  | [], _, _ => Except.error (Error.Other "Not found")
  | fakeSecret :: rest, path, key =>
    if fakeSecret.Path = path ∧ fakeSecret.Key = key then Except.ok fakeSecret.Content
    else fakeBackend.ReadSecret rest path key

/-- The test backend as a client (`newFakeBackend`); it leaves the world alone. -/
def newFakeBackend {σ : Type} (fakeSecrets : List fakeBackendSecret) : BackendClient σ :=
  { ReadSecret := fun path key w => (fakeBackend.ReadSecret fakeSecrets path key, w) }

/-- A target store with canned answers, as the gomock client of the tests:
`read` is what `ReadSecret` returns, `upsert` what `UpsertSecret` returns. -/
def mockKubernetes {σ : Type} (read : String → String → ByteMap × Option Error)
    (upsert : Secret → Option Error) : K8sClient σ :=
  { ReadSecret := fun ns name w => (read ns name, w)
    UpsertSecret := fun secret w => (upsert secret, w) }

/-- A clock stuck at one instant. -/
def fixedNow {σ : Type} (w : σ) : Time × σ :=
  ({ Format := fun _ => "2019-01-01T00.00.00Z", Unix := 1546300800 }, w)

/-- A manager over a mock target store, the test backend, the codec registry of
the spec and the fixed clock. -/
def mockManager (fakeSecrets : List fakeBackendSecret)
    (read : String → String → ByteMap × Option Error) (upsert : Secret → Option Error) :
    secretManager Unit :=
  { kubernetes := mockKubernetes read upsert
    backend := newFakeBackend fakeSecrets
    NewDecoder := backend.NewDecoder
    Now := fixedNow }

/-- The state of a fresh process: metrics reset, nothing called yet. -/
def initState {σ : Type} (w : σ) : State σ :=
  { world := w
    secretSyncErrorsCount := fun _ _ => 0
    secretLastUpdated := fun _ _ => none
    calls := [] }

/-! ## Example inputs -/

/-- The spec of `TestSyncStateErrorGetDesired`, with its namespace listed twice. -/
def specTwice : SecretDefinitionSpec :=
  { Name := "secret-name"
    Namespaces := ["ns", "ns"]
    Typ := "Opaque"
    Data := [("value1", { Path := "some/path", Key := "key-in-vault", Encoding := "" })] }

/-- The backend of the tests: one row, "fake-content" at some/path, key-in-vault. -/
def testBackendRows : List fakeBackendSecret :=
  [{ Path := "some/path", Key := "key-in-vault", Content := ascii "fake-content" }]

/-- The current content the mock store of the tests returns. -/
def fakeCurrentSecretData : ByteMap := some [("value1", some (ascii "fake-current-data"))]

/-- The manager of `TestSyncStateErrorGetCurrentInOneSecret`: reading "ns2"
fails with "some error", every other namespace holds
`fakeCurrentSecretData`, every upsert is accepted. -/
def isolationManager : secretManager Unit :=
  mockManager testBackendRows
    (fun ns _ => if ns = "ns2" then (none, some (Error.Other "some error"))
      else (fakeCurrentSecretData, none))
    (fun _ => none)

/-- The spec of the tests over the given namespaces. -/
def testSpec (namespaces : List String) : SecretDefinitionSpec :=
  { Name := "secret-name"
    Namespaces := namespaces
    Typ := "Opaque"
    Data := [("value1", { Path := "some/path", Key := "key-in-vault", Encoding := "" })] }

/-- The entry `v` goes through in every world: its backend read succeeds, its
encoding has a decoder, and the decoder accepts the value read. -/
def entrySucceeds {σ : Type} (s : secretManager σ) (v : DatasourceSpec) : Prop :=
  ∀ w, ∃ b d x, (s.backend.ReadSecret v.Path v.Key w).1 = Except.ok b ∧
    s.NewDecoder v.Encoding = Except.ok d ∧ d.DecodeString b = Except.ok x

/-- The spec of `TestGetDesiredStateEncodingNotImplemented` and of
`TestGetDesiredStateBadB64Content`: one entry `key1` under the given encoding. -/
def encodedSpec (encoding : String) : SecretDefinitionSpec :=
  { Name := "secret-name"
    Namespaces := ["ns"]
    Typ := "Opaque"
    Data := [("key1", { Path := "some/path", Key := "key-in-vault", Encoding := encoding })] }

/-- A manager whose backend holds the given rows, over a target store that
answers not-found, with a nil map, to every read and accepts every write. -/
def contentManager (rows : List fakeBackendSecret) : secretManager Unit :=
  mockManager rows (fun ns name => (none, some (Error.K8sSecretNotFound ns name))) (fun _ => none)

/-- The backend of `TestGetDesiredStateBadB64Content`: the value at some/path,
key-in-vault is "this is not base64!!". -/
def badBase64Rows : List fakeBackendSecret :=
  [{ Path := "some/path", Key := "key-in-vault", Content := ascii "this is not base64!!" }]

/-- A spec with two entries: `key0`, which the backend `badBase64Rows` does not
hold, visited first, then the base64 entry `key1` of the tests. -/
def twoEntrySpec : SecretDefinitionSpec :=
  { Name := "secret-name"
    Namespaces := ["ns"]
    Typ := "Opaque"
    Data := [("key0", { Path := "other/path", Key := "other-key", Encoding := "" }),
             ("key1", { Path := "some/path", Key := "key-in-vault", Encoding := "base64" })] }

/-- The spec of the end-to-end example of §8. -/
def endToEndSpec : SecretDefinitionSpec :=
  { Name := "test-secret"
    Namespaces := ["default"]
    Typ := "Opaque"
    Data := [("value1", { Path := "some/path", Key := "key-in-vault", Encoding := "" })] }

/-- The manager `s` over a target store whose reads return the same maps with a
nil error. -/
def readAsSuccess {σ : Type} (s : secretManager σ) : secretManager σ :=
  { s with kubernetes :=
      { ReadSecret := fun ns name w =>
          (((s.kubernetes.ReadSecret ns name w).1.1, none), (s.kubernetes.ReadSecret ns name w).2)
        UpsertSecret := s.kubernetes.UpsertSecret } }

/-- A spec with no Data entry, for the namespace "ns". -/
def emptyDataSpec : SecretDefinitionSpec :=
  { Name := "secret-name"
    Namespaces := ["ns"]
    Typ := "Opaque"
    Data := [] }

/-- What a read of `(ns, name)` would return as map in world `w`. -/
def stored {σ : Type} (s : secretManager σ) (w : σ) (ns name : String) : ByteMap :=
  (s.kubernetes.ReadSecret ns name w).1.1

/-- A target store that holds what is written to it and is changed by nothing
but its own successful `UpsertSecret`: reads succeed or report not-found; a
read, a backend read and the clock leave every stored map as it is; an accepted
upsert makes the record's Data the stored map of its namespace and name and
leaves the others; a rejected upsert changes nothing. -/
structure FaithfulStore {σ : Type} (s : secretManager σ) : Prop where
  read_ok : ∀ w ns name, (s.kubernetes.ReadSecret ns name w).1.2 = none ∨
    IsK8sSecretNotFound (s.kubernetes.ReadSecret ns name w).1.2 = true
  read_frame : ∀ w ns0 name0 ns name,
    stored s (s.kubernetes.ReadSecret ns0 name0 w).2 ns name = stored s w ns name
  backend_frame : ∀ w path key ns name,
    stored s (s.backend.ReadSecret path key w).2 ns name = stored s w ns name
  now_frame : ∀ w ns name, stored s (s.Now w).2 ns name = stored s w ns name
  upsert_written : ∀ w sec, (s.kubernetes.UpsertSecret sec w).1 = none →
    stored s (s.kubernetes.UpsertSecret sec w).2 sec.Namespace sec.Name = sec.Data
  upsert_frame : ∀ w sec ns name, (ns ≠ sec.Namespace ∨ name ≠ sec.Name) →
    stored s (s.kubernetes.UpsertSecret sec w).2 ns name = stored s w ns name
  upsert_rejected : ∀ w sec ns name, (s.kubernetes.UpsertSecret sec w).1 ≠ none →
    stored s (s.kubernetes.UpsertSecret sec w).2 ns name = stored s w ns name

/-- The world of an in-memory target store: the Data held per namespace and
name (`none` while absent) and the number of upserts it will still reject. -/
structure StoreWorld where
  held : String → String → Option ByteMap
  rejects : Nat

/-- An in-memory target store.  A read returns the Data held, or nil and
not-found.  An upsert stores the record's Data; a flaky store first rejects as
many upserts as its world says, changing nothing. -/
def memoryStore (flaky : Bool) : K8sClient StoreWorld :=
  { ReadSecret := fun ns name w =>
      match w.held ns name with
      | some data => ((data, none), w)
      | none => ((none, some (Error.K8sSecretNotFound ns name)), w)
    UpsertSecret := fun sec w =>
      if flaky && decide (0 < w.rejects) then
        (some (Error.Other "rejected"), { w with rejects := w.rejects - 1 })
      else
        (none, { w with held := fun ns name =>
          if ns = sec.Namespace ∧ name = sec.Name then some sec.Data else w.held ns name }) }

/-- A manager over the in-memory store, the test backend, the codec registry of
the spec and the fixed clock. -/
def memoryManager (flaky : Bool) (fakeSecrets : List fakeBackendSecret) :
    secretManager StoreWorld :=
  { kubernetes := memoryStore flaky
    backend := newFakeBackend fakeSecrets
    NewDecoder := backend.NewDecoder
    Now := fixedNow }

/-- An empty in-memory store that will reject its next `rejects` upserts. -/
def emptyStore (rejects : Nat) : StoreWorld :=
  { held := fun _ _ => none, rejects := rejects }

/-- A backend with two rows, for the two-entry spec below. -/
def twoRows : List fakeBackendSecret :=
  [{ Path := "some/path", Key := "key-in-vault", Content := ascii "fake-content" },
   { Path := "other/path", Key := "other-key", Content := ascii "b3RoZXI=" }]

/-- The two entries of a spec, `value2` being base64. -/
def twoEntries : List (String × DatasourceSpec) :=
  [("value1", { Path := "some/path", Key := "key-in-vault", Encoding := "" }),
   ("value2", { Path := "other/path", Key := "other-key", Encoding := "base64" })]

/-- A spec over two entries that lists the namespace "ns1" twice. -/
def repeatSpec : SecretDefinitionSpec :=
  { Name := "secret-name"
    Namespaces := ["ns1", "ns2", "ns1"]
    Typ := "Opaque"
    Data := twoEntries }

/-- The bytes of a slice; a nil slice has none. -/
def bytesOf (b : Bytes) : List Byte := b.getD []

/-- Structural equality as the spec words it (§4.3 b): identical key sets and
identical byte content for every key.  A nil map has no key and a nil slice no
byte, so nil and empty are not told apart. -/
def structurallyEqual (x y : ByteMap) : Bool :=
  (mapKeys (x.getD [])).all (fun k => decide (k ∈ mapKeys (y.getD []))) &&
  (mapKeys (y.getD [])).all (fun k => decide (k ∈ mapKeys (x.getD []))) &&
  (mapKeys (x.getD [])).all (fun k =>
    decide ((mapIndex (x.getD []) k).map bytesOf = (mapIndex (y.getD []) k).map bytesOf))

/-- A manager over a target store where every secret exists with no Data: a
read succeeds with the nil map; every write is accepted. -/
def emptySecretsManager (rows : List fakeBackendSecret) : secretManager Unit :=
  mockManager rows (fun _ _ => (none, none)) (fun _ => none)

/-- The calls of one iteration of the namespace loop on `ns`: one `ReadSecret`
of `(ns, spec.Name)`, then at most one `UpsertSecret`, of the record built for
`ns` from the desired state `d` at an instant the clock gave. -/
def namespaceBlock {σ : Type} (s : secretManager σ) (secret : SecretDefinitionSpec)
    (d : ByteMap) (ns : String) (blk : List Call) : Prop :=
  blk = [Call.ReadSecret ns secret.Name] ∨
  ∃ w, blk = [Call.ReadSecret ns secret.Name,
    Call.UpsertSecret (mkSecret secret.Typ ns secret.Name d (s.Now w).1)]

/-- The manager `s` over a target store that does to the world what the store
of `s` does but reports every `UpsertSecret` as accepted. -/
def upsertAsSuccess {σ : Type} (s : secretManager σ) : secretManager σ :=
  { s with kubernetes :=
      { ReadSecret := s.kubernetes.ReadSecret
        UpsertSecret := fun sec w => (none, (s.kubernetes.UpsertSecret sec w).2) } }

/-- The manager of `TestSyncStateErrorUpsertSecret`: every namespace holds
`fakeCurrentSecretData`, every upsert fails with "some error". -/
def rejectingManager : secretManager Unit :=
  mockManager testBackendRows (fun _ _ => (fakeCurrentSecretData, none))
    (fun _ => some (Error.Other "some error"))

/-- The state in which `SyncState`, the desired state computed, reaches the
namespace that follows the namespaces `pre` of its list. -/
def loopState {σ : Type} (s : secretManager σ) (secret : SecretDefinitionSpec) (st : State σ)
    (pre : List String) : State σ :=
  pre.foldl (syncNamespace s secret (getDesiredState s secret st.world).1.1)
    { st with world := (getDesiredState s secret st.world).2 }

/-! ## Schema bootstrap (`createcrd.go`) -/

/-- The scope of a custom resource (`apiextensionsv1beta1.ResourceScope`). -/
inductive ResourceScope where
  | ClusterScoped
  | NamespaceScoped
  deriving DecidableEq, Repr

/-- The names of a custom resource (`CustomResourceDefinitionNames`), with the
fields `CreateCRD` fills in. -/
structure CustomResourceDefinitionNames where
  Plural : String
  Kind : String
  deriving DecidableEq, Repr

/-- The spec of a definition (`CustomResourceDefinitionSpec`). -/
structure CustomResourceDefinitionSpec where
  Group : String
  Version : String
  Scope : ResourceScope
  Names : CustomResourceDefinitionNames
  deriving DecidableEq, Repr

/-- A definition (`CustomResourceDefinition`): the object name of its
`ObjectMeta` and its spec. -/
structure CustomResourceDefinition where
  Name : String
  Spec : CustomResourceDefinitionSpec
  deriving DecidableEq, Repr

/-- The constant `CRDPlural`. -/
def CRDPlural : String := "secretdefinitions"

/-- The constant `CRDVersion`. -/
def CRDVersion : String := "v1alpha1"

/-- The constant `FullCRDName`; `CRDGroup` is `secretsmanager.GroupName`, a
constant of a package that is not among the sources, taken as a parameter. -/
def FullCRDName (GroupName : String) : String := CRDPlural ++ "." ++ GroupName

/-- The API `CreateCRD` talks to: `Create` of the CustomResourceDefinition
client (its error result; the object returned is dropped by the caller) and
`apierrors.IsAlreadyExists`. -/
structure Apiextensions (σ : Type) where
  Create : CustomResourceDefinition → σ → Option Error × σ
  IsAlreadyExists : Error → Bool

/-- The definition `CreateCRD` builds.  `reflect.TypeOf(SecretDefinition{}).Name()`
is the name of the Go type, "SecretDefinition". -/
def crd (GroupName : String) : CustomResourceDefinition :=
  { Name := FullCRDName GroupName
    Spec :=
      { Group := GroupName
        Version := CRDVersion
        Scope := ResourceScope.NamespaceScoped
        Names := { Plural := CRDPlural, Kind := "SecretDefinition" } } }

/-- The function `CreateCRD`. -/
def CreateCRD {σ : Type} (clientset : Apiextensions σ) (GroupName : String) (w : σ) :
    Option Error × σ :=
  match clientset.Create (crd GroupName) w with
  | (some err, w1) => if clientset.IsAlreadyExists err then (none, w1) else (some err, w1)
  | (none, w1) => (none, w1)

/-- A definition client that holds the names of the definitions created: a
second `Create` of a name fails with the error "already exists". -/
def memoryApiextensions : Apiextensions (List String) :=
  { Create := fun d w =>
      if d.Name ∈ w then (some (Error.Other "already exists"), w) else (none, w ++ [d.Name])
    IsAlreadyExists := fun err => decide (err = Error.Other "already exists") }

/-! ## Reconciler -/

/-- A SecretDefinition resource (`SecretDefinition` of `types.go`): the
namespace and name of its `ObjectMeta`, its spec and its status. -/
structure SecretDefinition where
  Namespace : String
  Name : String
  Spec : SecretDefinitionSpec
  Synced : Bool
  deriving DecidableEq, Repr

/-- The parts of a key between its slashes. -/
def splitSlash : List Char → List (List Char)
  | [] => [[]]
  | c :: cs =>
    if c = '/' then [] :: splitSlash cs
    else
      match splitSlash cs with
      | [] => [[c]]
      | part :: parts => (c :: part) :: parts

/-- Modelled from the spec: the key parsing of the Reconciler (§3, §4.2): a
reconciliation key is "namespace/name"; a key that does not split into these
two parts cannot be parsed.  The controller package is not among the sources. -/
def SplitMetaNamespaceKey (key : String) : Option (String × String) :=
  match splitSlash key.data with
  | [ns, name] => some (String.mk ns, String.mk name)
  | _ => none

/-- Modelled from the spec: the collaborators of the Reconciler (§2, §4.2): the
Local Cache, a read-only snapshot looked up by namespace and name, and the
Synchronizer, whose `SyncState` runs over a state `τ` of its own. -/
structure Controller (τ : Type) where
  secretDefinitionsLister : String → String → Option SecretDefinition
  SyncState : SecretDefinitionSpec → τ → Option Error × τ

/-- Modelled from the spec: what a reconciliation can touch: the state of the
Synchronizer, the log of the specs `SyncState` was invoked with, and the writes
made through the definition client (`actions`) and through the target-store
client (`kubeactions`), as the test fixture of `controller_test.go` records
them. -/
structure ControllerState (τ : Type) where
  sync : τ
  syncCalls : List SecretDefinitionSpec
  actions : List String
  kubeactions : List String

/-- Modelled from the spec: the Reconciler `syncHandler` (§4.2).  Split the key;
an unparsable key is an `InvalidKey` error.  Look the definition up in the
Local Cache; if absent, it was deleted: success, nothing else.  If present,
call the Synchronizer with its spec and return its error unchanged. -/
def syncHandler {τ : Type} (c : Controller τ) (key : String) (st : ControllerState τ) :
    Option Error × ControllerState τ :=
  match SplitMetaNamespaceKey key with
  | none => (some (Error.Other ("invalid resource key: " ++ key)), st)
  | some (ns, name) =>
    match c.secretDefinitionsLister ns name with
    | none => (none, st)
    | some secretDefinition =>
      match c.SyncState secretDefinition.Spec st.sync with
      | (err, t) => (err, { st with sync := t, syncCalls := st.syncCalls ++ [secretDefinition.Spec] })

/-- The definition `newSecretDefinition(name, namespace)` of
`controller_test.go`: it lives in the namespace "default" and targets
`namespace`. -/
def newSecretDefinition (name ns : String) : SecretDefinition :=
  { Namespace := "default"
    Name := name
    Spec := { Name := name ++ "-secret", Namespaces := [ns], Typ := "", Data := [] }
    Synced := false }

/-- The state before a reconciliation of the tests: nothing invoked, no
action recorded. -/
def freshControllerState : ControllerState Nat :=
  { sync := 0, syncCalls := [], actions := [], kubeactions := [] }

/-- The controller of `TestCreatesDeployment`: the Local Cache holds the
definition "test", the mock Synchronizer counts its invocations and returns nil. -/
def testController : Controller Nat :=
  { secretDefinitionsLister := fun ns name =>
      if ns = "default" ∧ name = "test" then some (newSecretDefinition "test" "default") else none
    SyncState := fun _ n => (none, n + 1) }

/-- What a read of `(ns, name)` would return in world `w`: its map and its
error. -/
def peek {σ : Type} (s : secretManager σ) (w : σ) (ns name : String) : ByteMap × Option Error :=
  (s.kubernetes.ReadSecret ns name w).1

/-- A target store in which a call leaves what a read returns for every other
secret: a read and the clock change no answer, an upsert changes at most the
answer for the namespace and name of its record. -/
structure StoreFrame {σ : Type} (s : secretManager σ) : Prop where
  read_frame : ∀ w ns0 name0 ns name,
    peek s (s.kubernetes.ReadSecret ns0 name0 w).2 ns name = peek s w ns name
  now_frame : ∀ w ns name, peek s (s.Now w).2 ns name = peek s w ns name
  upsert_frame : ∀ w sec ns name, (ns ≠ sec.Namespace ∨ name ≠ sec.Name) →
    peek s (s.kubernetes.UpsertSecret sec w).2 ns name = peek s w ns name

/-- The target store keeps what is written outside the namespace `b`: after an
accepted upsert a read of the record's namespace and name succeeds with the
record's Data. -/
def keepsWrites {σ : Type} (s : secretManager σ) (b : String) : Prop :=
  ∀ w sec, sec.Namespace ≠ b → (s.kubernetes.UpsertSecret sec w).1 = none →
    peek s (s.kubernetes.UpsertSecret sec w).2 sec.Namespace sec.Name = (sec.Data, none)

/-- The in-memory target store with the namespace `b` unreadable: a read of
`b` fails with "some error"; everything else is as in `memoryStore false`. -/
def brokenStore (b : String) : K8sClient StoreWorld :=
  { ReadSecret := fun ns name w =>
      if ns = b then ((none, some (Error.Other "some error")), w)
      else
        match w.held ns name with
        | some data => ((data, none), w)
        | none => ((none, some (Error.K8sSecretNotFound ns name)), w)
    UpsertSecret := fun sec w =>
      (none, { w with held := fun ns name =>
        if ns = sec.Namespace ∧ name = sec.Name then some sec.Data else w.held ns name }) }

/-- A manager over the in-memory store with the namespace `b` unreadable. -/
def brokenManager (b : String) (fakeSecrets : List fakeBackendSecret) :
    secretManager StoreWorld :=
  { kubernetes := brokenStore b
    backend := newFakeBackend fakeSecrets
    NewDecoder := backend.NewDecoder
    Now := fixedNow }

/-- An in-memory store in which every namespace holds the secret "secret-name"
with the content `fakeCurrentSecretData` of the tests. -/
def staleStore : StoreWorld :=
  { held := fun _ name => if name = "secret-name" then some fakeCurrentSecretData else none
    rejects := 0 }

/-! ## Lemmas on the metrics loop -/

theorem foldl_incErrors_world {σ : Type} (name : String) (nss : List String) (st : State σ) :
    (nss.foldl (fun acc ns => incErrors name ns acc) st).world = st.world := by
  induction nss generalizing st with
  | nil => rfl
  | cons n rest ih => rw [List.foldl, ih]; rfl

theorem foldl_incErrors_calls {σ : Type} (name : String) (nss : List String) (st : State σ) :
    (nss.foldl (fun acc ns => incErrors name ns acc) st).calls = st.calls := by
  induction nss generalizing st with
  | nil => rfl
  | cons n rest ih => rw [List.foldl, ih]; rfl

theorem foldl_incErrors_gauge {σ : Type} (name : String) (nss : List String) (st : State σ) :
    (nss.foldl (fun acc ns => incErrors name ns acc) st).secretLastUpdated
      = st.secretLastUpdated := by
  induction nss generalizing st with
  | nil => rfl
  | cons n rest ih => rw [List.foldl, ih]; rfl

theorem foldl_incErrors_count {σ : Type} (name : String) (nss : List String) (st : State σ)
    (n m : String) :
    (nss.foldl (fun acc ns => incErrors name ns acc) st).secretSyncErrorsCount n m
      = st.secretSyncErrorsCount n m + (if n = name then nss.count m else 0) := by
  induction nss generalizing st with
  | nil => simp
  | cons x rest ih =>
    rw [List.foldl, ih]
    simp only [incErrors, List.count_cons]
    by_cases hn : n = name <;> by_cases hm : x = m
    · subst hn; subst hm; simp; omega
    · have hm2 : ¬ m = x := fun h => hm h.symm
      simp [hn, hm, hm2]
    · simp [hn]
    · simp [hn]

/-! ## Lemmas on `getDesiredState` -/

/-- The loop returns either `nil` with an error or a map with no error. -/
theorem getDesiredStateLoop_total {σ : Type} (s : secretManager σ)
    (data : List (String × DatasourceSpec)) (acc : Entries) (w : σ) :
    (∃ err, (getDesiredStateLoop s data acc w).1 = (none, some err)) ∨
    (∃ m, (getDesiredStateLoop s data acc w).1 = (some m, none)) := by
  induction data generalizing acc w with
  | nil => exact Or.inr ⟨acc, rfl⟩
  | cons kv rest ih =>
    obtain ⟨k, v⟩ := kv
    unfold getDesiredStateLoop
    split
    · exact Or.inl ⟨_, rfl⟩
    · split
      · exact Or.inl ⟨_, rfl⟩
      · split
        · exact Or.inl ⟨_, rfl⟩
        · exact ih _ _

/-- An entry whose backend read fails in every world makes the loop fail. -/
theorem getDesiredStateLoop_fails_of_read_fails {σ : Type} (s : secretManager σ)
    (data : List (String × DatasourceSpec)) (acc : Entries) (w : σ)
    (k : String) (v : DatasourceSpec) (hmem : (k, v) ∈ data)
    (hfail : ∀ w0, ∃ err, (s.backend.ReadSecret v.Path v.Key w0).1 = Except.error err) :
    ∃ err, (getDesiredStateLoop s data acc w).1 = (none, some err) := by
  induction data generalizing acc w with
  | nil => simp at hmem
  | cons kv rest ih =>
    obtain ⟨k0, v0⟩ := kv
    unfold getDesiredStateLoop
    split
    · exact ⟨_, rfl⟩
    · rename_i bSecret w1 hread
      split
      · exact ⟨_, rfl⟩
      · split
        · exact ⟨_, rfl⟩
        · rcases List.mem_cons.mp hmem with h | h
          · injection h with hk hv
            subst hv
            obtain ⟨err, herr⟩ := hfail w
            rw [hread] at herr
            cases herr
          · exact ih _ _ h

/-- The loop consults the backend and the codec registry only. -/
theorem getDesiredStateLoop_congr {σ : Type} (s t : secretManager σ)
    (hb : s.backend = t.backend) (hd : s.NewDecoder = t.NewDecoder)
    (data : List (String × DatasourceSpec)) (acc : Entries) (w : σ) :
    getDesiredStateLoop s data acc w = getDesiredStateLoop t data acc w := by
  induction data generalizing acc w with
  | nil => rfl
  | cons kv rest ih =>
    obtain ⟨k, v⟩ := kv
    simp only [getDesiredStateLoop, hb, hd, ih]

/-! ## Claims -/

/-- C1: the error `SyncState` returns is exactly the error `getDesiredState`
returns (nil when the desired state is computed), and it is the same whatever
target-store client the manager holds: no `ReadSecret` or `UpsertSecret` outcome
can make it non-nil. -/
theorem SyncState_error_is_getDesiredState_error {σ : Type} (s : secretManager σ)
    (secret : SecretDefinitionSpec) (st : State σ) (k8s : K8sClient σ) :
    (SyncState s secret st).1 = (getDesiredState s secret st.world).1.2 ∧
    (SyncState { s with kubernetes := k8s } secret st).1 = (SyncState s secret st).1 := by
  have key : ∀ s0 : secretManager σ,
      (SyncState s0 secret st).1 = (getDesiredState s0 secret st.world).1.2 := by
    intro s0
    unfold SyncState
    split <;> simp_all
  refine ⟨key s, ?_⟩
  rw [key, key]
  unfold getDesiredState
  rw [getDesiredStateLoop_congr { s with kubernetes := k8s } s rfl rfl]

/-- What `SyncState` does when the desired state cannot be computed. -/
theorem SyncState_of_error {σ : Type} (s : secretManager σ) (secret : SecretDefinitionSpec)
    (st : State σ) (err : Error) (h : (getDesiredState s secret st.world).1.2 = some err) :
    SyncState s secret st =
      (some err, secret.Namespaces.foldl (fun acc ns => incErrors secret.Name ns acc)
        { st with world := (getDesiredState s secret st.world).2 }) := by
  unfold SyncState
  split <;> simp_all

/-- What `SyncState` does when the desired state is computed. -/
theorem SyncState_of_ok {σ : Type} (s : secretManager σ) (secret : SecretDefinitionSpec)
    (st : State σ) (h : (getDesiredState s secret st.world).1.2 = none) :
    SyncState s secret st =
      (none, secret.Namespaces.foldl
        (syncNamespace s secret (getDesiredState s secret st.world).1.1)
        { st with world := (getDesiredState s secret st.world).2 }) := by
  unfold SyncState
  split <;> simp_all

/-- C2 (amended): when the backend read of some Data entry fails, `SyncState`
returns a non-nil error, makes no call on the target store, and the error
counter of `(spec.Name, ns)` grows by the number of times `ns` occurs in
`spec.Namespaces` (by one for a namespace listed once); counters of other
secret names do not move. -/
theorem SyncState_backend_failure_short_circuits {σ : Type} (s : secretManager σ)
    (secret : SecretDefinitionSpec) (st : State σ) (k : String) (v : DatasourceSpec)
    (hmem : (k, v) ∈ secret.Data)
    (hfail : ∀ w, ∃ err, (s.backend.ReadSecret v.Path v.Key w).1 = Except.error err) :
    (SyncState s secret st).1 ≠ none ∧
    (SyncState s secret st).2.calls = st.calls ∧
    ∀ name ns, (SyncState s secret st).2.secretSyncErrorsCount name ns
      = st.secretSyncErrorsCount name ns
        + (if name = secret.Name then secret.Namespaces.count ns else 0) := by
  obtain ⟨err, herr⟩ :=
    getDesiredStateLoop_fails_of_read_fails s secret.Data [] st.world k v hmem hfail
  have h : (getDesiredState s secret st.world).1.2 = some err := by
    unfold getDesiredState; rw [herr]
  rw [SyncState_of_error s secret st err h]
  refine ⟨by simp, ?_, ?_⟩
  · simp [foldl_incErrors_calls]
  · intro name ns
    simp [foldl_incErrors_count]

/-- C2, witness: the run of `TestSyncStateErrorGetDesired` (empty backend, one
namespace): error counter 1, no target-store call. -/
theorem SyncState_backend_failure_short_circuits_witness :
    (SyncState (mockManager [] (fun _ _ => (none, none)) (fun _ => none))
      { specTwice with Namespaces := ["ns"] } (initState ())).1 ≠ none ∧
    (SyncState (mockManager [] (fun _ _ => (none, none)) (fun _ => none))
      { specTwice with Namespaces := ["ns"] } (initState ())).2.calls = [] ∧
    ∀ name ns, (SyncState (mockManager [] (fun _ _ => (none, none)) (fun _ => none))
      { specTwice with Namespaces := ["ns"] } (initState ())).2.secretSyncErrorsCount name ns
      = 0 + (if name = "secret-name" then ["ns"].count ns else 0) :=
  SyncState_backend_failure_short_circuits
    (mockManager [] (fun _ _ => (none, none)) (fun _ => none))
    { specTwice with Namespaces := ["ns"] } (initState ()) "value1"
    { Path := "some/path", Key := "key-in-vault", Encoding := "" }
    (by simp [specTwice]) (fun _ => ⟨Error.Other "Not found", rfl⟩)

/-- C2, counterexample: with the namespace "ns" declared twice and a backend
that holds nothing, the backend read of the only entry fails and the error
counter of ("secret-name", "ns") goes from 0 to 2, not to 1. -/
theorem SyncState_backend_failure_counts_twice :
    (∀ w : Unit, (newFakeBackend []).ReadSecret "some/path" "key-in-vault" w
      = (Except.error (Error.Other "Not found"), w)) ∧
    (initState ()).secretSyncErrorsCount "secret-name" "ns" = 0 ∧
    (SyncState (mockManager [] (fun _ _ => (none, none)) (fun _ => none)) specTwice
      (initState ())).2.secretSyncErrorsCount "secret-name" "ns" = 2 := by
  refine ⟨fun _ => rfl, rfl, ?_⟩
  decide

/-! ## Lemmas on one namespace -/

theorem getCurrentState_eq {σ : Type} (s : secretManager σ) (ns name : String) (st : State σ) :
    getCurrentState s ns name st =
      ((s.kubernetes.ReadSecret ns name st.world).1,
        { st with world := (s.kubernetes.ReadSecret ns name st.world).2
                  calls := st.calls ++ [Call.ReadSecret ns name] }) := rfl

/-- The record `upsertSecret` hands to the target store from state `st`. -/
theorem upsertSecret_fst {σ : Type} (s : secretManager σ) (typ ns name : String) (data : ByteMap)
    (st : State σ) :
    (upsertSecret s typ ns name data st).1 =
      (s.kubernetes.UpsertSecret (mkSecret typ ns name data (s.Now st.world).1)
        (s.Now st.world).2).1 := by
  unfold upsertSecret
  split
  rename_i t w1 hnow
  split <;> simp_all

theorem upsertSecret_calls {σ : Type} (s : secretManager σ) (typ ns name : String)
    (data : ByteMap) (st : State σ) :
    (upsertSecret s typ ns name data st).2.calls =
      st.calls ++ [Call.UpsertSecret (mkSecret typ ns name data (s.Now st.world).1)] := by
  unfold upsertSecret
  split
  rename_i t w1 hnow
  split <;> simp_all [setLastUpdated]

theorem upsertSecret_world {σ : Type} (s : secretManager σ) (typ ns name : String)
    (data : ByteMap) (st : State σ) :
    (upsertSecret s typ ns name data st).2.world =
      (s.kubernetes.UpsertSecret (mkSecret typ ns name data (s.Now st.world).1)
        (s.Now st.world).2).2 := by
  unfold upsertSecret
  split
  rename_i t w1 hnow
  split <;> simp_all [setLastUpdated]

theorem upsertSecret_count {σ : Type} (s : secretManager σ) (typ ns name : String)
    (data : ByteMap) (st : State σ) :
    (upsertSecret s typ ns name data st).2.secretSyncErrorsCount = st.secretSyncErrorsCount := by
  unfold upsertSecret
  split
  split <;> simp_all [setLastUpdated]

/-- The read of a namespace failed with something other than not-found. -/
theorem syncNamespace_of_read_error {σ : Type} (s : secretManager σ)
    (secret : SecretDefinitionSpec) (d : ByteMap) (st : State σ) (ns : String)
    (h : ((s.kubernetes.ReadSecret ns secret.Name st.world).1.2.isSome &&
      !IsK8sSecretNotFound (s.kubernetes.ReadSecret ns secret.Name st.world).1.2) = true) :
    syncNamespace s secret d st ns =
      incErrors secret.Name ns (getCurrentState s ns secret.Name st).2 := by
  unfold syncNamespace
  rw [getCurrentState_eq]
  simp only [h, if_true]

/-- The read went through (or was not-found) and the states are deeply equal. -/
theorem syncNamespace_of_equal {σ : Type} (s : secretManager σ)
    (secret : SecretDefinitionSpec) (d : ByteMap) (st : State σ) (ns : String)
    (h : ((s.kubernetes.ReadSecret ns secret.Name st.world).1.2.isSome &&
      !IsK8sSecretNotFound (s.kubernetes.ReadSecret ns secret.Name st.world).1.2) = false)
    (heq : DeepEqual d (s.kubernetes.ReadSecret ns secret.Name st.world).1.1 = true) :
    syncNamespace s secret d st ns = (getCurrentState s ns secret.Name st).2 := by
  unfold syncNamespace
  rw [getCurrentState_eq]
  simp [h, heq]

/-- The read went through (or was not-found) and the states differ. -/
theorem syncNamespace_of_differ {σ : Type} (s : secretManager σ)
    (secret : SecretDefinitionSpec) (d : ByteMap) (st : State σ) (ns : String)
    (h : ((s.kubernetes.ReadSecret ns secret.Name st.world).1.2.isSome &&
      !IsK8sSecretNotFound (s.kubernetes.ReadSecret ns secret.Name st.world).1.2) = false)
    (hne : DeepEqual d (s.kubernetes.ReadSecret ns secret.Name st.world).1.1 = false) :
    syncNamespace s secret d st ns =
      if (upsertSecret s secret.Typ ns secret.Name d (getCurrentState s ns secret.Name st).2).1.isSome
      then incErrors secret.Name ns
        (upsertSecret s secret.Typ ns secret.Name d (getCurrentState s ns secret.Name st).2).2
      else (upsertSecret s secret.Typ ns secret.Name d (getCurrentState s ns secret.Name st).2).2 := by
  unfold syncNamespace
  rw [getCurrentState_eq]
  simp only [h, hne, Bool.false_eq_true, if_false, Bool.not_false, if_true]
  generalize upsertSecret s secret.Typ ns secret.Name d _ = r
  obtain ⟨e, st2⟩ := r
  cases e <;> simp

theorem upserts_append (l1 l2 : List Call) : upserts (l1 ++ l2) = upserts l1 ++ upserts l2 := by
  induction l1 with
  | nil => rfl
  | cons c rest ih => cases c <;> simp [upserts, ih]

theorem reads_append (l1 l2 : List Call) : reads (l1 ++ l2) = reads l1 ++ reads l2 := by
  induction l1 with
  | nil => rfl
  | cons c rest ih => cases c <;> simp [reads, ih]

theorem readFailed_eq_false (e : Option Error) :
    (e.isSome && !IsK8sSecretNotFound e) = false ↔ (e = none ∨ IsK8sSecretNotFound e = true) := by
  cases e <;> simp [IsK8sSecretNotFound]

/-- C5 (amended): with an empty (or nil) `Namespaces`, `SyncState` makes no
call on the target store, so no `UpsertSecret`, changes no metric, and returns
the error of the desired-state computation: nil when it succeeds, that error
when it fails. -/
theorem SyncState_no_namespaces {σ : Type} (s : secretManager σ)
    (secret : SecretDefinitionSpec) (st : State σ) (hns : secret.Namespaces = []) :
    (SyncState s secret st).2.calls = st.calls ∧
    (SyncState s secret st).2.secretSyncErrorsCount = st.secretSyncErrorsCount ∧
    (SyncState s secret st).2.secretLastUpdated = st.secretLastUpdated ∧
    (SyncState s secret st).1 = (getDesiredState s secret st.world).1.2 ∧
    ((getDesiredState s secret st.world).1.2 = none → (SyncState s secret st).1 = none) := by
  cases h : (getDesiredState s secret st.world).1.2 with
  | none =>
    rw [SyncState_of_ok s secret st h, hns]
    simp
  | some err =>
    rw [SyncState_of_error s secret st err h, hns]
    simp

/-- C5, witness: no namespace and a backend that holds the entry: nil, no call. -/
theorem SyncState_no_namespaces_witness :
    (SyncState isolationManager (testSpec []) (initState ())).2.calls = [] ∧
    (SyncState isolationManager (testSpec []) (initState ())).1 = none :=
  have h := SyncState_no_namespaces isolationManager (testSpec []) (initState ()) rfl
  ⟨h.1, h.2.2.2.2 (by decide)⟩

/-- C5, counterexample: no namespace and a backend that holds nothing: the
backend read fails and `SyncState` returns that error, not nil. -/
theorem no_namespaces_backend_error_is_returned :
    (testSpec []).Namespaces = [] ∧
    (SyncState (mockManager [] (fun _ _ => (none, none)) (fun _ => none)) (testSpec [])
      (initState ())).1 = some (Error.Other "Not found") := by
  decide

/-! ## One step of the desired-state loop -/

theorem getDesiredStateLoop_cons_read_error {σ : Type} (s : secretManager σ)
    (k : String) (v : DatasourceSpec) (rest : List (String × DatasourceSpec)) (acc : Entries)
    (w : σ) (err : Error) (hread : (s.backend.ReadSecret v.Path v.Key w).1 = Except.error err) :
    getDesiredStateLoop s ((k, v) :: rest) acc w =
      ((none, some err), (s.backend.ReadSecret v.Path v.Key w).2) := by
  rw [getDesiredStateLoop]
  generalize s.backend.ReadSecret v.Path v.Key w = r at hread
  obtain ⟨r1, w1⟩ := r
  simp only at hread
  subst hread
  rfl

theorem getDesiredStateLoop_cons_decoder_error {σ : Type} (s : secretManager σ)
    (k : String) (v : DatasourceSpec) (rest : List (String × DatasourceSpec)) (acc : Entries)
    (w : σ) (b : Content) (err : Error)
    (hread : (s.backend.ReadSecret v.Path v.Key w).1 = Except.ok b)
    (hdec : s.NewDecoder v.Encoding = Except.error err) :
    getDesiredStateLoop s ((k, v) :: rest) acc w =
      ((none, some err), (s.backend.ReadSecret v.Path v.Key w).2) := by
  rw [getDesiredStateLoop]
  generalize s.backend.ReadSecret v.Path v.Key w = r at hread
  obtain ⟨r1, w1⟩ := r
  simp only at hread
  subst hread
  simp only [hdec]

theorem getDesiredStateLoop_cons_decode_error {σ : Type} (s : secretManager σ)
    (k : String) (v : DatasourceSpec) (rest : List (String × DatasourceSpec)) (acc : Entries)
    (w : σ) (b : Content) (d : Decoder) (err : Error)
    (hread : (s.backend.ReadSecret v.Path v.Key w).1 = Except.ok b)
    (hdec : s.NewDecoder v.Encoding = Except.ok d)
    (hx : d.DecodeString b = Except.error err) :
    getDesiredStateLoop s ((k, v) :: rest) acc w =
      ((none, some err), (s.backend.ReadSecret v.Path v.Key w).2) := by
  rw [getDesiredStateLoop]
  generalize s.backend.ReadSecret v.Path v.Key w = r at hread
  obtain ⟨r1, w1⟩ := r
  simp only at hread
  subst hread
  simp only [hdec, hx]

theorem getDesiredStateLoop_cons_ok {σ : Type} (s : secretManager σ)
    (k : String) (v : DatasourceSpec) (rest : List (String × DatasourceSpec)) (acc : Entries)
    (w : σ) (b : Content) (d : Decoder) (x : Bytes)
    (hread : (s.backend.ReadSecret v.Path v.Key w).1 = Except.ok b)
    (hdec : s.NewDecoder v.Encoding = Except.ok d)
    (hx : d.DecodeString b = Except.ok x) :
    getDesiredStateLoop s ((k, v) :: rest) acc w =
      getDesiredStateLoop s rest (mapAssign acc k x) (s.backend.ReadSecret v.Path v.Key w).2 := by
  rw [getDesiredStateLoop]
  generalize s.backend.ReadSecret v.Path v.Key w = r at hread
  obtain ⟨r1, w1⟩ := r
  simp only at hread
  subst hread
  simp only [hdec, hx]

/-- Entries that go through are passed over: the loop continues with the rest. -/
theorem getDesiredStateLoop_append_of_succeeds {σ : Type} (s : secretManager σ)
    (pre rest : List (String × DatasourceSpec))
    (hpre : ∀ e ∈ pre, entrySucceeds s e.2) (acc : Entries) (w : σ) :
    ∃ acc1 w1, getDesiredStateLoop s (pre ++ rest) acc w = getDesiredStateLoop s rest acc1 w1 := by
  induction pre generalizing acc w with
  | nil => exact ⟨acc, w, rfl⟩
  | cons kv tail ih =>
    obtain ⟨k, v⟩ := kv
    obtain ⟨b, d, x, hread, hdec, hx⟩ := hpre (k, v) (List.mem_cons_self _ _) w
    rw [List.cons_append, getDesiredStateLoop_cons_ok s k v _ acc w b d x hread hdec hx]
    exact ih (fun e he => hpre e (List.mem_cons_of_mem _ he)) _ _

/-- An entry whose encoding has no decoder makes the loop fail. -/
theorem getDesiredStateLoop_fails_of_no_decoder {σ : Type} (s : secretManager σ)
    (data : List (String × DatasourceSpec)) (acc : Entries) (w : σ)
    (k : String) (v : DatasourceSpec) (hmem : (k, v) ∈ data)
    (hdec : ∃ err, s.NewDecoder v.Encoding = Except.error err) :
    ∃ err, (getDesiredStateLoop s data acc w).1 = (none, some err) := by
  induction data generalizing acc w with
  | nil => simp at hmem
  | cons kv rest ih =>
    obtain ⟨k0, v0⟩ := kv
    unfold getDesiredStateLoop
    split
    · exact ⟨_, rfl⟩
    · split
      · exact ⟨_, rfl⟩
      · rename_i decoder hok
        split
        · exact ⟨_, rfl⟩
        · rcases List.mem_cons.mp hmem with h | h
          · injection h with hk hv
            subst hv
            obtain ⟨err, herr⟩ := hdec
            rw [hok] at herr
            cases herr
          · exact ih _ _ h

/-- An entry whose value its decoder rejects, whatever world it is read in,
makes the loop fail. -/
theorem getDesiredStateLoop_fails_of_bad_payload {σ : Type} (s : secretManager σ)
    (data : List (String × DatasourceSpec)) (acc : Entries) (w : σ)
    (k : String) (v : DatasourceSpec) (d : Decoder) (hmem : (k, v) ∈ data)
    (hdec : s.NewDecoder v.Encoding = Except.ok d)
    (hbad : ∀ w0 b, (s.backend.ReadSecret v.Path v.Key w0).1 = Except.ok b →
      ∃ err, d.DecodeString b = Except.error err) :
    ∃ err, (getDesiredStateLoop s data acc w).1 = (none, some err) := by
  induction data generalizing acc w with
  | nil => simp at hmem
  | cons kv rest ih =>
    obtain ⟨k0, v0⟩ := kv
    unfold getDesiredStateLoop
    split
    · exact ⟨_, rfl⟩
    · rename_i bSecret w1 hread
      split
      · exact ⟨_, rfl⟩
      · rename_i decoder hok
        split
        · exact ⟨_, rfl⟩
        · rename_i x hx
          rcases List.mem_cons.mp hmem with h | h
          · injection h with hk hv
            subst hv
            rw [hdec] at hok
            cases hok
            obtain ⟨err, herr⟩ := hbad w bSecret (by rw [hread])
            rw [hx] at herr
            cases herr
          · exact ih _ _ h

theorem NewDecoder_unknown (encoding : String) (h1 : encoding ≠ "") (h2 : encoding ≠ "base64") :
    backend.NewDecoder encoding = Except.error (Error.EncodingNotImplemented encoding) := by
  simp [backend.NewDecoder, h1, h2]

/-- When the desired state cannot be computed no target-store call is made. -/
theorem SyncState_calls_of_error {σ : Type} (s : secretManager σ) (secret : SecretDefinitionSpec)
    (st : State σ) (err : Error) (h : (getDesiredState s secret st.world).1 = (none, some err)) :
    (SyncState s secret st).1 = some err ∧ (SyncState s secret st).2.calls = st.calls := by
  have h2 : (getDesiredState s secret st.world).1.2 = some err := by rw [h]
  rw [SyncState_of_error s secret st err h2]
  simp [foldl_incErrors_calls]

/-- C6 (amended): with the codec registry of the spec, a Data entry whose
Encoding is neither "" nor "base64" makes `getDesiredState` return a nil state
and a non-nil error, which `SyncState` returns, making no call on the target
store (so no `UpsertSecret`).  That error is `EncodingNotImplemented` for the
entry's encoding name when the backend read of the entry succeeds and every
entry visited before it is read and decoded successfully. -/
theorem SyncState_unknown_encoding {σ : Type} (s : secretManager σ)
    (secret : SecretDefinitionSpec) (st : State σ) (k : String) (v : DatasourceSpec)
    (hreg : s.NewDecoder = backend.NewDecoder) (hmem : (k, v) ∈ secret.Data)
    (h1 : v.Encoding ≠ "") (h2 : v.Encoding ≠ "base64") :
    (∃ err, (getDesiredState s secret st.world).1 = (none, some err) ∧
      (SyncState s secret st).1 = some err) ∧
    (SyncState s secret st).2.calls = st.calls ∧
    (∀ pre post, secret.Data = pre ++ (k, v) :: post →
      (∀ e ∈ pre, entrySucceeds s e.2) →
      (∀ w, ∃ b, (s.backend.ReadSecret v.Path v.Key w).1 = Except.ok b) →
      (getDesiredState s secret st.world).1
        = (none, some (Error.EncodingNotImplemented v.Encoding)) ∧
      (SyncState s secret st).1 = some (Error.EncodingNotImplemented v.Encoding)) := by
  have hdec : s.NewDecoder v.Encoding = Except.error (Error.EncodingNotImplemented v.Encoding) := by
    rw [hreg]; exact NewDecoder_unknown _ h1 h2
  obtain ⟨err, herr⟩ :=
    getDesiredStateLoop_fails_of_no_decoder s secret.Data [] st.world k v hmem ⟨_, hdec⟩
  have hs := SyncState_calls_of_error s secret st err herr
  refine ⟨⟨err, herr, hs.1⟩, hs.2, ?_⟩
  intro pre post hdata hpre hread
  have hg : (getDesiredState s secret st.world).1
      = (none, some (Error.EncodingNotImplemented v.Encoding)) := by
    unfold getDesiredState
    rw [hdata]
    obtain ⟨acc1, w1, hskip⟩ :=
      getDesiredStateLoop_append_of_succeeds s pre ((k, v) :: post) hpre [] st.world
    obtain ⟨b, hb⟩ := hread w1
    rw [hskip, getDesiredStateLoop_cons_decoder_error s k v post acc1 w1 b _ hb hdec]
  exact ⟨hg, (SyncState_calls_of_error s secret st _ hg).1⟩

/-- C6, witness: the run of `TestGetDesiredStateEncodingNotImplemented`
(encoding "base65", the value is in the backend). -/
theorem SyncState_unknown_encoding_witness :
    (getDesiredState (contentManager testBackendRows) (encodedSpec "base65") ()).1
      = (none, some (Error.EncodingNotImplemented "base65")) ∧
    (SyncState (contentManager testBackendRows) (encodedSpec "base65") (initState ())).1
      = some (Error.EncodingNotImplemented "base65") ∧
    (SyncState (contentManager testBackendRows) (encodedSpec "base65") (initState ())).2.calls
      = [] :=
  have h := SyncState_unknown_encoding (contentManager testBackendRows) (encodedSpec "base65")
    (initState ()) "key1" { Path := "some/path", Key := "key-in-vault", Encoding := "base65" }
    rfl (by simp [encodedSpec]) (by decide) (by decide)
  have h3 := h.2.2 [] [] rfl (by simp) (fun _ => ⟨ascii "fake-content", rfl⟩)
  ⟨h3.1, h3.2, h.2.1⟩

/-- C6, counterexample: the entry has the unknown encoding "base65" but the
backend does not hold it: the read fails first and `getDesiredState`, hence
`SyncState`, return the backend error, not `EncodingNotImplemented`. -/
theorem getDesiredState_unknown_encoding_backend_error :
    ("key1", { Path := "some/path", Key := "key-in-vault", Encoding := "base65" })
      ∈ (encodedSpec "base65").Data ∧
    backend.NewDecoder "base65" = Except.error (Error.EncodingNotImplemented "base65") ∧
    (getDesiredState (contentManager []) (encodedSpec "base65") ()).1
      = (none, some (Error.Other "Not found")) ∧
    (SyncState (contentManager []) (encodedSpec "base65") (initState ())).1
      = some (Error.Other "Not found") ∧
    Error.Other "Not found" ≠ Error.EncodingNotImplemented "base65" := by
  refine ⟨by simp [encodedSpec], NewDecoder_unknown _ (by decide) (by decide), ?_, ?_, ?_⟩
  · decide
  · decide
  · decide

theorem NewDecoder_base64 : backend.NewDecoder "base64" = Except.ok base64Decoder := by
  simp [backend.NewDecoder]

theorem NewDecoder_identity : backend.NewDecoder "" = Except.ok identityDecoder := by
  simp [backend.NewDecoder]

theorem base64Decoder_of_invalid (b : Content) (h : base64Decode b = none) :
    base64Decoder.DecodeString b = Except.error (Error.DecodeError "base64") := by
  simp [base64Decoder, h]

/-- C7 (amended): with the codec registry of the spec, a Data entry with
Encoding "base64" whose backend value is not valid standard base64 makes
`getDesiredState` return a nil state and a non-nil error, which `SyncState`
returns, making no call on the target store (so no `UpsertSecret`).  That error
is the decode error of the entry when every entry visited before it is read and
decoded successfully. -/
theorem SyncState_bad_base64 {σ : Type} (s : secretManager σ)
    (secret : SecretDefinitionSpec) (st : State σ) (k : String) (v : DatasourceSpec)
    (hreg : s.NewDecoder = backend.NewDecoder) (hmem : (k, v) ∈ secret.Data)
    (henc : v.Encoding = "base64")
    (hbad : ∀ w, ∃ b, (s.backend.ReadSecret v.Path v.Key w).1 = Except.ok b ∧
      base64Decode b = none) :
    (∃ err, (getDesiredState s secret st.world).1 = (none, some err) ∧
      (SyncState s secret st).1 = some err) ∧
    (SyncState s secret st).2.calls = st.calls ∧
    (∀ pre post, secret.Data = pre ++ (k, v) :: post →
      (∀ e ∈ pre, entrySucceeds s e.2) →
      (getDesiredState s secret st.world).1 = (none, some (Error.DecodeError "base64")) ∧
      (SyncState s secret st).1 = some (Error.DecodeError "base64")) := by
  have hdec : s.NewDecoder v.Encoding = Except.ok base64Decoder := by
    rw [hreg, henc]; exact NewDecoder_base64
  obtain ⟨err, herr⟩ :=
    getDesiredStateLoop_fails_of_bad_payload s secret.Data [] st.world k v base64Decoder hmem hdec
      (fun w0 b hb => by
        obtain ⟨b0, hb0, hinv⟩ := hbad w0
        rw [hb0] at hb
        cases hb
        exact ⟨_, base64Decoder_of_invalid _ hinv⟩)
  have hs := SyncState_calls_of_error s secret st err herr
  refine ⟨⟨err, herr, hs.1⟩, hs.2, ?_⟩
  intro pre post hdata hpre
  have hg : (getDesiredState s secret st.world).1
      = (none, some (Error.DecodeError "base64")) := by
    unfold getDesiredState
    rw [hdata]
    obtain ⟨acc1, w1, hskip⟩ :=
      getDesiredStateLoop_append_of_succeeds s pre ((k, v) :: post) hpre [] st.world
    obtain ⟨b, hb, hinv⟩ := hbad w1
    rw [hskip, getDesiredStateLoop_cons_decode_error s k v post acc1 w1 b base64Decoder _ hb hdec
      (base64Decoder_of_invalid _ hinv)]
  exact ⟨hg, (SyncState_calls_of_error s secret st _ hg).1⟩

/-- C7, witness: the run of `TestGetDesiredStateBadB64Content`. -/
theorem SyncState_bad_base64_witness :
    (getDesiredState (contentManager badBase64Rows) (encodedSpec "base64") ()).1
      = (none, some (Error.DecodeError "base64")) ∧
    (SyncState (contentManager badBase64Rows) (encodedSpec "base64") (initState ())).1
      = some (Error.DecodeError "base64") ∧
    (SyncState (contentManager badBase64Rows) (encodedSpec "base64") (initState ())).2.calls
      = [] :=
  have h := SyncState_bad_base64 (contentManager badBase64Rows) (encodedSpec "base64")
    (initState ()) "key1" { Path := "some/path", Key := "key-in-vault", Encoding := "base64" }
    rfl (by simp [encodedSpec]) rfl
    (fun _ => ⟨ascii "this is not base64!!", rfl, by decide⟩)
  have h3 := h.2.2 [] [] rfl (by simp)
  ⟨h3.1, h3.2, h.2.1⟩

/-- C7, counterexample: `key1` is a base64 entry whose backend value
"this is not base64!!" is malformed, but the entry `key0` visited before it is
missing from the backend: `getDesiredState` returns the backend error
"Not found", which is not a decode error. -/
theorem getDesiredState_bad_base64_backend_error :
    ("key1", { Path := "some/path", Key := "key-in-vault", Encoding := "base64" })
      ∈ twoEntrySpec.Data ∧
    (∀ w : Unit, ((contentManager badBase64Rows).backend.ReadSecret "some/path" "key-in-vault" w).1
      = Except.ok (ascii "this is not base64!!")) ∧
    base64Decode (ascii "this is not base64!!") = none ∧
    (getDesiredState (contentManager badBase64Rows) twoEntrySpec ()).1
      = (none, some (Error.Other "Not found")) ∧
    (∀ encoding, Error.Other "Not found" ≠ Error.DecodeError encoding) := by
  refine ⟨by simp [twoEntrySpec], fun _ => rfl, by decide, by decide, ?_⟩
  intro encoding h
  cases h

/-! ## Lemmas on map assignment -/

theorem mapIndex_mapAssign (m : Entries) (k : String) (v : Bytes) (k1 : String) :
    mapIndex (mapAssign m k v) k1 = if k = k1 then some v else mapIndex m k1 := by
  induction m with
  | nil => simp [mapAssign, mapIndex]
  | cons e rest ih =>
    obtain ⟨k0, v0⟩ := e
    by_cases h0 : k0 = k
    · subst h0
      by_cases h1 : k0 = k1 <;> simp [mapAssign, mapIndex, h1]
    · by_cases h1 : k0 = k1
      · subst h1
        simp [mapAssign, mapIndex, h0, Ne.symm h0]
      · simp [mapAssign, mapIndex, h0, h1, ih]

theorem mapKeys_mapAssign_of_not_mem (m : Entries) (k : String) (v : Bytes)
    (h : k ∉ mapKeys m) : mapKeys (mapAssign m k v) = mapKeys m ++ [k] := by
  induction m with
  | nil => simp [mapAssign, mapKeys]
  | cons e rest ih =>
    obtain ⟨k0, v0⟩ := e
    have h0 : ¬ k0 = k := fun heq => h (by simp [mapKeys, heq])
    have hrest : k ∉ mapKeys rest := fun hmem => h (by
      simp only [mapKeys, List.map_cons, List.mem_cons]
      exact Or.inr hmem)
    have ih2 := ih hrest
    simp only [mapKeys] at ih2
    simp [mapAssign, mapKeys, h0, ih2]

/-- What a successful run of the loop returns: the keys of `acc` followed by
the keys visited, every visited key bound to the decoding of a value the
backend returned for it, every other key as in `acc`. -/
theorem getDesiredStateLoop_ok_spec {σ : Type} (s : secretManager σ)
    (data : List (String × DatasourceSpec)) (acc : Entries) (w : σ) (m : Entries)
    (hnodup : (data.map Prod.fst).Nodup)
    (hdisj : ∀ k ∈ data.map Prod.fst, k ∉ mapKeys acc)
    (h : (getDesiredStateLoop s data acc w).1 = (some m, none)) :
    mapKeys m = mapKeys acc ++ data.map Prod.fst ∧
    (∀ k, k ∉ data.map Prod.fst → mapIndex m k = mapIndex acc k) ∧
    (∀ k v, (k, v) ∈ data → ∃ w0 b d x,
      (s.backend.ReadSecret v.Path v.Key w0).1 = Except.ok b ∧
      s.NewDecoder v.Encoding = Except.ok d ∧ d.DecodeString b = Except.ok x ∧
      mapIndex m k = some x) := by
  induction data generalizing acc w with
  | nil =>
    simp only [getDesiredStateLoop, Prod.mk.injEq, Option.some.injEq, and_true] at h
    subst h
    simp
  | cons kv rest ih =>
    obtain ⟨k0, v0⟩ := kv
    cases hread : (s.backend.ReadSecret v0.Path v0.Key w).1 with
    | error err =>
      rw [getDesiredStateLoop_cons_read_error s k0 v0 rest acc w err hread] at h
      simp at h
    | ok b =>
      cases hdec : s.NewDecoder v0.Encoding with
      | error err =>
        rw [getDesiredStateLoop_cons_decoder_error s k0 v0 rest acc w b err hread hdec] at h
        simp at h
      | ok d =>
        cases hx : d.DecodeString b with
        | error err =>
          rw [getDesiredStateLoop_cons_decode_error s k0 v0 rest acc w b d err hread hdec hx] at h
          simp at h
        | ok x =>
          rw [getDesiredStateLoop_cons_ok s k0 v0 rest acc w b d x hread hdec hx] at h
          simp only [List.map_cons, List.nodup_cons] at hnodup
          obtain ⟨hk0, hrest⟩ := hnodup
          have hk0acc : k0 ∉ mapKeys acc := hdisj k0 (by simp)
          have hkeys := mapKeys_mapAssign_of_not_mem acc k0 x hk0acc
          have hdisj2 : ∀ k ∈ rest.map Prod.fst, k ∉ mapKeys (mapAssign acc k0 x) := by
            intro k hk hmem
            rw [hkeys, List.mem_append, List.mem_singleton] at hmem
            rcases hmem with hm | hm
            · exact hdisj k (by simp only [List.map_cons, List.mem_cons]; exact Or.inr hk) hm
            · subst hm; exact hk0 hk
          obtain ⟨ih1, ih2, ih3⟩ := ih (mapAssign acc k0 x) _ hrest hdisj2 h
          refine ⟨?_, ?_, ?_⟩
          · rw [ih1, hkeys]; simp
          · intro k hk
            simp only [List.map_cons, List.mem_cons, not_or] at hk
            rw [ih2 k hk.2, mapIndex_mapAssign]
            simp [Ne.symm hk.1]
          · intro k v hmem
            rcases List.mem_cons.mp hmem with heq | hin
            · injection heq with hk hv
              subst hk; subst hv
              refine ⟨w, b, d, x, hread, hdec, hx, ?_⟩
              rw [ih2 k hk0, mapIndex_mapAssign]
              simp
            · exact ih3 k v hin

/-- C8: `getDesiredState` either fails with a nil map and a non-nil error, or
succeeds with a non-nil map and a nil error; on success the keys of the map are
exactly the keys of `spec.Data` (pairwise distinct, as the keys of a Go map
are), and every entry key is bound to the decoding, by the decoder of the
entry's Encoding, of a value the backend returned for the entry's path and key.
Under the codec registry of the spec the identity encoding "" decodes every
value to its own bytes. -/
theorem getDesiredState_all_or_nothing {σ : Type} (s : secretManager σ)
    (secret : SecretDefinitionSpec) (w : σ) (hnodup : (secret.Data.map Prod.fst).Nodup) :
    ((∃ err, (getDesiredState s secret w).1 = (none, some err)) ∨
     (∃ m, (getDesiredState s secret w).1 = (some m, none) ∧
       mapKeys m = secret.Data.map Prod.fst ∧
       ∀ k v, (k, v) ∈ secret.Data → ∃ w0 b d x,
         (s.backend.ReadSecret v.Path v.Key w0).1 = Except.ok b ∧
         s.NewDecoder v.Encoding = Except.ok d ∧ d.DecodeString b = Except.ok x ∧
         mapIndex m k = some x)) ∧
    (∀ b : Content, ∃ d, backend.NewDecoder "" = Except.ok d ∧
      d.DecodeString b = Except.ok (some b)) := by
  refine ⟨?_, fun b => ⟨identityDecoder, NewDecoder_identity, rfl⟩⟩
  rcases getDesiredStateLoop_total s secret.Data [] w with ⟨err, herr⟩ | ⟨m, hm⟩
  · exact Or.inl ⟨err, herr⟩
  · right
    obtain ⟨h1, _, h3⟩ := getDesiredStateLoop_ok_spec s secret.Data [] w m hnodup
      (by simp [mapKeys]) hm
    exact ⟨m, hm, by simpa [mapKeys] using h1, h3⟩

/-- C8, witness: the run of `TestGetDesiredState` (one identity entry held by
the backend): the keys are distinct and the map returned binds `key1` to the
bytes of "fake-content". -/
theorem getDesiredState_all_or_nothing_witness :
    ((encodedSpec "").Data.map Prod.fst).Nodup ∧
    (getDesiredState (contentManager testBackendRows) (encodedSpec "") ()).1
      = (some [("key1", some (ascii "fake-content"))], none) ∧
    (((∃ err, (getDesiredState (contentManager testBackendRows) (encodedSpec "") ()).1
        = (none, some err)) ∨
     (∃ m, (getDesiredState (contentManager testBackendRows) (encodedSpec "") ()).1
        = (some m, none) ∧
       mapKeys m = (encodedSpec "").Data.map Prod.fst ∧
       ∀ k v, (k, v) ∈ (encodedSpec "").Data → ∃ w0 b d x,
         ((contentManager testBackendRows).backend.ReadSecret v.Path v.Key w0).1 = Except.ok b ∧
         (contentManager testBackendRows).NewDecoder v.Encoding = Except.ok d ∧
         d.DecodeString b = Except.ok x ∧
         mapIndex m k = some x)) ∧
    (∀ b : Content, ∃ d, backend.NewDecoder "" = Except.ok d ∧
      d.DecodeString b = Except.ok (some b))) :=
  ⟨by decide, by decide,
    getDesiredState_all_or_nothing (contentManager testBackendRows) (encodedSpec "") ()
      (by decide)⟩

/-- When every entry goes through the loop returns a map and no error. -/
theorem getDesiredState_ok_of_succeeds {σ : Type} (s : secretManager σ)
    (secret : SecretDefinitionSpec) (w : σ) (h : ∀ e ∈ secret.Data, entrySucceeds s e.2) :
    ∃ m, (getDesiredState s secret w).1 = (some m, none) := by
  obtain ⟨acc1, w1, hskip⟩ := getDesiredStateLoop_append_of_succeeds s secret.Data [] h [] w
  rw [List.append_nil] at hskip
  exact ⟨acc1, by unfold getDesiredState; rw [hskip]; rfl⟩

theorem DeepEqual_nil_right (m : Entries) : DeepEqual (some m) none = false := rfl

theorem DeepEqual_empty_right (m : Entries) (h : m ≠ []) : DeepEqual (some m) (some []) = false := by
  cases m with
  | nil => exact absurd rfl h
  | cons e rest => simp [DeepEqual]

/-- The namespace loop over a single namespace whose states differ and whose
write is accepted: one read, one upsert of the desired state, no counter moves. -/
theorem syncNamespace_write_ok {σ : Type} (s : secretManager σ)
    (secret : SecretDefinitionSpec) (d : ByteMap) (st : State σ) (ns : String)
    (hr : (s.kubernetes.ReadSecret ns secret.Name st.world).1.2 = none ∨
      IsK8sSecretNotFound (s.kubernetes.ReadSecret ns secret.Name st.world).1.2 = true)
    (hne : DeepEqual d (s.kubernetes.ReadSecret ns secret.Name st.world).1.1 = false)
    (hups : ∀ sec w, (s.kubernetes.UpsertSecret sec w).1 = none) :
    (syncNamespace s secret d st ns).calls = st.calls ++ [Call.ReadSecret ns secret.Name,
      Call.UpsertSecret (mkSecret secret.Typ ns secret.Name d
        (s.Now (s.kubernetes.ReadSecret ns secret.Name st.world).2).1)] ∧
    (syncNamespace s secret d st ns).secretSyncErrorsCount = st.secretSyncErrorsCount := by
  have hok := (readFailed_eq_false _).mpr hr
  rw [syncNamespace_of_differ s secret d st ns hok hne]
  have hu : (upsertSecret s secret.Typ ns secret.Name d
      (getCurrentState s ns secret.Name st).2).1 = none := by
    rw [upsertSecret_fst]; exact hups _ _
  rw [hu]
  simp only [Option.isSome_none, Bool.false_eq_true, if_false]
  rw [upsertSecret_calls, upsertSecret_count]
  simp [getCurrentState_eq]

/-- One namespace whose states differ and whose write, made at the instant and
in the world the iteration reaches, is accepted: one read, one upsert of the
desired state, no counter moves. -/
theorem syncNamespace_write_ok_at {σ : Type} (s : secretManager σ)
    (secret : SecretDefinitionSpec) (d : ByteMap) (st : State σ) (ns : String)
    (hr : (s.kubernetes.ReadSecret ns secret.Name st.world).1.2 = none ∨
      IsK8sSecretNotFound (s.kubernetes.ReadSecret ns secret.Name st.world).1.2 = true)
    (hne : DeepEqual d (s.kubernetes.ReadSecret ns secret.Name st.world).1.1 = false)
    (hups : (s.kubernetes.UpsertSecret (mkSecret secret.Typ ns secret.Name d
        (s.Now (s.kubernetes.ReadSecret ns secret.Name st.world).2).1)
        (s.Now (s.kubernetes.ReadSecret ns secret.Name st.world).2).2).1 = none) :
    (syncNamespace s secret d st ns).calls = st.calls ++ [Call.ReadSecret ns secret.Name,
      Call.UpsertSecret (mkSecret secret.Typ ns secret.Name d
        (s.Now (s.kubernetes.ReadSecret ns secret.Name st.world).2).1)] ∧
    (syncNamespace s secret d st ns).secretSyncErrorsCount = st.secretSyncErrorsCount := by
  have hok := (readFailed_eq_false _).mpr hr
  rw [syncNamespace_of_differ s secret d st ns hok hne]
  have hu : (upsertSecret s secret.Typ ns secret.Name d
      (getCurrentState s ns secret.Name st).2).1 = none := by
    rw [upsertSecret_fst]; exact hups
  rw [hu]
  simp only [Option.isSome_none, Bool.false_eq_true, if_false]
  rw [upsertSecret_calls, upsertSecret_count]
  simp [getCurrentState_eq]

/-- C9: for a spec with the single namespace `ns`, pairwise distinct entry
keys and a non-empty Data whose entries all use the identity encoding and are
all held by the backend (`B path key` is the value held), over the codec
registry of the spec, when the target store, read once the desired state is
computed, answers not-found (with a nil or an empty map) for the secret in `ns`
and then accepts the write of the record built for `ns`, `SyncState` returns
nil, makes exactly one `UpsertSecret`, for `spec.Name` in `ns` with `spec.Type`,
whose Data has exactly the entry keys and binds each to the bytes of its backend
value, and leaves every error counter as it was.  Nothing is asked of the store
in any other world: it may keep the write. -/
theorem SyncState_creates_secret {σ : Type} (s : secretManager σ)
    (secret : SecretDefinitionSpec) (st : State σ) (ns : String)
    (B : String → String → Content)
    (hns : secret.Namespaces = [ns]) (hdata : secret.Data ≠ [])
    (hnodup : (secret.Data.map Prod.fst).Nodup)
    (hreg : s.NewDecoder = backend.NewDecoder)
    (henc : ∀ k v, (k, v) ∈ secret.Data → v.Encoding = "")
    (hback : ∀ k v, (k, v) ∈ secret.Data → ∀ w,
      (s.backend.ReadSecret v.Path v.Key w).1 = Except.ok (B v.Path v.Key))
    (habsent : IsK8sSecretNotFound
        (s.kubernetes.ReadSecret ns secret.Name (getDesiredState s secret st.world).2).1.2 = true ∧
      ((s.kubernetes.ReadSecret ns secret.Name (getDesiredState s secret st.world).2).1.1 = none ∨
        (s.kubernetes.ReadSecret ns secret.Name (getDesiredState s secret st.world).2).1.1
          = some []))
    (hups : (s.kubernetes.UpsertSecret
      (mkSecret secret.Typ ns secret.Name (getDesiredState s secret st.world).1.1
        (s.Now (s.kubernetes.ReadSecret ns secret.Name
          (getDesiredState s secret st.world).2).2).1)
      (s.Now (s.kubernetes.ReadSecret ns secret.Name
        (getDesiredState s secret st.world).2).2).2).1 = none) :
    (SyncState s secret st).1 = none ∧
    (∃ sec m, upserts (SyncState s secret st).2.calls = upserts st.calls ++ [sec] ∧
      sec.Name = secret.Name ∧ sec.Namespace = ns ∧ sec.Typ = secret.Typ ∧
      sec.Data = some m ∧ mapKeys m = secret.Data.map Prod.fst ∧
      ∀ k v, (k, v) ∈ secret.Data → mapIndex m k = some (some (B v.Path v.Key))) ∧
    (SyncState s secret st).2.secretSyncErrorsCount = st.secretSyncErrorsCount := by
  have hsucc : ∀ e ∈ secret.Data, entrySucceeds s e.2 := by
    intro e he w
    refine ⟨B e.2.Path e.2.Key, identityDecoder, some (B e.2.Path e.2.Key),
      hback e.1 e.2 he w, ?_, rfl⟩
    rw [hreg, henc e.1 e.2 he]
    exact NewDecoder_identity
  obtain ⟨m, hm⟩ := getDesiredState_ok_of_succeeds s secret st.world hsucc
  obtain ⟨hkeys, _, hvals⟩ := getDesiredStateLoop_ok_spec s secret.Data [] st.world m hnodup
    (by simp [mapKeys]) hm
  have hkeys2 : mapKeys m = secret.Data.map Prod.fst := by simpa [mapKeys] using hkeys
  have hmne : m ≠ [] := by
    intro h0
    rw [h0] at hkeys2
    simp only [mapKeys, List.map_nil] at hkeys2
    exact hdata (List.map_eq_nil_iff.mp hkeys2.symm)
  have hd2 : (getDesiredState s secret st.world).1.2 = none := by rw [hm]
  have hd1 : (getDesiredState s secret st.world).1.1 = some m := by rw [hm]
  rw [hd1] at hups
  rw [SyncState_of_ok s secret st hd2, hns, hd1]
  simp only [List.foldl]
  obtain ⟨hnf, hcur⟩ := habsent
  have hne : DeepEqual (some m)
      (s.kubernetes.ReadSecret ns secret.Name (getDesiredState s secret st.world).2).1.1
      = false := by
    rcases hcur with h | h
    · rw [h]; rfl
    · rw [h]; exact DeepEqual_empty_right m hmne
  obtain ⟨hcalls, hcount⟩ := syncNamespace_write_ok_at s secret (some m)
    { st with world := (getDesiredState s secret st.world).2 } ns (Or.inr hnf) hne hups
  refine ⟨trivial, ⟨mkSecret secret.Typ ns secret.Name (some m)
      (s.Now (s.kubernetes.ReadSecret ns secret.Name (getDesiredState s secret st.world).2).2).1,
    m, ?_, rfl, rfl, rfl, rfl, hkeys2, ?_⟩, hcount⟩
  · rw [hcalls, upserts_append]
    simp only [upserts]
  · intro k v hkv
    obtain ⟨w0, b, d, x, hb, hd, hx, hidx⟩ := hvals k v hkv
    rw [hback k v hkv w0] at hb
    cases hb
    rw [hreg, henc k v hkv, NewDecoder_identity] at hd
    cases hd
    rw [hidx]
    simp only [identityDecoder] at hx
    cases hx
    rfl

/-- C9, witness: the end-to-end example of §8 over the in-memory store, which
keeps what is written: the secret "test-secret" is absent from "default", the
backend holds "fake-content"; one upsert with Data value1 = "fake-content", nil
result, error counter still 0, and the store holds the secret afterwards. -/
theorem SyncState_creates_secret_witness :
    (SyncState (memoryManager false testBackendRows) endToEndSpec
      (initState (emptyStore 0))).1 = none ∧
    (upserts (SyncState (memoryManager false testBackendRows) endToEndSpec
        (initState (emptyStore 0))).2.calls).map (fun sec => (sec.Namespace, sec.Name, sec.Data))
      = [("default", "test-secret", some [("value1", some (ascii "fake-content"))])] ∧
    (SyncState (memoryManager false testBackendRows) endToEndSpec
      (initState (emptyStore 0))).2.secretSyncErrorsCount "test-secret" "default" = 0 ∧
    (SyncState (memoryManager false testBackendRows) endToEndSpec
      (initState (emptyStore 0))).2.world.held "default" "test-secret"
      = some (some [("value1", some (ascii "fake-content"))]) :=
  have h := SyncState_creates_secret (memoryManager false testBackendRows) endToEndSpec
    (initState (emptyStore 0)) "default" (fun _ _ => ascii "fake-content")
    rfl (by decide) (by decide) rfl
    (fun k v hkv => by
      simp only [endToEndSpec, List.mem_singleton, Prod.mk.injEq] at hkv
      rw [hkv.2])
    (fun k v hkv w => by
      simp only [endToEndSpec, List.mem_singleton, Prod.mk.injEq] at hkv
      rw [hkv.2]
      rfl)
    ⟨rfl, Or.inl rfl⟩ rfl
  ⟨h.1, rfl, by rw [h.2.2]; rfl, by decide⟩

theorem DeepEqual_empty_right_iff (m : Entries) :
    DeepEqual (some m) (some []) = false ↔ m ≠ [] := by
  cases m with
  | nil => simp [DeepEqual]
  | cons e rest => simp [DeepEqual]

/-- C10 (amended): when the target-store `ReadSecret` reports not-found for a
namespace, the loop body of `SyncState` does not count it as an error and does
exactly what it does when the read succeeds with the map that came with the
error: it attempts an `UpsertSecret` if and only if the desired state is not
`DeepEqual` to that map, and the error counter moves only if that upsert is
attempted and fails.  For a computed desired state `some m`: with the nil map
the upsert is always attempted, also when `m` is empty; with an empty non-nil
map it is attempted if and only if `m` is non-empty. -/
theorem syncNamespace_not_found {σ : Type} (s : secretManager σ)
    (secret : SecretDefinitionSpec) (d : ByteMap) (st : State σ) (ns : String)
    (hnf : IsK8sSecretNotFound (s.kubernetes.ReadSecret ns secret.Name st.world).1.2 = true) :
    syncNamespace s secret d st ns = syncNamespace (readAsSuccess s) secret d st ns ∧
    upserts (syncNamespace s secret d st ns).calls = upserts st.calls ++
      (if DeepEqual d (s.kubernetes.ReadSecret ns secret.Name st.world).1.1 = true then []
       else [mkSecret secret.Typ ns secret.Name d
         (s.Now (s.kubernetes.ReadSecret ns secret.Name st.world).2).1]) ∧
    (DeepEqual d (s.kubernetes.ReadSecret ns secret.Name st.world).1.1 = true →
      (syncNamespace s secret d st ns).secretSyncErrorsCount = st.secretSyncErrorsCount) ∧
    ((s.kubernetes.UpsertSecret (mkSecret secret.Typ ns secret.Name d
        (s.Now (s.kubernetes.ReadSecret ns secret.Name st.world).2).1)
        (s.Now (s.kubernetes.ReadSecret ns secret.Name st.world).2).2).1 = none →
      (syncNamespace s secret d st ns).secretSyncErrorsCount = st.secretSyncErrorsCount) ∧
    (∀ m, d = some m →
      ((s.kubernetes.ReadSecret ns secret.Name st.world).1.1 = none →
        DeepEqual d (s.kubernetes.ReadSecret ns secret.Name st.world).1.1 = false) ∧
      ((s.kubernetes.ReadSecret ns secret.Name st.world).1.1 = some [] →
        (DeepEqual d (s.kubernetes.ReadSecret ns secret.Name st.world).1.1 = false ↔ m ≠ []))) := by
  have hok := (readFailed_eq_false _).mpr (Or.inr hnf)
  have hok2 : (((readAsSuccess s).kubernetes.ReadSecret ns secret.Name st.world).1.2.isSome &&
      !IsK8sSecretNotFound ((readAsSuccess s).kubernetes.ReadSecret ns secret.Name st.world).1.2)
      = false := rfl
  refine ⟨?_, ?_, ?_, ?_, ?_⟩
  · cases hde : DeepEqual d (s.kubernetes.ReadSecret ns secret.Name st.world).1.1 with
    | true =>
      rw [syncNamespace_of_equal s secret d st ns hok hde,
        syncNamespace_of_equal (readAsSuccess s) secret d st ns hok2 hde]
      rfl
    | false =>
      rw [syncNamespace_of_differ s secret d st ns hok hde,
        syncNamespace_of_differ (readAsSuccess s) secret d st ns hok2 hde]
      rfl
  · cases hde : DeepEqual d (s.kubernetes.ReadSecret ns secret.Name st.world).1.1 with
    | true =>
      rw [syncNamespace_of_equal s secret d st ns hok hde]
      simp [getCurrentState_eq, upserts_append, upserts]
    | false =>
      rw [syncNamespace_of_differ s secret d st ns hok hde]
      split
      · simp only [incErrors, upsertSecret_calls]
        simp [getCurrentState_eq, upserts_append, upserts]
      · simp only [upsertSecret_calls]
        simp [getCurrentState_eq, upserts_append, upserts]
  · intro hde
    rw [syncNamespace_of_equal s secret d st ns hok hde]
    rfl
  · intro hu
    cases hde : DeepEqual d (s.kubernetes.ReadSecret ns secret.Name st.world).1.1 with
    | true =>
      rw [syncNamespace_of_equal s secret d st ns hok hde]
      rfl
    | false =>
      rw [syncNamespace_of_differ s secret d st ns hok hde]
      have hu2 : (upsertSecret s secret.Typ ns secret.Name d
          (getCurrentState s ns secret.Name st).2).1 = none := by
        rw [upsertSecret_fst]; exact hu
      rw [hu2]
      simp only [Option.isSome_none, Bool.false_eq_true, if_false]
      rw [upsertSecret_count]
      rfl
  · intro m hm
    subst hm
    refine ⟨fun h => by rw [h]; rfl, fun h => by rw [h]; exact DeepEqual_empty_right_iff m⟩

/-- C10, witness: the end-to-end example, whose store answers not-found with a
nil map: the upsert of the desired state is attempted and the counter stays. -/
theorem syncNamespace_not_found_witness :
    upserts (syncNamespace (contentManager testBackendRows) endToEndSpec
        (some [("value1", some (ascii "fake-content"))]) (initState ()) "default").calls
      = [mkSecret "Opaque" "default" "test-secret" (some [("value1", some (ascii "fake-content"))])
          (fixedNow ()).1] ∧
    (syncNamespace (contentManager testBackendRows) endToEndSpec
        (some [("value1", some (ascii "fake-content"))]) (initState ()) "default"
      ).secretSyncErrorsCount = (initState ()).secretSyncErrorsCount :=
  have h := syncNamespace_not_found (contentManager testBackendRows) endToEndSpec
    (some [("value1", some (ascii "fake-content"))]) (initState ()) "default" rfl
  ⟨h.2.1, h.2.2.2.1 rfl⟩

/-- C10, counterexample: a spec with empty Data, a store that answers not-found
(with the nil map) for "ns" and accepts writes.  The desired state is the empty
non-nil map, which is not `DeepEqual` to nil, and `SyncState` does attempt an
`UpsertSecret` for "ns", with empty Data. -/
theorem SyncState_empty_data_absent_secret_writes :
    emptyDataSpec.Data = [] ∧
    (getDesiredState (contentManager []) emptyDataSpec ()).1 = (some [], none) ∧
    ((contentManager []).kubernetes.ReadSecret "ns" "secret-name" ()).1
      = (none, some (Error.K8sSecretNotFound "ns" "secret-name")) ∧
    IsK8sSecretNotFound (some (Error.K8sSecretNotFound "ns" "secret-name")) = true ∧
    (SyncState (contentManager []) emptyDataSpec (initState ())).2.calls
      = [Call.ReadSecret "ns" "secret-name",
         Call.UpsertSecret (mkSecret "Opaque" "ns" "secret-name" (some []) (fixedNow ()).1)] := by
  refine ⟨rfl, rfl, rfl, rfl, ?_⟩
  decide

/-! ## Lemmas for idempotence -/

theorem mapKeys_mapAssign_of_mem (m : Entries) (k : String) (v : Bytes)
    (h : k ∈ mapKeys m) : mapKeys (mapAssign m k v) = mapKeys m := by
  induction m with
  | nil => simp [mapKeys] at h
  | cons e rest ih =>
    obtain ⟨k0, v0⟩ := e
    by_cases h0 : k0 = k
    · subst h0
      simp [mapAssign, mapKeys]
    · have hrest : k ∈ mapKeys rest := by
        simp only [mapKeys, List.map_cons, List.mem_cons] at h
        rcases h with h | h
        · exact absurd h.symm h0
        · exact h
      have ih2 := ih hrest
      simp only [mapKeys] at ih2
      simp [mapAssign, mapKeys, h0, ih2]

theorem mapKeys_nodup_mapAssign (m : Entries) (k : String) (v : Bytes)
    (h : (mapKeys m).Nodup) : (mapKeys (mapAssign m k v)).Nodup := by
  by_cases hk : k ∈ mapKeys m
  · rw [mapKeys_mapAssign_of_mem m k v hk]; exact h
  · rw [mapKeys_mapAssign_of_not_mem m k v hk]
    exact List.Nodup.append h (List.nodup_singleton k) (by
      intro a ha hb
      rw [List.mem_singleton] at hb
      subst hb
      exact hk ha)

/-- The map a successful run returns has pairwise distinct keys. -/
theorem getDesiredStateLoop_nodup {σ : Type} (s : secretManager σ)
    (data : List (String × DatasourceSpec)) (acc : Entries) (w : σ) (m : Entries)
    (hacc : (mapKeys acc).Nodup)
    (h : (getDesiredStateLoop s data acc w).1 = (some m, none)) : (mapKeys m).Nodup := by
  induction data generalizing acc w with
  | nil =>
    simp only [getDesiredStateLoop, Prod.mk.injEq, Option.some.injEq, and_true] at h
    subst h
    exact hacc
  | cons kv rest ih =>
    obtain ⟨k0, v0⟩ := kv
    cases hread : (s.backend.ReadSecret v0.Path v0.Key w).1 with
    | error err =>
      rw [getDesiredStateLoop_cons_read_error s k0 v0 rest acc w err hread] at h
      simp at h
    | ok b =>
      cases hdec : s.NewDecoder v0.Encoding with
      | error err =>
        rw [getDesiredStateLoop_cons_decoder_error s k0 v0 rest acc w b err hread hdec] at h
        simp at h
      | ok d =>
        cases hx : d.DecodeString b with
        | error err =>
          rw [getDesiredStateLoop_cons_decode_error s k0 v0 rest acc w b d err hread hdec hx] at h
          simp at h
        | ok x =>
          rw [getDesiredStateLoop_cons_ok s k0 v0 rest acc w b d x hread hdec hx] at h
          exact ih _ _ (mapKeys_nodup_mapAssign acc k0 x hacc) h

theorem mapIndex_of_mem_nodup (m : Entries) (k : String) (v : Bytes)
    (hnodup : (mapKeys m).Nodup) (hmem : (k, v) ∈ m) : mapIndex m k = some v := by
  induction m with
  | nil => simp at hmem
  | cons e rest ih =>
    obtain ⟨k0, v0⟩ := e
    simp only [mapKeys, List.map_cons, List.nodup_cons] at hnodup
    rcases List.mem_cons.mp hmem with h | h
    · injection h with hk hv
      subst hk; subst hv
      simp [mapIndex]
    · have hne : ¬ k0 = k := by
        intro heq
        subst heq
        exact hnodup.1 (List.mem_map_of_mem Prod.fst h)
      simp only [mapIndex, hne, if_false]
      exact ih hnodup.2 h

/-- A map with pairwise distinct keys is deeply equal to itself. -/
theorem DeepEqual_refl (m : Entries) (hnodup : (mapKeys m).Nodup) :
    DeepEqual (some m) (some m) = true := by
  simp only [DeepEqual, decide_True, Bool.true_and, List.all_eq_true, decide_eq_true_eq]
  intro kv hkv
  exact mapIndex_of_mem_nodup m kv.1 kv.2 hnodup hkv

/-- With a backend that answers alike in every world, so does the loop. -/
theorem getDesiredStateLoop_world_irrelevant {σ : Type} (s : secretManager σ)
    (hback : ∀ path key w w0, (s.backend.ReadSecret path key w).1
      = (s.backend.ReadSecret path key w0).1)
    (data : List (String × DatasourceSpec)) (acc : Entries) (w w0 : σ) :
    (getDesiredStateLoop s data acc w).1 = (getDesiredStateLoop s data acc w0).1 := by
  induction data generalizing acc w w0 with
  | nil => rfl
  | cons kv rest ih =>
    obtain ⟨k0, v0⟩ := kv
    have hsame := hback v0.Path v0.Key w w0
    cases hread : (s.backend.ReadSecret v0.Path v0.Key w).1 with
    | error err =>
      rw [getDesiredStateLoop_cons_read_error s k0 v0 rest acc w err hread,
        getDesiredStateLoop_cons_read_error s k0 v0 rest acc w0 err (by rw [← hsame, hread])]
    | ok b =>
      have hread0 : (s.backend.ReadSecret v0.Path v0.Key w0).1 = Except.ok b := by
        rw [← hsame, hread]
      cases hdec : s.NewDecoder v0.Encoding with
      | error err =>
        rw [getDesiredStateLoop_cons_decoder_error s k0 v0 rest acc w b err hread hdec,
          getDesiredStateLoop_cons_decoder_error s k0 v0 rest acc w0 b err hread0 hdec]
      | ok d =>
        cases hx : d.DecodeString b with
        | error err =>
          rw [getDesiredStateLoop_cons_decode_error s k0 v0 rest acc w b d err hread hdec hx,
            getDesiredStateLoop_cons_decode_error s k0 v0 rest acc w0 b d err hread0 hdec hx]
        | ok x =>
          rw [getDesiredStateLoop_cons_ok s k0 v0 rest acc w b d x hread hdec hx,
            getDesiredStateLoop_cons_ok s k0 v0 rest acc w0 b d x hread0 hdec hx]
          exact ih _ _ _

/-- Computing the desired state leaves a faithful store as it is. -/
theorem getDesiredStateLoop_stored {σ : Type} (s : secretManager σ) (hf : FaithfulStore s)
    (data : List (String × DatasourceSpec)) (acc : Entries) (w : σ) (ns name : String) :
    stored s (getDesiredStateLoop s data acc w).2 ns name = stored s w ns name := by
  induction data generalizing acc w with
  | nil => rfl
  | cons kv rest ih =>
    obtain ⟨k0, v0⟩ := kv
    cases hread : (s.backend.ReadSecret v0.Path v0.Key w).1 with
    | error err =>
      rw [getDesiredStateLoop_cons_read_error s k0 v0 rest acc w err hread]
      exact hf.backend_frame _ _ _ _ _
    | ok b =>
      cases hdec : s.NewDecoder v0.Encoding with
      | error err =>
        rw [getDesiredStateLoop_cons_decoder_error s k0 v0 rest acc w b err hread hdec]
        exact hf.backend_frame _ _ _ _ _
      | ok d =>
        cases hx : d.DecodeString b with
        | error err =>
          rw [getDesiredStateLoop_cons_decode_error s k0 v0 rest acc w b d err hread hdec hx]
          exact hf.backend_frame _ _ _ _ _
        | ok x =>
          rw [getDesiredStateLoop_cons_ok s k0 v0 rest acc w b d x hread hdec hx, ih]
          exact hf.backend_frame _ _ _ _ _

/-- One namespace over a faithful store that accepts writes: afterwards the
namespace holds a map deeply equal to the desired state, namespaces that did
so before still do, and an upsert was made exactly when the namespace did not. -/
theorem syncNamespace_faithful {σ : Type} (s : secretManager σ) (hf : FaithfulStore s)
    (hacc : ∀ sec w, (s.kubernetes.UpsertSecret sec w).1 = none)
    (secret : SecretDefinitionSpec) (d : ByteMap) (hrefl : DeepEqual d d = true)
    (st : State σ) (n : String) :
    DeepEqual d (stored s (syncNamespace s secret d st n).world n secret.Name) = true ∧
    (∀ ns, DeepEqual d (stored s st.world ns secret.Name) = true →
      DeepEqual d (stored s (syncNamespace s secret d st n).world ns secret.Name) = true) ∧
    upserts (syncNamespace s secret d st n).calls = upserts st.calls ++
      (if DeepEqual d (stored s st.world n secret.Name) = true then []
       else [mkSecret secret.Typ n secret.Name d
         (s.Now (s.kubernetes.ReadSecret n secret.Name st.world).2).1]) := by
  have hok := (readFailed_eq_false _).mpr (hf.read_ok st.world n secret.Name)
  cases hde : DeepEqual d (stored s st.world n secret.Name) with
  | true =>
    have hde2 : DeepEqual d (s.kubernetes.ReadSecret n secret.Name st.world).1.1 = true := hde
    rw [syncNamespace_of_equal s secret d st n hok hde2]
    simp only [getCurrentState_eq]
    refine ⟨?_, ?_, ?_⟩
    · rw [hf.read_frame]; exact hde
    · intro ns hns
      rw [hf.read_frame]; exact hns
    · simp [upserts_append, upserts]
  | false =>
    have hde2 : DeepEqual d (s.kubernetes.ReadSecret n secret.Name st.world).1.1 = false := hde
    rw [syncNamespace_of_differ s secret d st n hok hde2]
    have hu : (upsertSecret s secret.Typ n secret.Name d
        (getCurrentState s n secret.Name st).2).1 = none := by
      rw [upsertSecret_fst]; exact hacc _ _
    rw [hu]
    simp only [Option.isSome_none, Bool.false_eq_true, if_false]
    rw [upsertSecret_world, upsertSecret_calls]
    simp only [getCurrentState_eq]
    have hw := hf.upsert_written (s.Now (s.kubernetes.ReadSecret n secret.Name st.world).2).2
      (mkSecret secret.Typ n secret.Name d
        (s.Now (s.kubernetes.ReadSecret n secret.Name st.world).2).1) (hacc _ _)
    simp only [mkSecret] at hw
    refine ⟨?_, ?_, ?_⟩
    · simp only [mkSecret]
      rw [hw]; exact hrefl
    · intro ns hns
      by_cases hn : ns = n
      · subst hn
        simp only [mkSecret]
        rw [hw]; exact hrefl
      · rw [hf.upsert_frame _ _ ns secret.Name (Or.inl hn), hf.now_frame, hf.read_frame]
        exact hns
    · simp [upserts_append, upserts]

/-- The namespace loop over a faithful store that accepts writes. -/
theorem foldl_syncNamespace_faithful {σ : Type} (s : secretManager σ) (hf : FaithfulStore s)
    (hacc : ∀ sec w, (s.kubernetes.UpsertSecret sec w).1 = none)
    (secret : SecretDefinitionSpec) (d : ByteMap) (hrefl : DeepEqual d d = true)
    (nss : List String) (st : State σ) :
    (∀ ns, DeepEqual d (stored s st.world ns secret.Name) = true →
      DeepEqual d (stored s (nss.foldl (syncNamespace s secret d) st).world ns secret.Name)
        = true) ∧
    (∀ ns ∈ nss,
      DeepEqual d (stored s (nss.foldl (syncNamespace s secret d) st).world ns secret.Name)
        = true) ∧
    (∀ ns, (upserts (nss.foldl (syncNamespace s secret d) st).calls).countP
        (fun sec => decide (sec.Namespace = ns))
      ≤ (upserts st.calls).countP (fun sec => decide (sec.Namespace = ns))
        + (if DeepEqual d (stored s st.world ns secret.Name) = true then 0 else 1)) := by
  induction nss generalizing st with
  | nil =>
    refine ⟨fun ns h => h, fun ns h => by simp at h, fun ns => ?_⟩
    simp
  | cons n rest ih =>
    obtain ⟨s1, s2, s3⟩ := syncNamespace_faithful s hf hacc secret d hrefl st n
    obtain ⟨i1, i2, i3⟩ := ih (syncNamespace s secret d st n)
    rw [List.foldl]
    refine ⟨fun ns h => i1 ns (s2 ns h), ?_, ?_⟩
    · intro ns hns
      rcases List.mem_cons.mp hns with h | h
      · subst h; exact i1 _ s1
      · exact i2 ns h
    · intro ns
      refine le_trans (i3 ns) ?_
      rw [s3, List.countP_append]
      by_cases hn : n = ns
      · subst hn
        rw [s1]
        cases hde : DeepEqual d (stored s st.world n secret.Name) with
        | true => simp
        | false => simp [mkSecret]
      · cases hde : DeepEqual d (stored s st.world ns secret.Name) with
        | true =>
          rw [s2 ns hde]
          cases hdn : DeepEqual d (stored s st.world n secret.Name) with
          | true => simp
          | false => simp [mkSecret, hn]
        | false =>
          have hle : (if DeepEqual d (stored s (syncNamespace s secret d st n).world ns
              secret.Name) = true then 0 else 1) ≤ 1 := by split <;> omega
          cases hdn : DeepEqual d (stored s st.world n secret.Name) with
          | true => simp; omega
          | false => simp [mkSecret, hn]; omega

/-- The namespace loop makes no upsert when every namespace already holds a
map deeply equal to the desired state. -/
theorem foldl_syncNamespace_settled {σ : Type} (s : secretManager σ) (hf : FaithfulStore s)
    (hacc : ∀ sec w, (s.kubernetes.UpsertSecret sec w).1 = none)
    (secret : SecretDefinitionSpec) (d : ByteMap) (hrefl : DeepEqual d d = true)
    (nss : List String) (st : State σ)
    (hall : ∀ ns ∈ nss, DeepEqual d (stored s st.world ns secret.Name) = true) :
    upserts (nss.foldl (syncNamespace s secret d) st).calls = upserts st.calls := by
  induction nss generalizing st with
  | nil => rfl
  | cons n rest ih =>
    obtain ⟨_, s2, s3⟩ := syncNamespace_faithful s hf hacc secret d hrefl st n
    rw [List.foldl, ih (syncNamespace s secret d st n)
      (fun ns hns => s2 ns (hall ns (List.mem_cons_of_mem _ hns))), s3,
      hall n (List.mem_cons_self _ _)]
    simp

theorem stored_memoryManager (flaky : Bool) (rows : List fakeBackendSecret) (w : StoreWorld)
    (ns name : String) :
    stored (memoryManager flaky rows) w ns name = (w.held ns name).getD none := by
  simp only [stored, memoryManager, memoryStore]
  cases w.held ns name <;> rfl

theorem memoryStore_upsert_rejected (flaky : Bool) (rows : List fakeBackendSecret)
    (w : StoreWorld) (sec : Secret) (h : (flaky && decide (0 < w.rejects)) = true) :
    (memoryManager flaky rows).kubernetes.UpsertSecret sec w
      = (some (Error.Other "rejected"), { w with rejects := w.rejects - 1 }) := by
  simp only [memoryManager, memoryStore, h, if_true]

theorem memoryStore_upsert_accepted (flaky : Bool) (rows : List fakeBackendSecret)
    (w : StoreWorld) (sec : Secret) (h : (flaky && decide (0 < w.rejects)) = false) :
    (memoryManager flaky rows).kubernetes.UpsertSecret sec w
      = (none, { w with held := fun ns name =>
          if ns = sec.Namespace ∧ name = sec.Name then some sec.Data else w.held ns name }) := by
  simp only [memoryManager, memoryStore, h, Bool.false_eq_true, if_false]

/-- The in-memory store, flaky or not, is a faithful store. -/
theorem memoryManager_faithful (flaky : Bool) (rows : List fakeBackendSecret) :
    FaithfulStore (memoryManager flaky rows) := by
  constructor
  · intro w ns name
    simp only [memoryManager, memoryStore]
    cases w.held ns name <;> simp [IsK8sSecretNotFound]
  · intro w ns0 name0 ns name
    simp only [stored, memoryManager, memoryStore]
    cases w.held ns0 name0 <;> rfl
  · intro w path key ns name
    rfl
  · intro w ns name
    rfl
  · intro w sec h
    rw [stored_memoryManager]
    cases hc : (flaky && decide (0 < w.rejects)) with
    | true =>
      rw [memoryStore_upsert_rejected flaky rows w sec hc] at h
      simp at h
    | false =>
      rw [memoryStore_upsert_accepted flaky rows w sec hc]
      simp
  · intro w sec ns name hne
    rw [stored_memoryManager, stored_memoryManager]
    cases hc : (flaky && decide (0 < w.rejects)) with
    | true =>
      rw [memoryStore_upsert_rejected flaky rows w sec hc]
    | false =>
      rw [memoryStore_upsert_accepted flaky rows w sec hc]
      have hcond : ¬ (ns = sec.Namespace ∧ name = sec.Name) := by
        rintro ⟨h1, h2⟩
        rcases hne with h | h
        · exact h h1
        · exact h h2
      simp [hcond]
  · intro w sec ns name h
    rw [stored_memoryManager, stored_memoryManager]
    cases hc : (flaky && decide (0 < w.rejects)) with
    | true =>
      rw [memoryStore_upsert_rejected flaky rows w sec hc]
    | false =>
      rw [memoryStore_upsert_accepted flaky rows w sec hc] at h
      simp at h

/-- C4, counterexample: a faithful in-memory store that rejects its first
upsert, and a backend that always answers alike.  The first `SyncState` attempts
one upsert for "ns", which is rejected, so the store still holds nothing; the
immediately repeated `SyncState` makes a second upsert, which is accepted and
stored: the repeated call does perform a write. -/
theorem SyncState_repeated_call_writes_after_rejection :
    FaithfulStore (memoryManager true testBackendRows) ∧
    (∀ path key w w0, ((memoryManager true testBackendRows).backend.ReadSecret path key w).1
      = ((memoryManager true testBackendRows).backend.ReadSecret path key w0).1) ∧
    (upserts (SyncState (memoryManager true testBackendRows) (testSpec ["ns"])
      (initState (emptyStore 1))).2.calls).length = 1 ∧
    (SyncState (memoryManager true testBackendRows) (testSpec ["ns"])
      (initState (emptyStore 1))).2.world.held "ns" "secret-name" = none ∧
    (upserts (SyncState (memoryManager true testBackendRows) (testSpec ["ns"])
      (SyncState (memoryManager true testBackendRows) (testSpec ["ns"])
        (initState (emptyStore 1))).2).2.calls).length = 2 ∧
    (SyncState (memoryManager true testBackendRows) (testSpec ["ns"])
      (SyncState (memoryManager true testBackendRows) (testSpec ["ns"])
        (initState (emptyStore 1))).2).2.world.held "ns" "secret-name"
      = some (some [("value1", some (ascii "fake-content"))]) := by
  refine ⟨memoryManager_faithful true testBackendRows, fun _ _ _ _ => rfl, ?_, ?_, ?_, ?_⟩
  · decide
  · decide
  · decide
  · decide

/-! ## The visiting order of the entries does not matter -/

theorem mem_of_mapIndex (m : Entries) (k : String) (v : Bytes) (h : mapIndex m k = some v) :
    (k, v) ∈ m := by
  induction m with
  | nil => simp [mapIndex] at h
  | cons e rest ih =>
    obtain ⟨k0, v0⟩ := e
    by_cases h0 : k0 = k
    · subst h0
      simp only [mapIndex, if_true, Option.some.injEq] at h
      subst h
      exact List.mem_cons_self _ _
    · simp only [mapIndex, h0, if_false] at h
      exact List.mem_cons_of_mem _ (ih h)

/-- Two maps with pairwise distinct keys, the same length and the same value
at every key compare alike with any map. -/
theorem DeepEqual_congr_left (m1 m2 : Entries) (y : ByteMap)
    (h1 : (mapKeys m1).Nodup) (h2 : (mapKeys m2).Nodup) (hlen : m1.length = m2.length)
    (hidx : ∀ k, mapIndex m1 k = mapIndex m2 k) :
    DeepEqual (some m1) y = DeepEqual (some m2) y := by
  cases y with
  | none => rfl
  | some c =>
    rw [Bool.eq_iff_iff]
    simp only [DeepEqual, Bool.and_eq_true, decide_eq_true_eq, List.all_eq_true]
    constructor
    · rintro ⟨hl, hall⟩
      refine ⟨by omega, fun kv hkv => ?_⟩
      have hm := mapIndex_of_mem_nodup m2 kv.1 kv.2 h2 hkv
      rw [← hidx] at hm
      exact hall kv (mem_of_mapIndex m1 kv.1 kv.2 hm)
    · rintro ⟨hl, hall⟩
      refine ⟨by omega, fun kv hkv => ?_⟩
      have hm := mapIndex_of_mem_nodup m1 kv.1 kv.2 h1 hkv
      rw [hidx] at hm
      exact hall kv (mem_of_mapIndex m2 kv.1 kv.2 hm)

/-- With a backend that answers alike in every world, a successful run means
that every entry goes through in every world. -/
theorem entrySucceeds_of_loop_ok {σ : Type} (s : secretManager σ)
    (hback : ∀ path key w w0, (s.backend.ReadSecret path key w).1
      = (s.backend.ReadSecret path key w0).1)
    (data : List (String × DatasourceSpec)) (acc : Entries) (w : σ) (m : Entries)
    (h : (getDesiredStateLoop s data acc w).1 = (some m, none)) :
    ∀ e ∈ data, entrySucceeds s e.2 := by
  induction data generalizing acc w with
  | nil => intro e he; simp at he
  | cons kv rest ih =>
    obtain ⟨k0, v0⟩ := kv
    cases hread : (s.backend.ReadSecret v0.Path v0.Key w).1 with
    | error err =>
      rw [getDesiredStateLoop_cons_read_error s k0 v0 rest acc w err hread] at h
      simp at h
    | ok b =>
      cases hdec : s.NewDecoder v0.Encoding with
      | error err =>
        rw [getDesiredStateLoop_cons_decoder_error s k0 v0 rest acc w b err hread hdec] at h
        simp at h
      | ok d =>
        cases hx : d.DecodeString b with
        | error err =>
          rw [getDesiredStateLoop_cons_decode_error s k0 v0 rest acc w b d err hread hdec hx] at h
          simp at h
        | ok x =>
          rw [getDesiredStateLoop_cons_ok s k0 v0 rest acc w b d x hread hdec hx] at h
          intro e he
          rcases List.mem_cons.mp he with heq | hin
          · subst heq
            intro w0
            exact ⟨b, d, x, by rw [hback _ _ w0 w, hread], hdec, hx⟩
          · exact ih _ _ h e hin

/-- With a backend that answers alike in every world and pairwise distinct
entry keys, visiting the entries in another order fails when the first order
fails and otherwise returns a map that compares alike with any map. -/
theorem getDesiredState_perm {σ : Type} (s : secretManager σ)
    (hback : ∀ path key w w0, (s.backend.ReadSecret path key w).1
      = (s.backend.ReadSecret path key w0).1)
    (data data2 : List (String × DatasourceSpec)) (hperm : data2.Perm data)
    (hnodup : (data.map Prod.fst).Nodup) (w w2 : σ) :
    ((∃ err, (getDesiredStateLoop s data [] w).1 = (none, some err)) →
      ∃ err, (getDesiredStateLoop s data2 [] w2).1 = (none, some err)) ∧
    (∀ m, (getDesiredStateLoop s data [] w).1 = (some m, none) →
      ∃ m2, (getDesiredStateLoop s data2 [] w2).1 = (some m2, none) ∧
        (mapKeys m2).Nodup ∧ ∀ y, DeepEqual (some m2) y = DeepEqual (some m) y) := by
  have hnodup2 : (data2.map Prod.fst).Nodup := (hperm.map Prod.fst).nodup_iff.mpr hnodup
  constructor
  · rintro ⟨err, herr⟩
    rcases getDesiredStateLoop_total s data2 [] w2 with h | ⟨m2, hm2⟩
    · exact h
    · exfalso
      have hs2 := entrySucceeds_of_loop_ok s hback data2 [] w2 m2 hm2
      have hs : ∀ e ∈ data, entrySucceeds s e.2 := fun e he => hs2 e (hperm.mem_iff.mpr he)
      obtain ⟨acc1, w1, hskip⟩ := getDesiredStateLoop_append_of_succeeds s data [] hs [] w
      rw [List.append_nil] at hskip
      rw [hskip] at herr
      simp [getDesiredStateLoop] at herr
  · intro m hm
    have hs := entrySucceeds_of_loop_ok s hback data [] w m hm
    have hs2 : ∀ e ∈ data2, entrySucceeds s e.2 := fun e he => hs e (hperm.mem_iff.mp he)
    obtain ⟨acc1, w1, hskip⟩ := getDesiredStateLoop_append_of_succeeds s data2 [] hs2 [] w2
    rw [List.append_nil] at hskip
    have hm2 : (getDesiredStateLoop s data2 [] w2).1 = (some acc1, none) := by
      rw [hskip]; rfl
    obtain ⟨k1, n1, v1⟩ := getDesiredStateLoop_ok_spec s data [] w m hnodup
      (by simp [mapKeys]) hm
    obtain ⟨k2, n2, v2⟩ := getDesiredStateLoop_ok_spec s data2 [] w2 acc1 hnodup2
      (by simp [mapKeys]) hm2
    have hmn : (mapKeys m).Nodup := by rw [k1]; simpa [mapKeys] using hnodup
    have hmn2 : (mapKeys acc1).Nodup := by rw [k2]; simpa [mapKeys] using hnodup2
    refine ⟨acc1, hm2, hmn2, fun y => DeepEqual_congr_left acc1 m y hmn2 hmn ?_ ?_⟩
    · have e1 : m.length = data.length := by
        have := congrArg List.length k1
        simpa [mapKeys] using this
      have e2 : acc1.length = data2.length := by
        have := congrArg List.length k2
        simpa [mapKeys] using this
      rw [e1, e2]
      exact hperm.length_eq
    · intro k
      by_cases hk : k ∈ data.map Prod.fst
      · obtain ⟨⟨k0, v⟩, hkv, hk0⟩ := List.mem_map.mp hk
        simp only at hk0
        subst hk0
        obtain ⟨wa, ba, da, xa, ra, dca, dxa, ia⟩ := v1 k0 v hkv
        obtain ⟨wb, bb, db, xb, rb, dcb, dxb, ib⟩ := v2 k0 v (hperm.mem_iff.mpr hkv)
        rw [hback _ _ wb wa, ra] at rb
        cases rb
        rw [dca] at dcb
        cases dcb
        rw [dxa] at dxb
        cases dxb
        rw [ia, ib]
      · have hk2 : k ∉ data2.map Prod.fst := fun h => hk ((hperm.map Prod.fst).mem_iff.mp h)
        rw [n1 k hk, n2 k hk2]

/-- C4 (amended): over a target store that holds what is written to it and is
changed only by its own accepted upserts, with a backend that answers alike
whenever it is asked, and provided the store accepts every write, the first
`SyncState` makes at most one `UpsertSecret` per namespace and an immediately
repeated `SyncState` with the same spec makes none.  The entry keys are
pairwise distinct, as in a Go map, and `data2` is the order, any order, in which
the repeated call visits the entries. -/
theorem SyncState_idempotent {σ : Type} (s : secretManager σ) (secret : SecretDefinitionSpec)
    (data2 : List (String × DatasourceSpec)) (st : State σ) (hf : FaithfulStore s)
    (hback : ∀ path key w w0, (s.backend.ReadSecret path key w).1
      = (s.backend.ReadSecret path key w0).1)
    (hacc : ∀ sec w, (s.kubernetes.UpsertSecret sec w).1 = none)
    (hnodup : (secret.Data.map Prod.fst).Nodup) (hperm : data2.Perm secret.Data) :
    (∀ ns, (upserts (SyncState s secret st).2.calls).countP
        (fun sec => decide (sec.Namespace = ns))
      ≤ (upserts st.calls).countP (fun sec => decide (sec.Namespace = ns)) + 1) ∧
    upserts (SyncState s { secret with Data := data2 } (SyncState s secret st).2).2.calls
      = upserts (SyncState s secret st).2.calls := by
  obtain ⟨pfail, pok⟩ := getDesiredState_perm s hback secret.Data data2 hperm hnodup st.world
    (SyncState s secret st).2.world
  rcases getDesiredStateLoop_total s secret.Data [] st.world with ⟨err, herr⟩ | ⟨m, hm⟩
  · have h1 : (getDesiredState s secret st.world).1.2 = some err := by
      unfold getDesiredState; rw [herr]
    obtain ⟨err2, herr2⟩ := pfail ⟨err, herr⟩
    have h2 : (getDesiredState s { secret with Data := data2 }
        (SyncState s secret st).2.world).1.2 = some err2 := by
      unfold getDesiredState; rw [herr2]
    rw [SyncState_of_error s _ _ err2 h2]
    simp only [foldl_incErrors_calls]
    rw [SyncState_of_error s secret st err h1]
    simp only [foldl_incErrors_calls]
    exact ⟨fun ns => Nat.le_succ _, trivial⟩
  · have hm1 : (getDesiredState s secret st.world).1 = (some m, none) := hm
    have h1 : (getDesiredState s secret st.world).1.2 = none := by rw [hm1]
    have hd : (getDesiredState s secret st.world).1.1 = some m := by rw [hm1]
    have hrefl : DeepEqual (some m) (some m) = true :=
      DeepEqual_refl m (getDesiredStateLoop_nodup s secret.Data [] st.world m
        (by simp [mapKeys]) hm)
    obtain ⟨m2, hm2, hm2n, hm2eq⟩ := pok m hm
    have hm3 : (getDesiredState s { secret with Data := data2 }
        (SyncState s secret st).2.world).1 = (some m2, none) := hm2
    have h2 : (getDesiredState s { secret with Data := data2 }
        (SyncState s secret st).2.world).1.2 = none := by rw [hm3]
    have hd2 : (getDesiredState s { secret with Data := data2 }
        (SyncState s secret st).2.world).1.1 = some m2 := by rw [hm3]
    have hrefl2 : DeepEqual (some m2) (some m2) = true := DeepEqual_refl m2 hm2n
    rw [SyncState_of_ok s _ _ h2, hd2]
    obtain ⟨_, f2, f3⟩ := foldl_syncNamespace_faithful s hf hacc secret (some m) hrefl
      secret.Namespaces { st with world := (getDesiredState s secret st.world).2 }
    refine ⟨?_, ?_⟩
    · rw [SyncState_of_ok s secret st h1, hd]
      intro ns
      refine le_trans (f3 ns) ?_
      have : (if DeepEqual (some m) (stored s
          ({ st with world := (getDesiredState s secret st.world).2 } : State σ).world ns
          secret.Name) = true then 0 else 1) ≤ 1 := by split <;> omega
      simpa using this
    · rw [foldl_syncNamespace_settled s hf hacc { secret with Data := data2 } (some m2) hrefl2]
      intro ns hns
      have h3 := f2 ns hns
      simp only [getDesiredState]
      rw [getDesiredStateLoop_stored s hf, hm2eq, SyncState_of_ok s secret st h1, hd]
      exact h3

/-- C4, witness: the in-memory store that accepts every write, a backend with
two rows, and a spec over two entries that lists "ns1" twice; the repeated call
visits the entries in the opposite order.  At most one upsert per namespace on
the first call, none on the repeated call. -/
theorem SyncState_idempotent_witness :
    (∀ ns, (upserts (SyncState (memoryManager false twoRows) repeatSpec
        (initState (emptyStore 0))).2.calls).countP (fun sec => decide (sec.Namespace = ns))
      ≤ (upserts (initState (emptyStore 0)).calls).countP
        (fun sec => decide (sec.Namespace = ns)) + 1) ∧
    upserts (SyncState (memoryManager false twoRows)
        { repeatSpec with Data := twoEntries.reverse }
        (SyncState (memoryManager false twoRows) repeatSpec
          (initState (emptyStore 0))).2).2.calls
      = upserts (SyncState (memoryManager false twoRows) repeatSpec
          (initState (emptyStore 0))).2.calls :=
  SyncState_idempotent (memoryManager false twoRows) repeatSpec twoEntries.reverse
    (initState (emptyStore 0)) (memoryManager_faithful false twoRows)
    (fun _ _ _ _ => rfl) (fun sec w => by simp [memoryManager, memoryStore])
    (by decide) (List.reverse_perm _)

/-! ## `reflect.DeepEqual` and structural equality -/

theorem mem_mapKeys_iff (m : Entries) (k : String) : k ∈ mapKeys m ↔ ∃ v, (k, v) ∈ m := by
  simp only [mapKeys, List.mem_map]
  constructor
  · rintro ⟨⟨k0, v⟩, hmem, hk⟩
    simp only at hk
    subst hk
    exact ⟨v, hmem⟩
  · rintro ⟨v, hmem⟩
    exact ⟨(k, v), hmem, rfl⟩

/-- Deeply equal maps are structurally equal (the first with distinct keys). -/
theorem structurallyEqual_of_DeepEqual (m1 m2 : Entries) (h1 : (mapKeys m1).Nodup)
    (h : DeepEqual (some m1) (some m2) = true) :
    structurallyEqual (some m1) (some m2) = true := by
  simp only [DeepEqual, Bool.and_eq_true, decide_eq_true_eq, List.all_eq_true] at h
  obtain ⟨hlen, hall⟩ := h
  have hsub : mapKeys m1 ⊆ mapKeys m2 := by
    intro k hk
    obtain ⟨v, hv⟩ := (mem_mapKeys_iff m1 k).mp hk
    exact (mem_mapKeys_iff m2 k).mpr ⟨v, mem_of_mapIndex m2 k v (hall (k, v) hv)⟩
  have hperm : (mapKeys m1).Perm (mapKeys m2) :=
    (List.subperm_of_subset h1 hsub).perm_of_length_le (by simp [mapKeys, hlen])
  simp only [structurallyEqual, Option.getD_some, Bool.and_eq_true, List.all_eq_true,
    decide_eq_true_eq]
  refine ⟨⟨fun k hk => hsub hk, fun k hk => hperm.mem_iff.mpr hk⟩, fun k hk => ?_⟩
  obtain ⟨v, hv⟩ := (mem_mapKeys_iff m1 k).mp hk
  rw [mapIndex_of_mem_nodup m1 k v h1 hv, hall (k, v) hv]

/-- Structurally equal maps with distinct keys and no nil slice are deeply
equal. -/
theorem DeepEqual_of_structurallyEqual (m1 m2 : Entries) (h1 : (mapKeys m1).Nodup)
    (h2 : (mapKeys m2).Nodup) (hn1 : ∀ kv ∈ m1, kv.2 ≠ none) (hn2 : ∀ kv ∈ m2, kv.2 ≠ none)
    (h : structurallyEqual (some m1) (some m2) = true) :
    DeepEqual (some m1) (some m2) = true := by
  simp only [structurallyEqual, Option.getD_some, Bool.and_eq_true, List.all_eq_true,
    decide_eq_true_eq] at h
  obtain ⟨⟨h12, h21⟩, hval⟩ := h
  have hperm : (mapKeys m1).Perm (mapKeys m2) :=
    (List.perm_ext_iff_of_nodup h1 h2).mpr (fun k => ⟨fun hk => h12 k hk, fun hk => h21 k hk⟩)
  have hlen : m1.length = m2.length := by
    have := hperm.length_eq
    simpa [mapKeys] using this
  simp only [DeepEqual, Bool.and_eq_true, decide_eq_true_eq, List.all_eq_true]
  refine ⟨hlen, fun kv hkv => ?_⟩
  obtain ⟨k, v⟩ := kv
  have hk : k ∈ mapKeys m1 := (mem_mapKeys_iff m1 k).mpr ⟨v, hkv⟩
  have hv := hval k hk
  rw [mapIndex_of_mem_nodup m1 k v h1 hkv] at hv
  cases hidx : mapIndex m2 k with
  | none => rw [hidx] at hv; simp at hv
  | some v2 =>
    rw [hidx] at hv
    have hmem2 := mem_of_mapIndex m2 k v2 hidx
    have hv1 := hn1 (k, v) hkv
    have hv2 := hn2 (k, v2) hmem2
    simp only [Option.map_some', Option.some.injEq, bytesOf] at hv
    cases v with
    | none => exact absurd rfl hv1
    | some a =>
      cases v2 with
      | none => exact absurd rfl hv2
      | some a2 =>
        simp only [Option.getD_some] at hv
        rw [hv]

/-- C11 (amended): for a namespace whose current state is read successfully,
the loop body of `SyncState` attempts an `UpsertSecret` if and only if the
desired and current states are not `reflect.DeepEqual`; when they are, it makes
no target-store write and changes no metric.  `DeepEqual` is structural
equality (identical key sets, identical bytes per key) sharpened by nil-ness: a
computed desired state is never deeply equal to a nil map; deeply equal non-nil
maps are structurally equal, and structurally equal non-nil maps without nil
slices are deeply equal. -/
theorem syncNamespace_writes_iff_not_DeepEqual {σ : Type} (s : secretManager σ)
    (secret : SecretDefinitionSpec) (d : ByteMap) (st : State σ) (ns : String)
    (hread : (s.kubernetes.ReadSecret ns secret.Name st.world).1.2 = none) :
    upserts (syncNamespace s secret d st ns).calls = upserts st.calls ++
      (if DeepEqual d (s.kubernetes.ReadSecret ns secret.Name st.world).1.1 = true then []
       else [mkSecret secret.Typ ns secret.Name d
         (s.Now (s.kubernetes.ReadSecret ns secret.Name st.world).2).1]) ∧
    (DeepEqual d (s.kubernetes.ReadSecret ns secret.Name st.world).1.1 = true →
      (syncNamespace s secret d st ns).calls = st.calls ++ [Call.ReadSecret ns secret.Name] ∧
      (syncNamespace s secret d st ns).secretSyncErrorsCount = st.secretSyncErrorsCount ∧
      (syncNamespace s secret d st ns).secretLastUpdated = st.secretLastUpdated) ∧
    (∀ m1, d = some m1 → (s.kubernetes.ReadSecret ns secret.Name st.world).1.1 = none →
      DeepEqual d (s.kubernetes.ReadSecret ns secret.Name st.world).1.1 = false) ∧
    (∀ m1 m2, d = some m1 → (s.kubernetes.ReadSecret ns secret.Name st.world).1.1 = some m2 →
      (mapKeys m1).Nodup →
      (DeepEqual d (s.kubernetes.ReadSecret ns secret.Name st.world).1.1 = true →
        structurallyEqual d (s.kubernetes.ReadSecret ns secret.Name st.world).1.1 = true) ∧
      ((mapKeys m2).Nodup → (∀ kv ∈ m1, kv.2 ≠ none) → (∀ kv ∈ m2, kv.2 ≠ none) →
        structurallyEqual d (s.kubernetes.ReadSecret ns secret.Name st.world).1.1 = true →
        DeepEqual d (s.kubernetes.ReadSecret ns secret.Name st.world).1.1 = true)) := by
  have hok := (readFailed_eq_false _).mpr (Or.inl hread)
  refine ⟨?_, ?_, ?_, ?_⟩
  · cases hde : DeepEqual d (s.kubernetes.ReadSecret ns secret.Name st.world).1.1 with
    | true =>
      rw [syncNamespace_of_equal s secret d st ns hok hde]
      simp [getCurrentState_eq, upserts_append, upserts]
    | false =>
      rw [syncNamespace_of_differ s secret d st ns hok hde]
      split
      · simp only [incErrors, upsertSecret_calls]
        simp [getCurrentState_eq, upserts_append, upserts]
      · simp only [upsertSecret_calls]
        simp [getCurrentState_eq, upserts_append, upserts]
  · intro hde
    rw [syncNamespace_of_equal s secret d st ns hok hde]
    exact ⟨rfl, rfl, rfl⟩
  · intro m1 hd hcur
    rw [hd, hcur]
    rfl
  · intro m1 m2 hd hcur hn1
    rw [hd, hcur]
    exact ⟨structurallyEqual_of_DeepEqual m1 m2 hn1,
      fun hn2 hv1 hv2 => DeepEqual_of_structurallyEqual m1 m2 hn1 hn2 hv1 hv2⟩

/-- C11, witness: the iteration of `TestSyncState`: the namespace holds
"fake-current-data", the desired state is "fake-content", one upsert is made. -/
theorem syncNamespace_writes_iff_not_DeepEqual_witness :
    upserts (syncNamespace
        (mockManager testBackendRows (fun _ _ => (fakeCurrentSecretData, none)) (fun _ => none))
        (testSpec ["ns"]) (some [("value1", some (ascii "fake-content"))]) (initState ())
        "ns").calls
      = [mkSecret "Opaque" "ns" "secret-name" (some [("value1", some (ascii "fake-content"))])
          (fixedNow ()).1] :=
  (syncNamespace_writes_iff_not_DeepEqual
    (mockManager testBackendRows (fun _ _ => (fakeCurrentSecretData, none)) (fun _ => none))
    (testSpec ["ns"]) (some [("value1", some (ascii "fake-content"))]) (initState ()) "ns"
    rfl).1

/-- C11, counterexample: a spec with empty Data over a store whose secret
exists with no Data, read successfully as the nil map.  The desired state (the
empty map) and the current state (the nil map) are structurally equal, no key on
either side, and yet `SyncState` attempts an `UpsertSecret`. -/
theorem SyncState_writes_structurally_equal_state :
    (getDesiredState (emptySecretsManager []) emptyDataSpec ()).1 = (some [], none) ∧
    ((emptySecretsManager []).kubernetes.ReadSecret "ns" "secret-name" ()).1 = (none, none) ∧
    structurallyEqual (some []) none = true ∧
    (SyncState (emptySecretsManager []) emptyDataSpec (initState ())).2.calls
      = [Call.ReadSecret "ns" "secret-name",
         Call.UpsertSecret (mkSecret "Opaque" "ns" "secret-name" (some []) (fixedNow ()).1)] := by
  refine ⟨rfl, rfl, rfl, ?_⟩
  decide

/-! ## The call trace of the namespace loop -/

/-- One iteration appends one block to the call log. -/
theorem syncNamespace_calls {σ : Type} (s : secretManager σ) (secret : SecretDefinitionSpec)
    (d : ByteMap) (st : State σ) (n : String) :
    ∃ blk, namespaceBlock s secret d n blk ∧
      (syncNamespace s secret d st n).calls = st.calls ++ blk := by
  cases hfail : ((s.kubernetes.ReadSecret n secret.Name st.world).1.2.isSome &&
      !IsK8sSecretNotFound (s.kubernetes.ReadSecret n secret.Name st.world).1.2) with
  | true =>
    rw [syncNamespace_of_read_error s secret d st n hfail]
    exact ⟨_, Or.inl rfl, rfl⟩
  | false =>
    cases hde : DeepEqual d (s.kubernetes.ReadSecret n secret.Name st.world).1.1 with
    | true =>
      rw [syncNamespace_of_equal s secret d st n hfail hde]
      exact ⟨_, Or.inl rfl, rfl⟩
    | false =>
      rw [syncNamespace_of_differ s secret d st n hfail hde]
      refine ⟨_, Or.inr ⟨(s.kubernetes.ReadSecret n secret.Name st.world).2, rfl⟩, ?_⟩
      split
      · simp only [incErrors, upsertSecret_calls]
        simp [getCurrentState_eq]
      · simp only [upsertSecret_calls]
        simp [getCurrentState_eq]

/-- The loop appends one block per element of the namespace list, in order. -/
theorem foldl_syncNamespace_calls {σ : Type} (s : secretManager σ)
    (secret : SecretDefinitionSpec) (d : ByteMap) (nss : List String) (st : State σ) :
    ∃ blocks, List.Forall₂ (namespaceBlock s secret d) nss blocks ∧
      (nss.foldl (syncNamespace s secret d) st).calls = st.calls ++ blocks.flatten := by
  induction nss generalizing st with
  | nil => exact ⟨[], List.Forall₂.nil, by simp⟩
  | cons n rest ih =>
    obtain ⟨blk, hblk, hcalls⟩ := syncNamespace_calls s secret d st n
    obtain ⟨blocks, hall, hrest⟩ := ih (syncNamespace s secret d st n)
    refine ⟨blk :: blocks, List.Forall₂.cons hblk hall, ?_⟩
    rw [List.foldl, hrest, hcalls]
    simp

/-- The reads of a run of blocks are the namespaces, in order. -/
theorem reads_of_blocks {σ : Type} (s : secretManager σ) (secret : SecretDefinitionSpec)
    (d : ByteMap) (nss : List String) (blocks : List (List Call))
    (h : List.Forall₂ (namespaceBlock s secret d) nss blocks) :
    reads blocks.flatten = nss.map (fun ns => (ns, secret.Name)) := by
  induction h with
  | nil => rfl
  | cons hblk _ ih =>
    rw [List.flatten_cons, reads_append, ih]
    rcases hblk with h | ⟨w, h⟩ <;> subst h <;> simp [reads]

/-- The upserts of a run of blocks go to namespaces of the list, in its order. -/
theorem upserts_of_blocks_sublist {σ : Type} (s : secretManager σ)
    (secret : SecretDefinitionSpec) (d : ByteMap) (nss : List String)
    (blocks : List (List Call)) (h : List.Forall₂ (namespaceBlock s secret d) nss blocks) :
    ((upserts blocks.flatten).map (fun sec => sec.Namespace)).Sublist nss := by
  induction h with
  | nil => exact List.Sublist.slnil
  | cons hblk _ ih =>
    rw [List.flatten_cons, upserts_append, List.map_append]
    rcases hblk with h | ⟨w, h⟩ <;> subst h
    · simpa [upserts] using List.Sublist.cons _ ih
    · simpa [upserts, mkSecret] using ih

/-- Every upsert of a run of blocks carries the record built for a namespace of
the list from the desired state. -/
theorem upserts_of_blocks_record {σ : Type} (s : secretManager σ)
    (secret : SecretDefinitionSpec) (d : ByteMap) (nss : List String)
    (blocks : List (List Call)) (h : List.Forall₂ (namespaceBlock s secret d) nss blocks)
    (sec : Secret) (hsec : sec ∈ upserts blocks.flatten) :
    ∃ ns ∈ nss, ∃ w, sec = mkSecret secret.Typ ns secret.Name d (s.Now w).1 := by
  induction h with
  | nil => simp [upserts] at hsec
  | @cons n blk rest blocks hblk _ ih =>
    rw [List.flatten_cons, upserts_append, List.mem_append] at hsec
    rcases hsec with hin | hin
    · rcases hblk with h | ⟨w, h⟩ <;> subst h
      · simp [upserts] at hin
      · simp only [upserts, List.mem_singleton] at hin
        exact ⟨n, List.mem_cons_self _ _, w, hin⟩
    · obtain ⟨ns, hns, w, hw⟩ := ih hin
      exact ⟨ns, List.mem_cons_of_mem _ hns, w, hw⟩

/-- C12: when the desired state is computed, every record `SyncState` passes
to `UpsertSecret` is for a namespace `ns` of `spec.Namespaces` and has
Name = `spec.Name`, Namespace = `ns`, Type = `spec.Type`, Data = the whole desired
state, and exactly the two labels managedBy = "secrets-manager" and lastUpdate =
an instant the clock gave, formatted with the layout "2006-01-02T15.04.05Z". -/
theorem SyncState_upsert_records {σ : Type} (s : secretManager σ)
    (secret : SecretDefinitionSpec) (st : State σ)
    (hdes : (getDesiredState s secret st.world).1.2 = none) :
    ∃ new, (SyncState s secret st).2.calls = st.calls ++ new ∧
      ∀ sec ∈ upserts new, ∃ ns ∈ secret.Namespaces, ∃ w,
        sec.Name = secret.Name ∧ sec.Namespace = ns ∧ sec.Typ = secret.Typ ∧
        sec.Data = (getDesiredState s secret st.world).1.1 ∧
        sec.Labels = [("managedBy", "secrets-manager"),
          ("lastUpdate", (s.Now w).1.Format "2006-01-02T15.04.05Z")] := by
  rw [SyncState_of_ok s secret st hdes]
  obtain ⟨blocks, hall, hcalls⟩ := foldl_syncNamespace_calls s secret
    (getDesiredState s secret st.world).1.1 secret.Namespaces
    { st with world := (getDesiredState s secret st.world).2 }
  refine ⟨blocks.flatten, hcalls, fun sec hsec => ?_⟩
  obtain ⟨ns, hns, w, hw⟩ := upserts_of_blocks_record s secret _ _ blocks hall sec hsec
  subst hw
  exact ⟨ns, hns, w, rfl, rfl, rfl, rfl, rfl⟩

/-- C12, witness: the end-to-end example: the one record written for
"default" has the name, type, data and the two labels. -/
theorem SyncState_upsert_records_witness :
    ∃ new, (SyncState (contentManager testBackendRows) endToEndSpec (initState ())).2.calls
        = (initState ()).calls ++ new ∧
      ∀ sec ∈ upserts new, ∃ ns ∈ endToEndSpec.Namespaces, ∃ w,
        sec.Name = endToEndSpec.Name ∧ sec.Namespace = ns ∧ sec.Typ = endToEndSpec.Typ ∧
        sec.Data = (getDesiredState (contentManager testBackendRows) endToEndSpec
          (initState ()).world).1.1 ∧
        sec.Labels = [("managedBy", "secrets-manager"),
          ("lastUpdate", ((contentManager testBackendRows).Now w).1.Format
            "2006-01-02T15.04.05Z")] :=
  SyncState_upsert_records (contentManager testBackendRows) endToEndSpec (initState ())
    (by decide)

/-- C17: when the desired state is computed, the target-store calls `SyncState`
makes are, for each element `ns` of `spec.Namespaces` in list order, duplicates
included, one `ReadSecret(ns, spec.Name)` followed by at most one `UpsertSecret`
for `ns`.  Hence the reads are exactly the namespaces in order, as many as
`len(spec.Namespaces)`, the writes are at most as many, and the writes go to
namespaces of the list in its order. -/
theorem SyncState_call_trace {σ : Type} (s : secretManager σ) (secret : SecretDefinitionSpec)
    (st : State σ) (hdes : (getDesiredState s secret st.world).1.2 = none) :
    ∃ blocks, List.Forall₂ (namespaceBlock s secret (getDesiredState s secret st.world).1.1)
        secret.Namespaces blocks ∧
      (SyncState s secret st).2.calls = st.calls ++ blocks.flatten ∧
      reads blocks.flatten = secret.Namespaces.map (fun ns => (ns, secret.Name)) ∧
      (reads blocks.flatten).length = secret.Namespaces.length ∧
      (upserts blocks.flatten).length ≤ secret.Namespaces.length ∧
      ((upserts blocks.flatten).map (fun sec => sec.Namespace)).Sublist secret.Namespaces := by
  rw [SyncState_of_ok s secret st hdes]
  obtain ⟨blocks, hall, hcalls⟩ := foldl_syncNamespace_calls s secret
    (getDesiredState s secret st.world).1.1 secret.Namespaces
    { st with world := (getDesiredState s secret st.world).2 }
  have hreads := reads_of_blocks s secret _ _ blocks hall
  have hsub := upserts_of_blocks_sublist s secret _ _ blocks hall
  refine ⟨blocks, hall, hcalls, hreads, by rw [hreads]; simp, ?_, hsub⟩
  have := hsub.length_le
  simpa using this

/-- C17, witness: the run of `TestSyncStateErrorGetCurrentInOneSecret`: read
and upsert for ns1, read for ns2, read and upsert for ns3. -/
theorem SyncState_call_trace_witness :
    (SyncState isolationManager (testSpec ["ns1", "ns2", "ns3"]) (initState ())).2.calls
      = [Call.ReadSecret "ns1" "secret-name",
         Call.UpsertSecret (mkSecret "Opaque" "ns1" "secret-name"
           (some [("value1", some (ascii "fake-content"))]) (fixedNow ()).1),
         Call.ReadSecret "ns2" "secret-name",
         Call.ReadSecret "ns3" "secret-name",
         Call.UpsertSecret (mkSecret "Opaque" "ns3" "secret-name"
           (some [("value1", some (ascii "fake-content"))]) (fixedNow ()).1)] ∧
    ∃ blocks, List.Forall₂ (namespaceBlock isolationManager (testSpec ["ns1", "ns2", "ns3"])
        (getDesiredState isolationManager (testSpec ["ns1", "ns2", "ns3"])
          (initState ()).world).1.1) (testSpec ["ns1", "ns2", "ns3"]).Namespaces blocks ∧
      (SyncState isolationManager (testSpec ["ns1", "ns2", "ns3"]) (initState ())).2.calls
        = (initState ()).calls ++ blocks.flatten ∧
      reads blocks.flatten = (testSpec ["ns1", "ns2", "ns3"]).Namespaces.map
        (fun ns => (ns, (testSpec ["ns1", "ns2", "ns3"]).Name)) ∧
      (reads blocks.flatten).length = (testSpec ["ns1", "ns2", "ns3"]).Namespaces.length ∧
      (upserts blocks.flatten).length ≤ (testSpec ["ns1", "ns2", "ns3"]).Namespaces.length ∧
      ((upserts blocks.flatten).map (fun sec => sec.Namespace)).Sublist
        (testSpec ["ns1", "ns2", "ns3"]).Namespaces :=
  ⟨by decide,
    SyncState_call_trace isolationManager (testSpec ["ns1", "ns2", "ns3"]) (initState ())
      (by decide)⟩

/-! ## Metrics -/

theorem upsertSecret_gauge_of_ok {σ : Type} (s : secretManager σ) (typ ns name : String)
    (data : ByteMap) (st : State σ)
    (h : (s.kubernetes.UpsertSecret (mkSecret typ ns name data (s.Now st.world).1)
      (s.Now st.world).2).1 = none) :
    (upsertSecret s typ ns name data st).2.secretLastUpdated =
      fun n m => if n = name ∧ m = ns then some (s.Now st.world).1.Unix
        else st.secretLastUpdated n m := by
  unfold upsertSecret
  split
  rename_i t w1 hnow
  split
  · rename_i err w2 hup
    rw [hnow] at h
    simp only at h
    rw [hup] at h
    simp at h
  · rw [hnow]
    rfl

theorem upsertSecret_gauge_of_error {σ : Type} (s : secretManager σ) (typ ns name : String)
    (data : ByteMap) (st : State σ)
    (h : (s.kubernetes.UpsertSecret (mkSecret typ ns name data (s.Now st.world).1)
      (s.Now st.world).2).1 ≠ none) :
    (upsertSecret s typ ns name data st).2.secretLastUpdated = st.secretLastUpdated := by
  unfold upsertSecret
  split
  rename_i t w1 hnow
  split
  · rfl
  · rename_i w2 hup
    rw [hnow] at h
    simp only at h
    rw [hup] at h
    simp at h

/-- C14: `upsertSecret` takes one instant `lastUpdate` from the clock.  When
the target store accepts the record, the gauge `secretLastUpdated{name, ns}`
holds the unix seconds of that instant, the same instant whose `Format` under
`timestampFormat` is the `lastUpdate` label of the record written, and no other
gauge moves.  When the target store rejects it, no gauge moves.  A loop
iteration of `SyncState` moves the gauges only through `upsertSecret`. -/
theorem upsertSecret_gauge {σ : Type} (s : secretManager σ) (typ ns name : String)
    (data : ByteMap) (st : State σ) :
    ((s.kubernetes.UpsertSecret (mkSecret typ ns name data (s.Now st.world).1)
        (s.Now st.world).2).1 = none →
      (upsertSecret s typ ns name data st).1 = none ∧
      (upsertSecret s typ ns name data st).2.secretLastUpdated name ns
        = some (s.Now st.world).1.Unix ∧
      (∀ n m, ¬ (n = name ∧ m = ns) →
        (upsertSecret s typ ns name data st).2.secretLastUpdated n m
          = st.secretLastUpdated n m) ∧
      (upsertSecret s typ ns name data st).2.calls = st.calls ++
        [Call.UpsertSecret (mkSecret typ ns name data (s.Now st.world).1)] ∧
      (mkSecret typ ns name data (s.Now st.world).1).Labels =
        [("managedBy", "secrets-manager"),
         ("lastUpdate", (s.Now st.world).1.Format timestampFormat)]) ∧
    ((s.kubernetes.UpsertSecret (mkSecret typ ns name data (s.Now st.world).1)
        (s.Now st.world).2).1 ≠ none →
      (upsertSecret s typ ns name data st).1 ≠ none ∧
      (upsertSecret s typ ns name data st).2.secretLastUpdated = st.secretLastUpdated) ∧
    (∀ (secret : SecretDefinitionSpec) (d : ByteMap) (n : String),
      (syncNamespace s secret d st n).secretLastUpdated = st.secretLastUpdated ∨
      (syncNamespace s secret d st n).secretLastUpdated =
        (upsertSecret s secret.Typ n secret.Name d
          (getCurrentState s n secret.Name st).2).2.secretLastUpdated) := by
  refine ⟨fun h => ?_, fun h => ?_, fun secret d n => ?_⟩
  · have hg := upsertSecret_gauge_of_ok s typ ns name data st h
    refine ⟨by rw [upsertSecret_fst]; exact h, by rw [hg]; simp, ?_,
      upsertSecret_calls s typ ns name data st, rfl⟩
    intro n m hnm
    rw [hg]
    simp [hnm]
  · exact ⟨by rw [upsertSecret_fst]; exact h, upsertSecret_gauge_of_error s typ ns name data st h⟩
  · cases hfail : ((s.kubernetes.ReadSecret n secret.Name st.world).1.2.isSome &&
        !IsK8sSecretNotFound (s.kubernetes.ReadSecret n secret.Name st.world).1.2) with
    | true =>
      rw [syncNamespace_of_read_error s secret d st n hfail]
      exact Or.inl rfl
    | false =>
      cases hde : DeepEqual d (s.kubernetes.ReadSecret n secret.Name st.world).1.1 with
      | true =>
        rw [syncNamespace_of_equal s secret d st n hfail hde]
        exact Or.inl rfl
      | false =>
        rw [syncNamespace_of_differ s secret d st n hfail hde]
        right
        split <;> rfl

/-- C14, witness: `TestUpsertSecret` (accepted) sets the gauge of
("secret-name", "ns") to the unix seconds of the clock; `TestUpsertSecretError`
(rejected) leaves it unset. -/
theorem upsertSecret_gauge_witness :
    (upsertSecret (mockManager [] (fun _ _ => (none, none)) (fun _ => none)) "Opaque" "ns"
      "secret-name" (some [("value1", some (ascii "fake-data"))])
      (initState ())).2.secretLastUpdated "secret-name" "ns" = some 1546300800 ∧
    (upsertSecret (mockManager [] (fun _ _ => (none, none))
      (fun _ => some (Error.Other "some-error"))) "Opaque" "ns"
      "secret-name" (some [("value1", some (ascii "fake-data"))])
      (initState ())).2.secretLastUpdated = (initState ()).secretLastUpdated :=
  ⟨((upsertSecret_gauge (mockManager [] (fun _ _ => (none, none)) (fun _ => none)) "Opaque"
      "ns" "secret-name" (some [("value1", some (ascii "fake-data"))])
      (initState ())).1 rfl).2.1,
   ((upsertSecret_gauge (mockManager [] (fun _ _ => (none, none))
      (fun _ => some (Error.Other "some-error"))) "Opaque" "ns" "secret-name"
      (some [("value1", some (ascii "fake-data"))]) (initState ())).2.1
      (by simp [mockManager, mockKubernetes])).2⟩

/-- What one iteration does to the metrics: the counter of `(spec.Name, n)`
grows by one or no counter moves; only the gauge of `(spec.Name, n)` can move;
and never both a counter and a gauge. -/
theorem syncNamespace_metrics {σ : Type} (s : secretManager σ) (secret : SecretDefinitionSpec)
    (d : ByteMap) (st : State σ) (n : String) :
    ((syncNamespace s secret d st n).secretSyncErrorsCount = st.secretSyncErrorsCount ∨
      ((syncNamespace s secret d st n).secretSyncErrorsCount =
          (fun a b => if a = secret.Name ∧ b = n then st.secretSyncErrorsCount a b + 1
            else st.secretSyncErrorsCount a b) ∧
        (syncNamespace s secret d st n).secretLastUpdated = st.secretLastUpdated)) ∧
    (∀ a b, ¬ (a = secret.Name ∧ b = n) →
      (syncNamespace s secret d st n).secretLastUpdated a b = st.secretLastUpdated a b) := by
  cases hfail : ((s.kubernetes.ReadSecret n secret.Name st.world).1.2.isSome &&
      !IsK8sSecretNotFound (s.kubernetes.ReadSecret n secret.Name st.world).1.2) with
  | true =>
    rw [syncNamespace_of_read_error s secret d st n hfail]
    exact ⟨Or.inr ⟨rfl, rfl⟩, fun a b _ => rfl⟩
  | false =>
    cases hde : DeepEqual d (s.kubernetes.ReadSecret n secret.Name st.world).1.1 with
    | true =>
      rw [syncNamespace_of_equal s secret d st n hfail hde]
      exact ⟨Or.inl rfl, fun a b _ => rfl⟩
    | false =>
      rw [syncNamespace_of_differ s secret d st n hfail hde]
      cases hu : (s.kubernetes.UpsertSecret (mkSecret secret.Typ n secret.Name d
          (s.Now (getCurrentState s n secret.Name st).2.world).1)
          (s.Now (getCurrentState s n secret.Name st).2.world).2).1 with
      | none =>
        have h1 : (upsertSecret s secret.Typ n secret.Name d
            (getCurrentState s n secret.Name st).2).1 = none := by
          rw [upsertSecret_fst]; exact hu
        rw [h1]
        simp only [Option.isSome_none, Bool.false_eq_true, if_false]
        refine ⟨Or.inl (by rw [upsertSecret_count]; rfl), fun a b hab => ?_⟩
        rw [upsertSecret_gauge_of_ok s _ _ _ _ _ hu]
        simp only [hab, if_false]
        rfl
      | some err =>
        have h1 : (upsertSecret s secret.Typ n secret.Name d
            (getCurrentState s n secret.Name st).2).1 = some err := by
          rw [upsertSecret_fst]; exact hu
        have hne : (s.kubernetes.UpsertSecret (mkSecret secret.Typ n secret.Name d
            (s.Now (getCurrentState s n secret.Name st).2.world).1)
            (s.Now (getCurrentState s n secret.Name st).2.world).2).1 ≠ none := by
          rw [hu]; simp
        rw [h1]
        simp only [Option.isSome_some, if_true]
        have hg := upsertSecret_gauge_of_error s _ _ _ _ _ hne
        refine ⟨Or.inr ⟨?_, ?_⟩, fun a b _ => ?_⟩
        · simp only [incErrors, upsertSecret_count]
          rfl
        · simp only [incErrors]
          rw [hg]; rfl
        · simp only [incErrors]
          rw [hg]; rfl

/-- What the namespace loop does to the metrics. -/
theorem foldl_syncNamespace_metrics {σ : Type} (s : secretManager σ)
    (secret : SecretDefinitionSpec) (d : ByteMap) (nss : List String) (st : State σ) :
    (∀ a b, st.secretSyncErrorsCount a b
        ≤ (nss.foldl (syncNamespace s secret d) st).secretSyncErrorsCount a b ∧
      (nss.foldl (syncNamespace s secret d) st).secretSyncErrorsCount a b
        ≤ st.secretSyncErrorsCount a b + (if a = secret.Name then nss.count b else 0)) ∧
    (∀ a b, (a ≠ secret.Name ∨ b ∉ nss) →
      (nss.foldl (syncNamespace s secret d) st).secretLastUpdated a b
        = st.secretLastUpdated a b) := by
  induction nss generalizing st with
  | nil => exact ⟨fun a b => ⟨le_refl _, by simp⟩, fun a b _ => rfl⟩
  | cons n rest ih =>
    obtain ⟨hc, hg⟩ := syncNamespace_metrics s secret d st n
    obtain ⟨ihc, ihg⟩ := ih (syncNamespace s secret d st n)
    rw [List.foldl]
    have hstep : ∀ a b, st.secretSyncErrorsCount a b
          ≤ (syncNamespace s secret d st n).secretSyncErrorsCount a b ∧
        (syncNamespace s secret d st n).secretSyncErrorsCount a b
          ≤ st.secretSyncErrorsCount a b + (if a = secret.Name ∧ b = n then 1 else 0) := by
      intro a b
      rcases hc with h | ⟨h, _⟩
      · rw [h]; exact ⟨le_refl _, Nat.le_add_right _ _⟩
      · rw [h]
        by_cases hab : a = secret.Name ∧ b = n
        · simp [hab]
        · simp [hab]
    refine ⟨fun a b => ⟨le_trans (hstep a b).1 (ihc a b).1, ?_⟩, fun a b hab => ?_⟩
    · refine le_trans (ihc a b).2 ?_
      have h2 := (hstep a b).2
      rw [List.count_cons]
      by_cases ha : a = secret.Name
      · by_cases hb : n = b
        · subst hb
          simp only [ha, true_and, if_true] at h2 ⊢
          simp only [beq_self_eq_true, if_true]
          omega
        · have hb2 : ¬ b = n := fun h => hb h.symm
          simp only [ha, hb2, and_false, if_false, if_true] at h2 ⊢
          simp only [beq_iff_eq, hb, if_false]
          omega
      · simp only [ha, false_and, if_false] at h2 ⊢
        omega
    · have hrest : a ≠ secret.Name ∨ b ∉ rest := by
        rcases hab with h | h
        · exact Or.inl h
        · exact Or.inr (fun hm => h (List.mem_cons_of_mem _ hm))
      have hn : ¬ (a = secret.Name ∧ b = n) := by
        rintro ⟨h1, h2⟩
        rcases hab with h | h
        · exact h h1
        · exact h (by rw [h2]; exact List.mem_cons_self _ _)
      rw [ihg a b hrest, hg a b hn]

/-- C18: `SyncState` never decreases an error counter; it changes only counters
and gauges labelled `(spec.Name, ns)` with `ns` in `spec.Namespaces`; it raises
the counter of such an `ns` by at most the number of times `ns` occurs in
`spec.Namespaces`; and no iteration of its namespace loop both raises a counter
and moves a gauge (when the desired state cannot be computed no gauge moves at
all). -/
theorem SyncState_metrics_frame {σ : Type} (s : secretManager σ) (secret : SecretDefinitionSpec)
    (st : State σ) :
    (∀ a b, st.secretSyncErrorsCount a b ≤ (SyncState s secret st).2.secretSyncErrorsCount a b ∧
      (SyncState s secret st).2.secretSyncErrorsCount a b
        ≤ st.secretSyncErrorsCount a b
          + (if a = secret.Name then secret.Namespaces.count b else 0)) ∧
    (∀ a b, (a ≠ secret.Name ∨ b ∉ secret.Namespaces) →
      (SyncState s secret st).2.secretSyncErrorsCount a b = st.secretSyncErrorsCount a b ∧
      (SyncState s secret st).2.secretLastUpdated a b = st.secretLastUpdated a b) ∧
    (∀ (d : ByteMap) (st0 : State σ) (n : String),
      (syncNamespace s secret d st0 n).secretSyncErrorsCount = st0.secretSyncErrorsCount ∨
      (syncNamespace s secret d st0 n).secretLastUpdated = st0.secretLastUpdated) ∧
    ((getDesiredState s secret st.world).1.2 ≠ none →
      (SyncState s secret st).2.secretLastUpdated = st.secretLastUpdated) := by
  have hbound : (∀ a b, st.secretSyncErrorsCount a b
        ≤ (SyncState s secret st).2.secretSyncErrorsCount a b ∧
      (SyncState s secret st).2.secretSyncErrorsCount a b
        ≤ st.secretSyncErrorsCount a b
          + (if a = secret.Name then secret.Namespaces.count b else 0)) ∧
      (∀ a b, (a ≠ secret.Name ∨ b ∉ secret.Namespaces) →
        (SyncState s secret st).2.secretLastUpdated a b = st.secretLastUpdated a b) := by
    cases h : (getDesiredState s secret st.world).1.2 with
    | none =>
      rw [SyncState_of_ok s secret st h]
      exact foldl_syncNamespace_metrics s secret (getDesiredState s secret st.world).1.1
        secret.Namespaces { st with world := (getDesiredState s secret st.world).2 }
    | some err =>
      rw [SyncState_of_error s secret st err h]
      refine ⟨fun a b => ?_, fun a b _ => ?_⟩
      · rw [foldl_incErrors_count]
        exact ⟨Nat.le_add_right _ _, le_refl _⟩
      · rw [foldl_incErrors_gauge]
  refine ⟨hbound.1, fun a b hab => ⟨?_, hbound.2 a b hab⟩, fun d st0 n => ?_, fun hne => ?_⟩
  · have h1 := (hbound.1 a b).1
    have h2 := (hbound.1 a b).2
    have hz : (if a = secret.Name then secret.Namespaces.count b else 0) = 0 := by
      rcases hab with h | h
      · simp [h]
      · simp [List.count_eq_zero_of_not_mem h]
    omega
  · rcases (syncNamespace_metrics s secret d st0 n).1 with h | ⟨_, h⟩
    · exact Or.inl h
    · exact Or.inr h
  · cases h : (getDesiredState s secret st.world).1.2 with
    | none => exact absurd h hne
    | some err =>
      rw [SyncState_of_error s secret st err h, foldl_incErrors_gauge]

/-! ## A failed write does not change what is done next -/

theorem syncNamespace_world {σ : Type} (s : secretManager σ) (secret : SecretDefinitionSpec)
    (d : ByteMap) (st : State σ) (n : String) :
    (syncNamespace s secret d st n).world =
      if ((s.kubernetes.ReadSecret n secret.Name st.world).1.2.isSome &&
          !IsK8sSecretNotFound (s.kubernetes.ReadSecret n secret.Name st.world).1.2) = true
          ∨ DeepEqual d (s.kubernetes.ReadSecret n secret.Name st.world).1.1 = true
      then (s.kubernetes.ReadSecret n secret.Name st.world).2
      else (s.kubernetes.UpsertSecret (mkSecret secret.Typ n secret.Name d
          (s.Now (s.kubernetes.ReadSecret n secret.Name st.world).2).1)
          (s.Now (s.kubernetes.ReadSecret n secret.Name st.world).2).2).2 := by
  cases hfail : ((s.kubernetes.ReadSecret n secret.Name st.world).1.2.isSome &&
      !IsK8sSecretNotFound (s.kubernetes.ReadSecret n secret.Name st.world).1.2) with
  | true =>
    rw [syncNamespace_of_read_error s secret d st n hfail]
    simp [incErrors, getCurrentState_eq]
  | false =>
    cases hde : DeepEqual d (s.kubernetes.ReadSecret n secret.Name st.world).1.1 with
    | true =>
      rw [syncNamespace_of_equal s secret d st n hfail hde]
      simp [getCurrentState_eq]
    | false =>
      rw [syncNamespace_of_differ s secret d st n hfail hde]
      simp only [Bool.false_eq_true, or_self, if_false]
      split
      · simp only [incErrors, upsertSecret_world]
        rfl
      · simp only [upsertSecret_world]
        rfl

theorem syncNamespace_calls_eq {σ : Type} (s : secretManager σ) (secret : SecretDefinitionSpec)
    (d : ByteMap) (st : State σ) (n : String) :
    (syncNamespace s secret d st n).calls = st.calls ++
      if ((s.kubernetes.ReadSecret n secret.Name st.world).1.2.isSome &&
          !IsK8sSecretNotFound (s.kubernetes.ReadSecret n secret.Name st.world).1.2) = true
          ∨ DeepEqual d (s.kubernetes.ReadSecret n secret.Name st.world).1.1 = true
      then [Call.ReadSecret n secret.Name]
      else [Call.ReadSecret n secret.Name, Call.UpsertSecret (mkSecret secret.Typ n secret.Name d
          (s.Now (s.kubernetes.ReadSecret n secret.Name st.world).2).1)] := by
  cases hfail : ((s.kubernetes.ReadSecret n secret.Name st.world).1.2.isSome &&
      !IsK8sSecretNotFound (s.kubernetes.ReadSecret n secret.Name st.world).1.2) with
  | true =>
    rw [syncNamespace_of_read_error s secret d st n hfail]
    simp [incErrors, getCurrentState_eq]
  | false =>
    cases hde : DeepEqual d (s.kubernetes.ReadSecret n secret.Name st.world).1.1 with
    | true =>
      rw [syncNamespace_of_equal s secret d st n hfail hde]
      simp [getCurrentState_eq]
    | false =>
      rw [syncNamespace_of_differ s secret d st n hfail hde]
      simp only [Bool.false_eq_true, or_self, if_false]
      split
      · simp only [incErrors, upsertSecret_calls]
        simp [getCurrentState_eq]
      · simp only [upsertSecret_calls]
        simp [getCurrentState_eq]

/-- The namespace loop makes the same calls and leaves the same world whether
the outcomes of the upserts are reported or hidden, and whatever the metrics. -/
theorem foldl_syncNamespace_upsertAsSuccess {σ : Type} (s : secretManager σ)
    (secret : SecretDefinitionSpec) (d : ByteMap) (nss : List String) (st st2 : State σ)
    (hw : st2.world = st.world) (hc : st2.calls = st.calls) :
    (nss.foldl (syncNamespace (upsertAsSuccess s) secret d) st2).world
      = (nss.foldl (syncNamespace s secret d) st).world ∧
    (nss.foldl (syncNamespace (upsertAsSuccess s) secret d) st2).calls
      = (nss.foldl (syncNamespace s secret d) st).calls := by
  induction nss generalizing st st2 with
  | nil => exact ⟨hw, hc⟩
  | cons n rest ih =>
    rw [List.foldl, List.foldl]
    apply ih
    · rw [syncNamespace_world, syncNamespace_world, hw]
      rfl
    · rw [syncNamespace_calls_eq, syncNamespace_calls_eq, hw, hc]
      rfl

/-- C13: let `UpsertSecret` fail for the namespace `ns` that follows the
namespaces `pre` and precedes the namespaces `post` of `spec.Namespaces`.  Then
that iteration raises the error counter of `(spec.Name, ns)` by exactly one and
moves no other counter and no gauge; the loop goes on with every namespace of
`post`; hiding the outcome of the upserts changes neither the target-store
calls `SyncState` makes nor the world it leaves, so what follows is processed
as after a successful write; and `SyncState` returns nil.  `upsertSecret`
returns the very error the target store's `UpsertSecret` returns. -/
theorem SyncState_upsert_failure {σ : Type} (s : secretManager σ)
    (secret : SecretDefinitionSpec) (st : State σ) (pre post : List String) (ns : String)
    (hdes : (getDesiredState s secret st.world).1.2 = none)
    (hns : secret.Namespaces = pre ++ ns :: post)
    (hread : (s.kubernetes.ReadSecret ns secret.Name (loopState s secret st pre).world).1.2 = none ∨
      IsK8sSecretNotFound
        (s.kubernetes.ReadSecret ns secret.Name (loopState s secret st pre).world).1.2 = true)
    (hne : DeepEqual (getDesiredState s secret st.world).1.1
      (s.kubernetes.ReadSecret ns secret.Name (loopState s secret st pre).world).1.1 = false)
    (hfail : (s.kubernetes.UpsertSecret
      (mkSecret secret.Typ ns secret.Name (getDesiredState s secret st.world).1.1
        (s.Now (s.kubernetes.ReadSecret ns secret.Name (loopState s secret st pre).world).2).1)
      (s.Now (s.kubernetes.ReadSecret ns secret.Name (loopState s secret st pre).world).2).2).1
        ≠ none) :
    (SyncState s secret st).1 = none ∧
    (∀ a b, (loopState s secret st (pre ++ [ns])).secretSyncErrorsCount a b
      = (loopState s secret st pre).secretSyncErrorsCount a b
        + (if a = secret.Name ∧ b = ns then 1 else 0)) ∧
    (loopState s secret st (pre ++ [ns])).secretLastUpdated
      = (loopState s secret st pre).secretLastUpdated ∧
    (SyncState s secret st).2
      = post.foldl (syncNamespace s secret (getDesiredState s secret st.world).1.1)
          (loopState s secret st (pre ++ [ns])) ∧
    (SyncState (upsertAsSuccess s) secret st).2.calls = (SyncState s secret st).2.calls ∧
    (SyncState (upsertAsSuccess s) secret st).2.world = (SyncState s secret st).2.world ∧
    (∀ typ n name data (st0 : State σ), (upsertSecret s typ n name data st0).1
      = (s.kubernetes.UpsertSecret (mkSecret typ n name data (s.Now st0.world).1)
          (s.Now st0.world).2).1) := by
  have hstep : loopState s secret st (pre ++ [ns])
      = syncNamespace s secret (getDesiredState s secret st.world).1.1
          (loopState s secret st pre) ns := by
    simp only [loopState, List.foldl_append, List.foldl]
  have hok := (readFailed_eq_false _).mpr hread
  have hu : (upsertSecret s secret.Typ ns secret.Name (getDesiredState s secret st.world).1.1
      (getCurrentState s ns secret.Name (loopState s secret st pre)).2).1.isSome = true := by
    rw [upsertSecret_fst]
    exact Option.isSome_iff_ne_none.mpr hfail
  have hbody : syncNamespace s secret (getDesiredState s secret st.world).1.1
      (loopState s secret st pre) ns
      = incErrors secret.Name ns (upsertSecret s secret.Typ ns secret.Name
          (getDesiredState s secret st.world).1.1
          (getCurrentState s ns secret.Name (loopState s secret st pre)).2).2 := by
    rw [syncNamespace_of_differ s secret _ _ ns hok hne, hu]
    rfl
  have hdes2 : (getDesiredState (upsertAsSuccess s) secret st.world)
      = (getDesiredState s secret st.world) := by
    unfold getDesiredState
    exact getDesiredStateLoop_congr (upsertAsSuccess s) s rfl rfl _ _ _
  have hdes3 : (getDesiredState (upsertAsSuccess s) secret st.world).1.2 = none := by
    rw [hdes2]; exact hdes
  have hcmp := foldl_syncNamespace_upsertAsSuccess s secret
    (getDesiredState s secret st.world).1.1 secret.Namespaces
    { st with world := (getDesiredState s secret st.world).2 }
    { st with world := (getDesiredState s secret st.world).2 } rfl rfl
  refine ⟨by rw [SyncState_of_ok s secret st hdes], ?_, ?_, ?_, ?_, ?_, ?_⟩
  · intro a b
    rw [hstep, hbody]
    simp only [incErrors, upsertSecret_count]
    by_cases hab : a = secret.Name ∧ b = ns
    · simp [hab, getCurrentState_eq]
    · simp [hab, getCurrentState_eq]
  · rw [hstep, hbody]
    simp only [incErrors]
    rw [upsertSecret_gauge_of_error s _ _ _ _ _ hfail]
    rfl
  · rw [SyncState_of_ok s secret st hdes, hns]
    simp only [loopState, List.foldl_append, List.foldl]
  · rw [SyncState_of_ok (upsertAsSuccess s) secret st hdes3, SyncState_of_ok s secret st hdes,
      hdes2]
    exact hcmp.2
  · rw [SyncState_of_ok (upsertAsSuccess s) secret st hdes3, SyncState_of_ok s secret st hdes,
      hdes2]
    exact hcmp.1
  · intro typ n name data st0
    exact upsertSecret_fst s typ n name data st0

/-- C13, witness: `TestSyncStateErrorUpsertSecret` with a second namespace:
the upsert for "ns1" fails, its counter goes to 1, "ns2" is still read and
written to, and the result is nil. -/
theorem SyncState_upsert_failure_witness :
    (SyncState rejectingManager (testSpec ["ns1", "ns2"]) (initState ())).1 = none ∧
    (loopState rejectingManager (testSpec ["ns1", "ns2"]) (initState ())
      ([] ++ ["ns1"])).secretSyncErrorsCount "secret-name" "ns1" = 1 ∧
    (SyncState rejectingManager (testSpec ["ns1", "ns2"]) (initState ())).2.calls.length = 4 :=
  have h := SyncState_upsert_failure rejectingManager (testSpec ["ns1", "ns2"]) (initState ())
    [] ["ns2"] "ns1" (by decide) rfl (Or.inl rfl) (by decide) (by decide)
  ⟨h.1, by rw [h.2.1]; decide, by decide⟩

/-! ## Convergence over a faithful store -/

/-- One iteration on `n` leaves what a faithful store holds elsewhere. -/
theorem syncNamespace_stored_frame {σ : Type} (s : secretManager σ) (hf : FaithfulStore s)
    (secret : SecretDefinitionSpec) (d : ByteMap) (st : State σ) (n ns name : String)
    (hne : ns ≠ n ∨ name ≠ secret.Name) :
    stored s (syncNamespace s secret d st n).world ns name = stored s st.world ns name := by
  rw [syncNamespace_world]
  split
  · exact hf.read_frame _ _ _ _ _
  · rw [hf.upsert_frame _ _ ns name (by simpa [mkSecret] using hne), hf.now_frame,
      hf.read_frame]

/-- The namespace loop leaves what a faithful store holds for other secret
names and for namespaces outside its list. -/
theorem foldl_syncNamespace_stored_frame {σ : Type} (s : secretManager σ)
    (hf : FaithfulStore s) (secret : SecretDefinitionSpec) (d : ByteMap) (nss : List String)
    (st : State σ) (ns name : String) (hne : name ≠ secret.Name ∨ ns ∉ nss) :
    stored s (nss.foldl (syncNamespace s secret d) st).world ns name
      = stored s st.world ns name := by
  induction nss generalizing st with
  | nil => rfl
  | cons n rest ih =>
    have hrest : name ≠ secret.Name ∨ ns ∉ rest := by
      rcases hne with h | h
      · exact Or.inl h
      · exact Or.inr (fun hm => h (List.mem_cons_of_mem _ hm))
    have hstep : ns ≠ n ∨ name ≠ secret.Name := by
      rcases hne with h | h
      · exact Or.inr h
      · exact Or.inl (fun heq => h (by rw [heq]; exact List.mem_cons_self _ _))
    rw [List.foldl, ih _ hrest, syncNamespace_stored_frame s hf secret d st n ns name hstep]

/-- C19: over a target store that faithfully holds what is upserted, whose
reads succeed or report not-found and whose writes are all accepted, when the
desired state is computed, after `SyncState` the Data stored for `spec.Name` in
every namespace of `spec.Namespaces` is deeply equal to the desired state, and
what is stored for every other secret name and in every namespace outside
`spec.Namespaces` is as before. -/
theorem SyncState_converges {σ : Type} (s : secretManager σ) (secret : SecretDefinitionSpec)
    (st : State σ) (hf : FaithfulStore s)
    (hacc : ∀ sec w, (s.kubernetes.UpsertSecret sec w).1 = none)
    (hdes : (getDesiredState s secret st.world).1.2 = none) :
    (∀ ns ∈ secret.Namespaces,
      DeepEqual (getDesiredState s secret st.world).1.1
        (stored s (SyncState s secret st).2.world ns secret.Name) = true) ∧
    (∀ ns name, (name ≠ secret.Name ∨ ns ∉ secret.Namespaces) →
      stored s (SyncState s secret st).2.world ns name = stored s st.world ns name) := by
  rcases getDesiredStateLoop_total s secret.Data [] st.world with ⟨err, herr⟩ | ⟨m, hm⟩
  · have h1 : (getDesiredState s secret st.world).1.2 = some err := by
      unfold getDesiredState; rw [herr]
    rw [h1] at hdes
    cases hdes
  · have hm1 : (getDesiredState s secret st.world).1 = (some m, none) := hm
    have hd : (getDesiredState s secret st.world).1.1 = some m := by rw [hm1]
    have hrefl : DeepEqual (some m) (some m) = true :=
      DeepEqual_refl m (getDesiredStateLoop_nodup s secret.Data [] st.world m
        (by simp [mapKeys]) hm)
    rw [SyncState_of_ok s secret st hdes, hd]
    obtain ⟨_, f2, _⟩ := foldl_syncNamespace_faithful s hf hacc secret (some m) hrefl
      secret.Namespaces { st with world := (getDesiredState s secret st.world).2 }
    refine ⟨f2, fun ns name hne => ?_⟩
    rw [foldl_syncNamespace_stored_frame s hf secret (some m) secret.Namespaces _ ns name hne]
    simp only [getDesiredState]
    exact getDesiredStateLoop_stored s hf secret.Data [] st.world ns name

/-- C19, witness: the in-memory store, empty at first, and the spec over two
entries and the namespaces ns1, ns2, ns1: afterwards ns1 and ns2 hold the
desired state and ns3 still holds nothing. -/
theorem SyncState_converges_witness :
    (SyncState (memoryManager false twoRows) repeatSpec
      (initState (emptyStore 0))).2.world.held "ns1" "secret-name"
      = some (some [("value1", some (ascii "fake-content")), ("value2", some (ascii "other"))]) ∧
    (∀ ns ∈ repeatSpec.Namespaces,
      DeepEqual (getDesiredState (memoryManager false twoRows) repeatSpec
          (initState (emptyStore 0)).world).1.1
        (stored (memoryManager false twoRows) (SyncState (memoryManager false twoRows) repeatSpec
          (initState (emptyStore 0))).2.world ns repeatSpec.Name) = true) ∧
    (∀ ns name, (name ≠ repeatSpec.Name ∨ ns ∉ repeatSpec.Namespaces) →
      stored (memoryManager false twoRows) (SyncState (memoryManager false twoRows) repeatSpec
        (initState (emptyStore 0))).2.world ns name
        = stored (memoryManager false twoRows) (initState (emptyStore 0)).world ns name) :=
  ⟨by decide,
    SyncState_converges (memoryManager false twoRows) repeatSpec (initState (emptyStore 0))
      (memoryManager_faithful false twoRows)
      (fun sec w => by simp [memoryManager, memoryStore]) (by decide)⟩

/-! ## Schema bootstrap -/

/-- C20: `CreateCRD` makes one `Create` call, with a namespace-scoped
definition of version "v1alpha1", plural "secretdefinitions", kind
"SecretDefinition" and object name "secretdefinitions." followed by the group
name.  It returns nil if and only if that call succeeds or fails with an
already-exists error, and returns every other error of the call unchanged. -/
theorem CreateCRD_spec {σ : Type} (clientset : Apiextensions σ) (GroupName : String) (w : σ) :
    ((CreateCRD clientset GroupName w).1 = none ↔
      ((clientset.Create (crd GroupName) w).1 = none ∨
       ∃ err, (clientset.Create (crd GroupName) w).1 = some err ∧
         clientset.IsAlreadyExists err = true)) ∧
    (∀ err, (clientset.Create (crd GroupName) w).1 = some err →
      clientset.IsAlreadyExists err = false → (CreateCRD clientset GroupName w).1 = some err) ∧
    (CreateCRD clientset GroupName w).2 = (clientset.Create (crd GroupName) w).2 ∧
    (crd GroupName).Spec.Scope = ResourceScope.NamespaceScoped ∧
    (crd GroupName).Spec.Version = "v1alpha1" ∧
    (crd GroupName).Spec.Names.Plural = "secretdefinitions" ∧
    (crd GroupName).Spec.Names.Kind = "SecretDefinition" ∧
    (crd GroupName).Spec.Group = GroupName ∧
    (crd GroupName).Name = "secretdefinitions." ++ GroupName := by
  refine ⟨?_, ?_, ?_, rfl, rfl, rfl, rfl, rfl, rfl⟩
  · unfold CreateCRD
    split
    · rename_i err w1 hc
      rw [hc]
      by_cases hx : clientset.IsAlreadyExists err = true
      · simp [hx]
      · simp [hx]
    · rename_i w1 hc
      rw [hc]
      simp
  · intro err hc hx
    unfold CreateCRD
    split
    · rename_i err1 w1 hc1
      rw [hc1] at hc
      simp only [Option.some.injEq] at hc
      subst hc
      simp [hx]
    · rename_i w1 hc1
      rw [hc1] at hc
      simp at hc
  · unfold CreateCRD
    split
    · rename_i err w1 hc
      rw [hc]
      split <;> rfl
    · rename_i w1 hc
      rw [hc]

/-- C20, witness: over a client that holds the definitions created, the first
`CreateCRD` creates the definition and the second one, which the client answers
with "already exists", returns nil too. -/
theorem CreateCRD_spec_witness :
    (CreateCRD memoryApiextensions "secrets-manager.tuenti.io" []).1 = none ∧
    (CreateCRD memoryApiextensions "secrets-manager.tuenti.io" []).2
      = ["secretdefinitions.secrets-manager.tuenti.io"] ∧
    (CreateCRD memoryApiextensions "secrets-manager.tuenti.io"
      (CreateCRD memoryApiextensions "secrets-manager.tuenti.io" []).2).1 = none :=
  ⟨((CreateCRD_spec memoryApiextensions "secrets-manager.tuenti.io" []).1).mpr (Or.inl rfl),
   by decide, by decide⟩

/-! ## Reconciler -/

theorem splitSlash_no_slash (name : List Char) (h : '/' ∉ name) : splitSlash name = [name] := by
  induction name with
  | nil => rfl
  | cons c cs ih =>
    have hc : ¬ c = '/' := fun heq => h (by rw [heq]; exact List.mem_cons_self _ _)
    have hcs : '/' ∉ cs := fun hm => h (List.mem_cons_of_mem _ hm)
    simp [splitSlash, hc, ih hcs]

theorem splitSlash_key (ns name : List Char) (h1 : '/' ∉ ns) (h2 : '/' ∉ name) :
    splitSlash (ns ++ '/' :: name) = [ns, name] := by
  induction ns with
  | nil => simp [splitSlash, splitSlash_no_slash name h2]
  | cons c cs ih =>
    have hc : ¬ c = '/' := fun heq => h1 (by rw [heq]; exact List.mem_cons_self _ _)
    have hcs : '/' ∉ cs := fun hm => h1 (List.mem_cons_of_mem _ hm)
    simp [splitSlash, hc, ih hcs]

/-- C15: a key "namespace/name", neither part holding a slash, is well formed:
it splits into its two parts.  For every well-formed key `syncHandler` returns
nil without invoking the Synchronizer when the Local Cache holds no definition
for that namespace and name; otherwise it invokes `SyncState` exactly once,
with the Spec of the definition, and returns its error unchanged.  In neither
case does it write through the definition client or the target-store client. -/
theorem syncHandler_spec {τ : Type} (c : Controller τ) (key ns name : String)
    (st : ControllerState τ) (hkey : SplitMetaNamespaceKey key = some (ns, name)) :
    (∀ n m : List Char, '/' ∉ n → '/' ∉ m →
      SplitMetaNamespaceKey (String.mk (n ++ '/' :: m)) = some (String.mk n, String.mk m)) ∧
    (c.secretDefinitionsLister ns name = none → syncHandler c key st = (none, st)) ∧
    (∀ secretDefinition, c.secretDefinitionsLister ns name = some secretDefinition →
      (syncHandler c key st).1 = (c.SyncState secretDefinition.Spec st.sync).1 ∧
      (syncHandler c key st).2.sync = (c.SyncState secretDefinition.Spec st.sync).2 ∧
      (syncHandler c key st).2.syncCalls = st.syncCalls ++ [secretDefinition.Spec]) ∧
    (syncHandler c key st).2.actions = st.actions ∧
    (syncHandler c key st).2.kubeactions = st.kubeactions := by
  refine ⟨fun n m hn hm => ?_, fun hnone => ?_, fun sd hsd => ?_, ?_, ?_⟩
  · simp only [SplitMetaNamespaceKey, splitSlash_key n m hn hm]
  · simp only [syncHandler, hkey, hnone]
  · simp [syncHandler, hkey, hsd]
  · simp only [syncHandler, hkey]
    cases c.secretDefinitionsLister ns name <;> rfl
  · simp only [syncHandler, hkey]
    cases c.secretDefinitionsLister ns name <;> rfl

/-- C15, witness: `TestCreatesDeployment`: for the key "default/test", whose
definition the Local Cache holds, `SyncState` is invoked once, with the spec of
the definition, the result is nil and no client action is recorded; for the key
"default/gone" nothing is invoked. -/
theorem syncHandler_spec_witness :
    (syncHandler testController "default/test" freshControllerState).1 = none ∧
    (syncHandler testController "default/test" freshControllerState).2.syncCalls = [(newSecretDefinition "test" "default").Spec] ∧
    (syncHandler testController "default/test" freshControllerState).2.sync = 1 ∧
    (syncHandler testController "default/test" freshControllerState).2.actions = [] ∧
    (syncHandler testController "default/gone" freshControllerState).2.syncCalls = [] :=
  have h := syncHandler_spec testController "default/test" "default" "test"
    freshControllerState (by decide)
  have h3 := h.2.2.1 (newSecretDefinition "test" "default") (by decide)
  ⟨h3.1, h3.2.2, h3.2.1, h.2.2.2.1, by decide⟩

/-! ## Namespace isolation -/

/-- An iteration whose read fails: the world the read left, no upsert, the
counter of the namespace raised by one. -/
theorem syncNamespace_proj_of_read_error {σ : Type} (s : secretManager σ)
    (secret : SecretDefinitionSpec) (d : ByteMap) (st : State σ) (n : String)
    (h : ((s.kubernetes.ReadSecret n secret.Name st.world).1.2.isSome &&
      !IsK8sSecretNotFound (s.kubernetes.ReadSecret n secret.Name st.world).1.2) = true) :
    (syncNamespace s secret d st n).world = (s.kubernetes.ReadSecret n secret.Name st.world).2 ∧
    upserts (syncNamespace s secret d st n).calls = upserts st.calls ∧
    (∀ a c, (syncNamespace s secret d st n).secretSyncErrorsCount a c
      = st.secretSyncErrorsCount a c + (if a = secret.Name ∧ c = n then 1 else 0)) := by
  rw [syncNamespace_of_read_error s secret d st n h]
  refine ⟨rfl, by simp [incErrors, getCurrentState_eq, upserts_append, upserts], fun a c => ?_⟩
  simp only [incErrors, getCurrentState_eq]
  by_cases hac : a = secret.Name ∧ c = n
  · simp [hac]
  · simp [hac]

/-- An iteration whose states are deeply equal: the world the read left, no
upsert, no counter moved. -/
theorem syncNamespace_proj_of_equal {σ : Type} (s : secretManager σ)
    (secret : SecretDefinitionSpec) (d : ByteMap) (st : State σ) (n : String)
    (h : ((s.kubernetes.ReadSecret n secret.Name st.world).1.2.isSome &&
      !IsK8sSecretNotFound (s.kubernetes.ReadSecret n secret.Name st.world).1.2) = false)
    (heq : DeepEqual d (s.kubernetes.ReadSecret n secret.Name st.world).1.1 = true) :
    (syncNamespace s secret d st n).world = (s.kubernetes.ReadSecret n secret.Name st.world).2 ∧
    upserts (syncNamespace s secret d st n).calls = upserts st.calls ∧
    (syncNamespace s secret d st n).secretSyncErrorsCount = st.secretSyncErrorsCount := by
  rw [syncNamespace_of_equal s secret d st n h heq]
  exact ⟨rfl, by simp [getCurrentState_eq, upserts_append, upserts], rfl⟩

/-- An iteration whose states differ and whose upsert is accepted: the world
the upsert left, one upsert of the record, no counter moved. -/
theorem syncNamespace_proj_of_write {σ : Type} (s : secretManager σ)
    (secret : SecretDefinitionSpec) (d : ByteMap) (st : State σ) (n : String)
    (h : ((s.kubernetes.ReadSecret n secret.Name st.world).1.2.isSome &&
      !IsK8sSecretNotFound (s.kubernetes.ReadSecret n secret.Name st.world).1.2) = false)
    (hne : DeepEqual d (s.kubernetes.ReadSecret n secret.Name st.world).1.1 = false)
    (hups : (s.kubernetes.UpsertSecret (mkSecret secret.Typ n secret.Name d
        (s.Now (s.kubernetes.ReadSecret n secret.Name st.world).2).1)
        (s.Now (s.kubernetes.ReadSecret n secret.Name st.world).2).2).1 = none) :
    (syncNamespace s secret d st n).world
      = (s.kubernetes.UpsertSecret (mkSecret secret.Typ n secret.Name d
          (s.Now (s.kubernetes.ReadSecret n secret.Name st.world).2).1)
          (s.Now (s.kubernetes.ReadSecret n secret.Name st.world).2).2).2 ∧
    upserts (syncNamespace s secret d st n).calls = upserts st.calls ++
      [mkSecret secret.Typ n secret.Name d
        (s.Now (s.kubernetes.ReadSecret n secret.Name st.world).2).1] ∧
    (syncNamespace s secret d st n).secretSyncErrorsCount = st.secretSyncErrorsCount := by
  have hw := syncNamespace_world s secret d st n
  have hc := syncNamespace_calls_eq s secret d st n
  simp only [h, hne, Bool.false_eq_true, or_self, if_false] at hw hc
  refine ⟨hw, by rw [hc]; simp [upserts_append, upserts], ?_⟩
  rw [syncNamespace_of_differ s secret d st n h hne]
  have hu : (upsertSecret s secret.Typ n secret.Name d
      (getCurrentState s n secret.Name st).2).1 = none := by
    rw [upsertSecret_fst]; exact hups
  rw [hu]
  simp only [Option.isSome_none, Bool.false_eq_true, if_false]
  rw [upsertSecret_count]
  rfl

theorem upserts_append_singleton_countP (l : List Secret) (sec : Secret) (ns : String) :
    (l ++ [sec]).countP (fun x => decide (x.Namespace = ns))
      = l.countP (fun x => decide (x.Namespace = ns)) + (if sec.Namespace = ns then 1 else 0) := by
  rw [List.countP_append]
  by_cases h : sec.Namespace = ns <;> simp [h]

/-- The namespace loop with the namespace `b` unreadable.  `W` holds the
namespaces already written: a namespace of the list other than `b` reads
successfully (or not-found), deeply equal to the desired state exactly when it
is in `W`.  The store keeps writes, or else the list has no duplicate.  Then
each namespace of the list other than `b` and outside `W` is written once, `b`
and the rest never, and only the counter of `b` moves, once per occurrence. -/
theorem foldl_syncNamespace_isolated {σ : Type} (s : secretManager σ) (hframe : StoreFrame s)
    (secret : SecretDefinitionSpec) (d : ByteMap) (hrefl : DeepEqual d d = true) (b : String)
    (hups : ∀ sec w, sec.Namespace ≠ b → (s.kubernetes.UpsertSecret sec w).1 = none)
    (rest W : List String) (st : State σ)
    (hkeep : keepsWrites s b ∨ (rest.Nodup ∧ ∀ ns ∈ rest, ns ∉ W))
    (hb : (peek s st.world b secret.Name).2 ≠ none ∧
      IsK8sSecretNotFound (peek s st.world b secret.Name).2 = false)
    (hinv : ∀ ns ∈ rest, ns ≠ b →
      ((peek s st.world ns secret.Name).2 = none ∨
        IsK8sSecretNotFound (peek s st.world ns secret.Name).2 = true) ∧
      DeepEqual d (peek s st.world ns secret.Name).1 = decide (ns ∈ W)) :
    (∀ ns, (upserts (rest.foldl (syncNamespace s secret d) st).calls).countP
        (fun sec => decide (sec.Namespace = ns))
      = (upserts st.calls).countP (fun sec => decide (sec.Namespace = ns))
        + (if ns ∈ rest ∧ ns ≠ b ∧ ns ∉ W then 1 else 0)) ∧
    (∀ name ns, (rest.foldl (syncNamespace s secret d) st).secretSyncErrorsCount name ns
      = st.secretSyncErrorsCount name ns
        + (if name = secret.Name ∧ ns = b then rest.count b else 0)) := by
  induction rest generalizing W st with
  | nil => exact ⟨fun ns => by simp, fun name ns => by simp⟩
  | cons n rest ih =>
    rw [List.foldl]
    have hkeep_tail : ∀ W2 : List String, (∀ ns ∈ rest, ns ∉ W → ns ≠ n → ns ∉ W2) →
        (keepsWrites s b ∨ (rest.Nodup ∧ ∀ ns ∈ rest, ns ∉ W2)) := by
      intro W2 hW2
      rcases hkeep with hk | ⟨hnd, hnw⟩
      · exact Or.inl hk
      · rw [List.nodup_cons] at hnd
        refine Or.inr ⟨hnd.2, fun ns hns => ?_⟩
        exact hW2 ns hns (hnw ns (List.mem_cons_of_mem _ hns))
          (fun heq => hnd.1 (by rw [← heq]; exact hns))
    by_cases hn : n = b
    · -- the read of `b` fails
      subst hn
      have hfail : ((s.kubernetes.ReadSecret n secret.Name st.world).1.2.isSome &&
          !IsK8sSecretNotFound (s.kubernetes.ReadSecret n secret.Name st.world).1.2) = true := by
        obtain ⟨h1, h2⟩ := hb
        simp only [peek] at h1 h2
        rw [h2]
        cases hx : (s.kubernetes.ReadSecret n secret.Name st.world).1.2 with
        | none => exact absurd hx h1
        | some e => rfl
      obtain ⟨pw, pu, pc⟩ := syncNamespace_proj_of_read_error s secret d st n hfail
      have hpeek : ∀ ns name, peek s (syncNamespace s secret d st n).world ns name
          = peek s st.world ns name := by
        intro ns name
        rw [pw]; exact hframe.read_frame _ _ _ _ _
      obtain ⟨ih1, ih2⟩ := ih W (syncNamespace s secret d st n)
        (hkeep_tail W (fun ns _ hw _ => hw))
        (by rw [hpeek]; exact hb)
        (fun ns hns hne => by rw [hpeek]; exact hinv ns (List.mem_cons_of_mem _ hns) hne)
      refine ⟨fun ns => ?_, fun name ns => ?_⟩
      · rw [ih1 ns, pu]
        by_cases hnsb : ns = n
        · simp [hnsb]
        · simp [hnsb]
      · rw [ih2 name ns, pc name ns, List.count_cons_self]
        by_cases hc : name = secret.Name ∧ ns = n
        · simp only [hc, and_self, if_true]
          omega
        · simp only [hc, if_false]
          try omega
    · obtain ⟨hr, hde⟩ := hinv n (List.mem_cons_self _ _) hn
      simp only [peek] at hr hde
      have hok := (readFailed_eq_false _).mpr hr
      have hcount_tail : ∀ ns : String,
          (n :: rest).count ns = rest.count ns + (if n = ns then 1 else 0) := by
        intro ns
        rw [List.count_cons]
        by_cases h : n = ns <;> simp [h]
      by_cases hW : n ∈ W
      · -- already written: deeply equal, nothing to do
        have heq : DeepEqual d (s.kubernetes.ReadSecret n secret.Name st.world).1.1 = true := by
          rw [hde]; simp [hW]
        obtain ⟨pw, pu, pc⟩ := syncNamespace_proj_of_equal s secret d st n hok heq
        have hpeek : ∀ ns name, peek s (syncNamespace s secret d st n).world ns name
            = peek s st.world ns name := by
          intro ns name
          rw [pw]; exact hframe.read_frame _ _ _ _ _
        obtain ⟨ih1, ih2⟩ := ih W (syncNamespace s secret d st n)
          (hkeep_tail W (fun ns _ hw _ => hw))
          (by rw [hpeek]; exact hb)
          (fun ns hns hne => by rw [hpeek]; exact hinv ns (List.mem_cons_of_mem _ hns) hne)
        refine ⟨fun ns => ?_, fun name ns => ?_⟩
        · rw [ih1 ns, pu]
          by_cases hnsn : ns = n
          · subst hnsn
            simp [hW]
          · simp [hnsn]
        · rw [ih2 name ns, pc, hcount_tail]
          have hnb : ¬ n = b := hn
          simp [hnb]
      · -- pending: the states differ, the upsert is made and accepted
        have hne : DeepEqual d (s.kubernetes.ReadSecret n secret.Name st.world).1.1 = false := by
          rw [hde]; simp [hW]
        have hacc := hups (mkSecret secret.Typ n secret.Name d
            (s.Now (s.kubernetes.ReadSecret n secret.Name st.world).2).1)
            (s.Now (s.kubernetes.ReadSecret n secret.Name st.world).2).2 hn
        obtain ⟨pw, pu, pc⟩ := syncNamespace_proj_of_write s secret d st n hok hne hacc
        have hpeek : ∀ ns name, (ns ≠ n ∨ name ≠ secret.Name) →
            peek s (syncNamespace s secret d st n).world ns name = peek s st.world ns name := by
          intro ns name hne2
          rw [pw, hframe.upsert_frame _ _ ns name (by simpa [mkSecret] using hne2),
            hframe.now_frame, hframe.read_frame]
        have hbn : b ≠ n := fun h => hn h.symm
        obtain ⟨ih1, ih2⟩ := ih (n :: W) (syncNamespace s secret d st n)
          (hkeep_tail (n :: W) (fun ns _ hw hnn => by
            simp only [List.mem_cons, not_or]
            exact ⟨hnn, hw⟩))
          (by rw [hpeek b secret.Name (Or.inl hbn)]; exact hb)
          (fun ns hns hne2 => by
            by_cases hnsn : ns = n
            · subst hnsn
              rcases hkeep with hk | ⟨hnd, _⟩
              · have hk2 := hk (s.Now (s.kubernetes.ReadSecret ns secret.Name st.world).2).2
                  (mkSecret secret.Typ ns secret.Name d
                    (s.Now (s.kubernetes.ReadSecret ns secret.Name st.world).2).1) hn hacc
                simp only [mkSecret] at hk2
                simp only [mkSecret] at pw
                rw [pw, hk2]
                simp [hrefl]
              · rw [List.nodup_cons] at hnd
                exact absurd hns hnd.1
            · rw [hpeek ns secret.Name (Or.inl hnsn)]
              obtain ⟨h1, h2⟩ := hinv ns (List.mem_cons_of_mem _ hns) hne2
              refine ⟨h1, ?_⟩
              rw [h2]
              simp [hnsn])
        refine ⟨fun ns => ?_, fun name ns => ?_⟩
        · rw [ih1 ns, pu, upserts_append_singleton_countP]
          by_cases hnsn : ns = n
          · subst hnsn
            simp [mkSecret, hn, hW]
          · have hnns : ¬ n = ns := fun h => hnsn h.symm
            simp [mkSecret, hnsn, hnns]
        · rw [ih2 name ns, pc, hcount_tail]
          have hnb : ¬ n = b := hn
          simp [hnb]

theorem peek_brokenManager (b : String) (rows : List fakeBackendSecret) (w : StoreWorld)
    (ns name : String) :
    peek (brokenManager b rows) w ns name =
      if ns = b then (none, some (Error.Other "some error"))
      else match w.held ns name with
        | some data => (data, none)
        | none => (none, some (Error.K8sSecretNotFound ns name)) := by
  simp only [peek, brokenManager, brokenStore]
  by_cases h : ns = b
  · simp [h]
  · simp only [h, if_false]
    cases w.held ns name <;> rfl

/-- The in-memory store with an unreadable namespace is a framed store. -/
theorem brokenManager_frame (b : String) (rows : List fakeBackendSecret) :
    StoreFrame (brokenManager b rows) := by
  constructor
  · intro w ns0 name0 ns name
    rw [peek_brokenManager, peek_brokenManager]
    have hw : ((brokenManager b rows).kubernetes.ReadSecret ns0 name0 w).2 = w := by
      simp only [brokenManager, brokenStore]
      by_cases h : ns0 = b
      · simp [h]
      · simp only [h, if_false]
        cases w.held ns0 name0 <;> rfl
    rw [hw]
  · intro w ns name
    rfl
  · intro w sec ns name hne
    rw [peek_brokenManager, peek_brokenManager]
    have hcond : ¬ (ns = sec.Namespace ∧ name = sec.Name) := by
      rintro ⟨h1, h2⟩
      rcases hne with h | h
      · exact h h1
      · exact h h2
    simp [brokenManager, brokenStore, hcond]

/-- The in-memory store with the namespace `b` unreadable keeps what is written
outside `b`. -/
theorem brokenManager_keepsWrites (b : String) (rows : List fakeBackendSecret) :
    keepsWrites (brokenManager b rows) b := by
  intro w sec hne _
  rw [peek_brokenManager]
  simp [brokenManager, brokenStore, hne]

/-- A store with canned answers is a framed store. -/
theorem mockManager_frame (rows : List fakeBackendSecret)
    (read : String → String → ByteMap × Option Error) (upsert : Secret → Option Error) :
    StoreFrame (mockManager rows read upsert) :=
  ⟨fun _ _ _ _ _ => rfl, fun _ _ _ => rfl, fun _ _ _ _ _ => rfl⟩

/-- C3 (amended): let the desired state be computed and let the target store
be one in which a call leaves what is read for other secrets, and which keeps
what is written (or let no namespace be listed twice).  If, when the namespace
loop starts, the read of namespace `b` fails with an error other than not-found
while every other declared namespace reads (or is not-found) with content
different from the desired state, and writes outside `b` are accepted, then
`SyncState` returns nil, attempts exactly one `UpsertSecret` for each declared
namespace other than `b`, carrying the desired state, and none for `b` or for
any other namespace, and the error counter of `(spec.Name, b)` grows by the
number of occurrences of `b` in `spec.Namespaces` (by one when `b` is listed
once) while no other counter moves. -/
theorem SyncState_namespace_isolation {σ : Type} (s : secretManager σ)
    (secret : SecretDefinitionSpec) (st : State σ) (b : String)
    (hdes : (getDesiredState s secret st.world).1.2 = none)
    (hframe : StoreFrame s)
    (hkeep : keepsWrites s b ∨ secret.Namespaces.Nodup)
    (hb : (peek s (getDesiredState s secret st.world).2 b secret.Name).2 ≠ none ∧
      IsK8sSecretNotFound (peek s (getDesiredState s secret st.world).2 b secret.Name).2 = false)
    (hother : ∀ ns ∈ secret.Namespaces, ns ≠ b →
      ((peek s (getDesiredState s secret st.world).2 ns secret.Name).2 = none ∨
        IsK8sSecretNotFound (peek s (getDesiredState s secret st.world).2 ns secret.Name).2
          = true) ∧
      DeepEqual (getDesiredState s secret st.world).1.1
        (peek s (getDesiredState s secret st.world).2 ns secret.Name).1 = false)
    (hups : ∀ sec w, sec.Namespace ≠ b → (s.kubernetes.UpsertSecret sec w).1 = none) :
    (SyncState s secret st).1 = none ∧
    (∀ ns, (upserts (SyncState s secret st).2.calls).countP
        (fun sec => decide (sec.Namespace = ns))
      = (upserts st.calls).countP (fun sec => decide (sec.Namespace = ns))
        + (if ns ∈ secret.Namespaces ∧ ns ≠ b then 1 else 0)) ∧
    (∃ new, (SyncState s secret st).2.calls = st.calls ++ new ∧
      ∀ sec ∈ upserts new, sec.Name = secret.Name ∧
        sec.Data = (getDesiredState s secret st.world).1.1) ∧
    (∀ name ns, (SyncState s secret st).2.secretSyncErrorsCount name ns
      = st.secretSyncErrorsCount name ns
        + (if name = secret.Name ∧ ns = b then secret.Namespaces.count b else 0)) := by
  rcases getDesiredStateLoop_total s secret.Data [] st.world with ⟨err, herr⟩ | ⟨m, hm⟩
  · have h1 : (getDesiredState s secret st.world).1.2 = some err := by
      unfold getDesiredState; rw [herr]
    rw [h1] at hdes
    cases hdes
  · have hm1 : (getDesiredState s secret st.world).1 = (some m, none) := hm
    have hd : (getDesiredState s secret st.world).1.1 = some m := by rw [hm1]
    have hrefl : DeepEqual (getDesiredState s secret st.world).1.1
        (getDesiredState s secret st.world).1.1 = true := by
      rw [hd]
      exact DeepEqual_refl m (getDesiredStateLoop_nodup s secret.Data [] st.world m
        (by simp [mapKeys]) hm)
    obtain ⟨blocks, hall, hcalls⟩ := foldl_syncNamespace_calls s secret
      (getDesiredState s secret st.world).1.1 secret.Namespaces
      { st with world := (getDesiredState s secret st.world).2 }
    obtain ⟨f1, f2⟩ := foldl_syncNamespace_isolated s hframe secret
      (getDesiredState s secret st.world).1.1 hrefl b hups secret.Namespaces []
      { st with world := (getDesiredState s secret st.world).2 }
      (by
        rcases hkeep with h | h
        · exact Or.inl h
        · exact Or.inr ⟨h, fun ns _ => List.not_mem_nil ns⟩)
      hb
      (fun ns hns hne => by
        obtain ⟨h1, h2⟩ := hother ns hns hne
        exact ⟨h1, by rw [h2]; simp⟩)
    rw [SyncState_of_ok s secret st hdes]
    refine ⟨rfl, fun ns => ?_, ⟨blocks.flatten, hcalls, fun sec hsec => ?_⟩, f2⟩
    · have := f1 ns
      simpa using this
    · obtain ⟨ns, _, w, hw⟩ := upserts_of_blocks_record s secret _ _ blocks hall sec hsec
      subst hw
      exact ⟨rfl, rfl⟩

/-- C3, witness.  First the in-memory store, which keeps what is written, with
"ns2" unreadable and every other namespace holding stale content, over the list
ns1, ns2, ns3, ns1: one write for ns1, one for ns3, none for ns2, error counter
1 for ns2 only.  Then the run of `TestSyncStateErrorGetCurrentInOneSecret`,
whose store has canned answers, over ns1, ns2, ns3. -/
theorem SyncState_namespace_isolation_witness :
    ((SyncState (brokenManager "ns2" testBackendRows) (testSpec ["ns1", "ns2", "ns3", "ns1"])
        (initState staleStore)).1 = none ∧
      (upserts (SyncState (brokenManager "ns2" testBackendRows)
        (testSpec ["ns1", "ns2", "ns3", "ns1"]) (initState staleStore)).2.calls).map
          (fun sec => (sec.Namespace, sec.Name, sec.Data))
        = [("ns1", "secret-name", some [("value1", some (ascii "fake-content"))]),
           ("ns3", "secret-name", some [("value1", some (ascii "fake-content"))])] ∧
      ∀ name ns, (SyncState (brokenManager "ns2" testBackendRows)
          (testSpec ["ns1", "ns2", "ns3", "ns1"])
          (initState staleStore)).2.secretSyncErrorsCount name ns
        = 0 + (if name = "secret-name" ∧ ns = "ns2" then 1 else 0)) ∧
    ((SyncState isolationManager (testSpec ["ns1", "ns2", "ns3"]) (initState ())).1 = none ∧
      ∀ ns, (upserts (SyncState isolationManager (testSpec ["ns1", "ns2", "ns3"])
          (initState ())).2.calls).countP (fun sec => decide (sec.Namespace = ns))
        = 0 + (if ns ∈ ["ns1", "ns2", "ns3"] ∧ ns ≠ "ns2" then 1 else 0)) :=
  have h1 := SyncState_namespace_isolation (brokenManager "ns2" testBackendRows)
    (testSpec ["ns1", "ns2", "ns3", "ns1"]) (initState staleStore) "ns2" (by decide)
    (brokenManager_frame "ns2" testBackendRows)
    (Or.inl (brokenManager_keepsWrites "ns2" testBackendRows))
    (by decide)
    (fun ns hns hne => by
      simp only [testSpec, List.mem_cons, List.mem_singleton, List.not_mem_nil, or_false] at hns
      rcases hns with h | h | h | h
      · subst h; decide
      · exact absurd h hne
      · subst h; decide
      · subst h; decide)
    (fun _ _ _ => rfl)
  have h2 := SyncState_namespace_isolation isolationManager (testSpec ["ns1", "ns2", "ns3"])
    (initState ()) "ns2" (by decide) (mockManager_frame _ _ _) (Or.inr (by decide))
    (by decide)
    (fun ns hns hne => by
      simp only [testSpec, List.mem_cons, List.mem_singleton, List.not_mem_nil, or_false] at hns
      rcases hns with h | h | h
      · subst h; decide
      · exact absurd h hne
      · subst h; decide)
    (fun _ _ _ => rfl)
  ⟨⟨h1.1, rfl, h1.2.2.2⟩, ⟨h2.1, h2.2.1⟩⟩

/-- C3, counterexample: the in-memory store, which keeps what is written, with
the unreadable namespace "ns2" declared twice.  All premises hold: the desired
state is computed, only "ns2" fails to read, "ns1" holds different content and
takes its write.  One upsert is made, for "ns1", and the error counter of
("secret-name", "ns2") goes from 0 to 2, not to 1. -/
theorem unreadable_namespace_listed_twice_counts_twice :
    (getDesiredState (brokenManager "ns2" testBackendRows) (testSpec ["ns1", "ns2", "ns2"])
      staleStore).1 = (some [("value1", some (ascii "fake-content"))], none) ∧
    peek (brokenManager "ns2" testBackendRows) staleStore "ns2" "secret-name"
      = (none, some (Error.Other "some error")) ∧
    IsK8sSecretNotFound (some (Error.Other "some error")) = false ∧
    peek (brokenManager "ns2" testBackendRows) staleStore "ns1" "secret-name"
      = (fakeCurrentSecretData, none) ∧
    DeepEqual (some [("value1", some (ascii "fake-content"))]) fakeCurrentSecretData = false ∧
    (∀ sec w, ((brokenManager "ns2" testBackendRows).kubernetes.UpsertSecret sec w).1 = none) ∧
    (upserts (SyncState (brokenManager "ns2" testBackendRows) (testSpec ["ns1", "ns2", "ns2"])
      (initState staleStore)).2.calls).map (fun sec => sec.Namespace) = ["ns1"] ∧
    (initState staleStore).secretSyncErrorsCount "secret-name" "ns2" = 0 ∧
    (SyncState (brokenManager "ns2" testBackendRows) (testSpec ["ns1", "ns2", "ns2"])
      (initState staleStore)).2.secretSyncErrorsCount "secret-name" "ns2" = 2 := by
  refine ⟨by decide, by decide, rfl, by decide, by decide, fun _ _ => rfl, by decide, rfl, ?_⟩
  decide

end SecretsManager
